import Mathlib

/-!
The ipv6test service: address normalisation and candidate extraction.

A shallow embedding of `app/main.go` (functions `stripPort`, `normalize`,
`extractIPs`, `clientIP`, `lookupGeo`, `textHandler`, `geoHandler`) together
with the parts of the Go standard library these functions call
(`strings.TrimSpace`, `strings.HasPrefix`, `strings.Contains`, `strings.Trim`,
`strings.Index`, `strings.TrimPrefix`, `strings.Split`, `net.SplitHostPort`,
`net.ParseIP`, `IP.To4`, `IP.String`, `time.Since`).
The library functions follow the Go standard library in which `net.ParseIP`
is implemented by `netip.ParseAddr` (Go 1.22).

Strings are lists of Unicode scalar values (`Str`), that is, the Go strings
that are valid UTF-8.  Every byte-level search the code performs looks for an
ASCII byte, and an ASCII byte never occurs inside a multi-byte UTF-8 sequence,
so byte indices are replaced by character indices without changing any result.
Bytes and 16-bit groups are natural numbers.  A function that returns an error
in Go returns `none` here.

The file has three parts: the definitions, lemmas on the library functions and
on the steps of the program, and the theorems on `normalize`, `extractIPs`,
`clientIP`, `lookupGeo` and the handlers.
-/

namespace Ipv6test

/-- A Go string, as the list of its characters. -/
abbrev Str := List Char

/-! ## Package `strings` -/

/-- The Go predicate `unicode.IsSpace`: the Latin-1 spaces and the characters
with the Unicode White_Space property. -/
def isSpace (c : Char) : Bool :=
  let n := c.toNat
  n = 0x09 || n = 0x0A || n = 0x0B || n = 0x0C || n = 0x0D || n = 0x20 ||
  n = 0x85 || n = 0xA0 || n = 0x1680 || (0x2000 ≤ n && n ≤ 0x200A) ||
  n = 0x2028 || n = 0x2029 || n = 0x202F || n = 0x205F || n = 0x3000

/-- The Go function `strings.TrimSpace`: leading, then trailing white space is
removed. -/
def TrimSpace (s : Str) : Str :=
  (s.dropWhile isSpace).rdropWhile isSpace

/-- The Go function `strings.HasPrefix`. -/
def HasPrefix (s pre : Str) : Bool :=
  pre.isPrefixOf s

/-- The Go function `strings.Index`: the index of the first occurrence of
`substr` in `s`, or `none` where Go returns `-1`. -/
def Index : Str → Str → Option Nat
  | [], substr => if substr = [] then some 0 else none
  | c :: t, substr =>
    if HasPrefix (c :: t) substr then some 0
    else (Index t substr).map (· + 1)

/-- The Go function `strings.Contains`. -/
def Contains (s substr : Str) : Bool :=
  (Index s substr).isSome

/-- The Go function `strings.Trim`: all leading and trailing characters that
belong to `cutset` are removed. -/
def Trim (s cutset : Str) : Str :=
  (s.dropWhile (fun c => decide (c ∈ cutset))).rdropWhile (fun c => decide (c ∈ cutset))

/-- The Go function `strings.TrimPrefix`. -/
def TrimPrefix (s pre : Str) : Str :=
  if HasPrefix s pre then s.drop pre.length else s

/-- The Go function `strings.Split` for a separator of one character (the only
use in the program is `strings.Split(rawXFF, ",")`). -/
def Split : Str → Char → List Str
  | [], _ => [[]]
  | c :: t, sep =>
    if c = sep then [] :: Split t sep
    else
      match Split t sep with
      | [] => [[c]]
      | h :: r => (c :: h) :: r

/-! ## Package `net`: `SplitHostPort` -/

/-- Index of the first occurrence of the character `c` (`bytealg.IndexByteString`),
`none` where Go returns `-1`. -/
def IndexByte : Str → Char → Option Nat
  | [], _ => none
  | x :: t, c => if x = c then some 0 else (IndexByte t c).map (· + 1)

/-- Index of the last occurrence of the character `c`
(`bytealg.LastIndexByteString`), `none` where Go returns `-1`. -/
def LastIndexByte : Str → Char → Option Nat
  | [], _ => none
  | x :: t, c =>
    match LastIndexByte t c with
    | some i => some (i + 1)
    | none => if x = c then some 0 else none

/-- The Go function `net.SplitHostPort`.  The result is `some (host, port)`
where Go returns a nil error and `none` where it returns an `AddrError`. -/
def SplitHostPort (hostport : Str) : Option (Str × Str) :=
  -- The port starts after the last colon.
  match LastIndexByte hostport ':' with
  | none => none -- missing port in address
  | some i =>
    if hostport.head? = some '[' then
      -- Expect the first ']' just before the last ':'.
      match IndexByte hostport ']' with
      | none => none -- missing ']' in address
      | some e =>
        if e + 1 = hostport.length then none -- missing port in address
        else if e + 1 = i then
          let host := (hostport.take e).drop 1
          if (IndexByte (hostport.drop 1) '[').isSome then none
          else if (IndexByte (hostport.drop (e + 1)) ']').isSome then none
          else some (host, hostport.drop (i + 1))
        else none -- too many colons, or missing port
    else
      let host := hostport.take i
      if (IndexByte host ':').isSome then none -- too many colons in address
      else if (IndexByte hostport '[').isSome then none
      else if (IndexByte hostport ']').isSome then none
      else some (host, hostport.drop (i + 1))

/-! ## The program: `stripPort` and `normalize` -/

/-- The last three lines of `stripPort`: the host of `s` when `s` splits as
`host:port`, and `s` itself otherwise. -/
def stripPortTail (s : Str) : Str :=
  match SplitHostPort s with
  | some (h, _) => h
  | none => s

/-- The function `stripPort` of `main.go`: removes `:port` if present (handles
`IPv4:port` and `[IPv6]:port`). -/
def stripPort (s : Str) : Str :=
  let s := TrimSpace s
  if HasPrefix s "[".toList && Contains s "]".toList then
    match SplitHostPort s with
    | some (h, _) => Trim h "[]".toList
    | none => stripPortTail (Trim s "[]".toList)
  else stripPortTail s

/-- The function `normalize` of `main.go`: strips `:port`, zone ids, and the
`::ffff:` prefix. -/
def normalize (ip : Str) : Str :=
  let ip := stripPort ip
  let ip := match Index ip "%".toList with
    | some i => ip.take i
    | none => ip
  let ip := TrimPrefix ip "::ffff:".toList
  TrimSpace ip

/-! ## Package `net`: `ParseIP`, `To4`, `String` -/

/-- An IP address as `net.IP`: a slice of bytes. -/
abbrev IP := List Nat

/-- The decimal digits test `'0' <= c && c <= '9'`. -/
def isDigit (c : Char) : Bool :=
  decide ('0'.toNat ≤ c.toNat) && decide (c.toNat ≤ '9'.toNat)

/-- The loop of `netip.parseIPv4Fields` over the remaining characters.
`prev` is the character before the current one (`none` at index 0), `val` and
`digLen` are the variables of the same name, and `fields` holds the `pos`
octets stored so far. -/
def parseIPv4FieldsLoop : Str → Option Char → Nat → Nat → List Nat → Option (List Nat)
  | [], _, val, _, fields =>
    if fields.length < 3 then none -- IPv4 address too short
    else some (fields ++ [val % 256])
  | c :: rest, prev, val, digLen, fields =>
    if isDigit c then
      if digLen = 1 ∧ val = 0 then none -- octet with leading zero
      else
        let val := val * 10 + (c.toNat - '0'.toNat)
        if val > 255 then none -- field has value >255
        else parseIPv4FieldsLoop rest (some c) val (digLen + 1) fields
    else if c = '.' then
      if prev = none ∨ rest = [] ∨ prev = some '.' then none -- field without digit
      else if fields.length = 3 then none -- IPv4 address too long
      else parseIPv4FieldsLoop rest (some c) 0 0 (fields ++ [val % 256])
    else none -- unexpected character

/-- The Go function `netip.parseIPv4Fields` on the substring `s`: the four
octets of a dotted-quad literal. -/
def parseIPv4Fields (s : Str) : Option (List Nat) :=
  parseIPv4FieldsLoop s none 0 0 []

/-- The value of a hexadecimal digit, `none` for any other character. -/
def hexVal (c : Char) : Option Nat :=
  if '0'.toNat ≤ c.toNat ∧ c.toNat ≤ '9'.toNat then some (c.toNat - '0'.toNat)
  else if 'a'.toNat ≤ c.toNat ∧ c.toNat ≤ 'f'.toNat then some (c.toNat - 'a'.toNat + 10)
  else if 'A'.toNat ≤ c.toNat ∧ c.toNat ≤ 'F'.toNat then some (c.toNat - 'A'.toNat + 10)
  else none

/-- The inner loop of `netip.parseIPv6` that reads one hexadecimal group:
from the remaining string, the number `off` of digits read so far and the
accumulator, the result is `some (acc, off, rest)` when the loop stops at the
first character that is no hexadecimal digit, and `none` when it fails (more
than four digits, or a value above `0xffff`). -/
def parseHex : Str → Nat → Nat → Option (Nat × Nat × Str)
  | [], off, acc => some (acc, off, [])
  | c :: rest, off, acc =>
    match hexVal c with
    | none => some (acc, off, c :: rest)
    | some d =>
      let acc := (acc * 16 + d) % 2 ^ 32
      if off > 3 then none -- each group must have 4 or less digits
      else if acc > 65535 then none -- IPv6 field has value >=2^16
      else parseHex rest (off + 1) acc

/-- The main loop `for i < 16` of `netip.parseIPv6`.  The state is the
remaining string `s`, the bytes `ip[0:i]` written so far (so `i` is the length
of that list) and the position of the ellipsis; the first argument bounds the
number of iterations (eight suffice, each adds at least two bytes).  The result
is the state at the exit of the loop, or `none` on a parse error. -/
def parseIPv6Loop : Nat → Str → List Nat → Option Nat → Option (Str × List Nat × Option Nat)
  | 0, s, ip, ellipsis => some (s, ip, ellipsis)
  | k + 1, s, ip, ellipsis =>
    if 16 ≤ ip.length then some (s, ip, ellipsis)
    else
      match parseHex s 0 0 with
      | none => none
      | some (acc, off, rest) =>
        if off = 0 then none -- field without digit
        else if rest.head? = some '.' then
          -- If followed by dot, might be in trailing IPv4.
          if ellipsis = none ∧ ip.length ≠ 12 then none -- not the right place
          else if ip.length + 4 > 16 then none -- not enough room
          else
            match parseIPv4Fields s with
            | none => none
            | some fields => some ([], ip ++ fields, ellipsis)
        else
          -- Save this 16-bit chunk.
          let ip := ip ++ [acc / 256 % 256, acc % 256]
          match rest with
          | [] => some ([], ip, ellipsis) -- stop at end of string
          | c :: rest =>
            if c ≠ ':' then none -- unexpected character, want colon
            else
              match rest with
              | [] => none -- colon must be followed by more characters
              | d :: rest2 =>
                if d = ':' then
                  -- Look for ellipsis.
                  if ellipsis.isSome then none -- multiple :: in address
                  else if rest2 = [] then some ([], ip, some ip.length)
                  else parseIPv6Loop k rest2 ip (some ip.length)
                else parseIPv6Loop k (d :: rest2) ip ellipsis

/-- The part of `netip.parseIPv6` after the zone has been split off: the
sixteen bytes of the IPv6 literal `s`. -/
def parseIPv6Body (s : Str) : Option (List Nat) :=
  -- Might have leading ellipsis
  let lead : Bool := HasPrefix s "::".toList
  let s := if lead then s.drop 2 else s
  let ellipsis : Option Nat := if lead then some 0 else none
  if lead ∧ s = [] then some (List.replicate 16 0) -- only ellipsis
  else
    match parseIPv6Loop 8 s [] ellipsis with
    | none => none
    | some (s, ip, ellipsis) =>
      if s ≠ [] then none -- trailing garbage after address
      else if ip.length < 16 then
        -- If didn't parse enough, expand ellipsis.
        match ellipsis with
        | none => none -- address string too short
        | some e => some (ip.take e ++ List.replicate (16 - ip.length) 0 ++ ip.drop e)
      else if ellipsis.isSome then none -- the :: must expand to at least one field
      else some ip

/-- The Go function `netip.parseIPv6`: the sixteen bytes and the zone of an
IPv6 literal.  The zone is split off right from the start, at the first `%`. -/
def parseIPv6 (inp : Str) : Option (List Nat × Str) :=
  match IndexByte inp '%' with
  | some i =>
    if inp.drop (i + 1) = [] then none -- zone must be a non-empty string
    else (parseIPv6Body (inp.take i)).map (fun ip => (ip, inp.drop (i + 1)))
  | none => (parseIPv6Body inp).map (fun ip => (ip, []))

/-- A parsed address as `netip.Addr`: the four bytes of an IPv4 address, or the
sixteen bytes and the zone of an IPv6 address. -/
inductive Addr where
  | v4 (bytes : List Nat)
  | v6 (bytes : List Nat) (zone : Str)
  deriving DecidableEq, Repr

/-- The dispatch of `netip.ParseAddr`: the first of the characters `.`, `:` and
`%` in the rest `t` of the string decides how the whole string `s` is parsed. -/
def parseAddrScan (s : Str) : Str → Option Addr
  | [] => none -- unable to parse IP
  | c :: t =>
    if c = '.' then (parseIPv4Fields s).map Addr.v4
    else if c = ':' then (parseIPv6 s).map (fun r => Addr.v6 r.1 r.2)
    else if c = '%' then none -- missing IPv6 address
    else parseAddrScan s t

/-- The Go function `netip.ParseAddr`. -/
def ParseAddr (s : Str) : Option Addr :=
  parseAddrScan s s

/-- The prefix of an IPv4-mapped IPv6 address. -/
def v4InV6Prefix : List Nat := [0, 0, 0, 0, 0, 0, 0, 0, 0, 0, 0xff, 0xff]

/-- The Go function `net.ParseIP`: the 16-byte form of the address `s`, or
`none` where Go returns `nil` (no valid textual address, or one with a zone). -/
def ParseIP (s : Str) : Option IP :=
  match ParseAddr s with
  | some (Addr.v4 b) => some (v4InV6Prefix ++ b)
  | some (Addr.v6 b zone) => if zone = [] then some b else none
  | none => none

/-- The Go method `IP.To4`: the four bytes of an IPv4 address (also of an
IPv4-mapped one in 16-byte form), or `none` where Go returns `nil`. -/
def To4 (ip : IP) : Option IP :=
  if ip.length = 4 then some ip
  else if ip.length = 16 ∧ ip.take 10 = List.replicate 10 0 ∧
      ip.getD 10 0 = 0xff ∧ ip.getD 11 0 = 0xff then some (ip.drop 12)
  else none

/-- The table `digits` of package `netip`. -/
def digits : Str := "0123456789abcdef".toList

/-- The Go function `netip.appendDecimal`, as the text it appends. -/
def appendDecimal (x : Nat) : Str :=
  (if x ≥ 100 then [digits.getD (x / 100) '0'] else []) ++
  (if x ≥ 10 then [digits.getD (x / 10 % 10) '0'] else []) ++
  [digits.getD (x % 10) '0']

/-- The Go function `netip.appendHex`, as the text it appends: a 16-bit group
in lower-case hexadecimal without leading zeros. -/
def appendHex (x : Nat) : Str :=
  (if x ≥ 0x1000 then [digits.getD (x / 0x1000) '0'] else []) ++
  (if x ≥ 0x100 then [digits.getD (x / 0x100 % 16) '0'] else []) ++
  (if x ≥ 0x10 then [digits.getD (x / 0x10 % 16) '0'] else []) ++
  [digits.getD (x % 16) '0']

/-- The Go method `Addr.string4`: dotted-quad text of four bytes. -/
def string4 (b : List Nat) : Str :=
  appendDecimal (b.getD 0 0) ++ '.' :: appendDecimal (b.getD 1 0) ++
    '.' :: appendDecimal (b.getD 2 0) ++ '.' :: appendDecimal (b.getD 3 0)

/-- The 16-bit group `i` of a 16-byte address (`Addr.v6u16`). -/
def v6u16 (ip : List Nat) (i : Nat) : Nat :=
  ip.getD (2 * i) 0 * 256 + ip.getD (2 * i + 1) 0

/-- The inner loop of `Addr.AppendTo6` that skips zero groups: the first
index `j ≥ i` with `j = 8` or a non-zero group `j`; `n` bounds the number of
steps. -/
def zeroRunEnd (ip : List Nat) : Nat → Nat → Nat
  | 0, j => j
  | n + 1, j => if j < 8 ∧ v6u16 ip j = 0 then zeroRunEnd ip n (j + 1) else j

/-- The first loop of `Addr.AppendTo6`: the longest run of at least two zero
groups, the leftmost one among equals, as `(zeroStart, zeroEnd)`; both are 255
when there is none.  The list holds the indices `i` still to visit. -/
def zeroRun (ip : List Nat) : List Nat → Nat × Nat → Nat × Nat
  | [], z => z
  | i :: is, (zeroStart, zeroEnd) =>
    let j := zeroRunEnd ip 8 i
    let l := j - i
    if l ≥ 2 ∧ l > zeroEnd - zeroStart then zeroRun ip is (i, j)
    else zeroRun ip is (zeroStart, zeroEnd)

/-- The second loop of `Addr.AppendTo6`, as the text appended from index `i`
on; `n` bounds the number of iterations (eight suffice). -/
def appendTo6Loop (ip : List Nat) (zeroStart zeroEnd : Nat) : Nat → Nat → Str
  | 0, _ => []
  | n + 1, i =>
    if 8 ≤ i then []
    else if i = zeroStart then
      ':' :: ':' ::
        (if zeroEnd ≥ 8 then []
         else appendHex (v6u16 ip zeroEnd) ++ appendTo6Loop ip zeroStart zeroEnd n (zeroEnd + 1))
    else
      (if i > 0 then [(':' : Char)] else []) ++
        appendHex (v6u16 ip i) ++ appendTo6Loop ip zeroStart zeroEnd n (i + 1)

/-- The Go method `Addr.string6` for an address without zone. -/
def string6 (ip : List Nat) : Str :=
  let z := zeroRun ip (List.range 8) (255, 255)
  appendTo6Loop ip z.1 z.2 8 0

/-- The Go method `IP.String` on an address of 4 or 16 bytes: dotted-quad text
when `To4` succeeds, IPv6 text otherwise. -/
def IPString (ip : IP) : Str :=
  match To4 ip with
  | some p4 => string4 p4
  | none => string6 ip

/-! ## The program: `extractIPs` and `clientIP` -/

/-- The part of an `http.Request` that the program reads: the values of
`r.Header.Get("CF-Connecting-IP")` and `r.Header.Get("X-Forwarded-For")` (the
empty string when the header is absent) and the field `r.RemoteAddr`. -/
structure Request where
  cfConnectingIP : Str
  xForwardedFor : Str
  RemoteAddr : Str
  deriving DecidableEq, Repr

/-- The four results of `extractIPs`. -/
structure Extracted where
  ipv4 : Str
  ipv6 : Str
  rawXFF : Str
  remote : Str
  deriving DecidableEq, Repr

/-- The first step of `extractIPs`: the slots `(ipv4, ipv6)` after the
`CF-Connecting-IP` header has been read. -/
def cfStep (cf : Str) : Str × Str :=
  if cf ≠ [] then
    match ParseIP (normalize cf) with
    | some ip => if (To4 ip).isSome then (IPString ip, []) else ([], IPString ip)
    | none => ([], [])
  else ([], [])

/-- The loop of `extractIPs` over the comma-separated parts of
`X-Forwarded-For`, from the slots `(ipv4, ipv6)` before the remaining parts to
the slots after them. -/
def xffLoop : List Str → Str × Str → Str × Str
  | [], slots => slots
  | p :: ps, (ipv4, ipv6) =>
    match ParseIP (normalize p) with
    | none => xffLoop ps (ipv4, ipv6) -- continue
    | some ip =>
      let ipv4 := if (To4 ip).isSome ∧ ipv4 = [] then IPString ip else ipv4
      let ipv6 := if (To4 ip).isNone ∧ ipv6 = [] then IPString ip else ipv6
      if ipv4 ≠ [] ∧ ipv6 ≠ [] then (ipv4, ipv6) -- break
      else xffLoop ps (ipv4, ipv6)

/-- The second step of `extractIPs`: the slots after `X-Forwarded-For` has been
parsed. -/
def xffStep (rawXFF : Str) (slots : Str × Str) : Str × Str :=
  if rawXFF ≠ [] ∧ (slots.1 = [] ∨ slots.2 = []) then xffLoop (Split rawXFF ',') slots
  else slots

/-- The function `extractIPs` of `main.go`: pulls IPv4/IPv6 from the request
headers and the remote address. -/
def extractIPs (r : Request) : Extracted :=
  let rawXFF := r.xForwardedFor
  -- prefer CF-Connecting-IP if present
  let slots := cfStep r.cfConnectingIP
  -- parse X-Forwarded-For (may contain multiple, comma-separated)
  let slots := xffStep rawXFF slots
  -- fallback to remote addr of the TCP peer
  match SplitHostPort r.RemoteAddr with
  | some (host, _) =>
    let remote := normalize host
    if slots.1 = [] ∧ slots.2 = [] then
      match ParseIP remote with
      | some ip =>
        if (To4 ip).isSome then ⟨remote, slots.2, rawXFF, remote⟩
        else ⟨slots.1, remote, rawXFF, remote⟩
      | none => ⟨slots.1, slots.2, rawXFF, remote⟩
    else ⟨slots.1, slots.2, rawXFF, remote⟩
  | none => ⟨slots.1, slots.2, rawXFF, []⟩

/-- The function `clientIP` of `main.go`: the best single IP (IPv6 preferred). -/
def clientIP (r : Request) : Str :=
  let e := extractIPs r
  if e.ipv6 ≠ [] then e.ipv6 else e.ipv4

/-! ## The program: the geo cache and `lookupGeo`

One call of `lookupGeo` is modelled in isolation, over explicit state: the
cache map, the readings of the clock and the outcome of the outbound request.
The locks of the program are not modelled.  Values of type `float64` belong to
a type parameter `F`, and the text that `fmt.Sprintf("%.4f,%.4f", lat, lon)`
produces is a parameter of the model.  Instants of the clock and values of
`time.Duration` are integers, in nanoseconds. -/

/-- The largest `time.Duration`. -/
def maxDuration : Int := 9223372036854775807

/-- The smallest `time.Duration`. -/
def minDuration : Int := -9223372036854775808

/-- The Go function `time.Since(t)` when the clock reads `now`: the difference
`now - t`, saturated to the range of `time.Duration`. -/
def Since (now t : Int) : Int :=
  max minDuration (min maxDuration (now - t))

/-- The variable `geoTTL` of `main.go`: `5 * time.Minute`. -/
def geoTTL : Int := 5 * (60 * 1000000000)

/-- The type `GeoResponse` of `main.go`: the answer of `/json`. -/
structure GeoResponse where
  IP : Str
  City : Str
  Region : Str
  Country : Str
  Loc : Str
  Org : Str
  Timezone : Str
  deriving DecidableEq, Repr

/-- The type `ipAPIResponse` of `main.go`: the answer of ip-api.com. -/
structure ipAPIResponse (F : Type) where
  Status : Str
  Country : Str
  CountryCode : Str
  Region : Str
  RegionName : Str
  City : Str
  Lat : F
  Lon : F
  Timezone : Str
  ISP : Str
  Org : Str
  AS : Str
  Query : Str

/-- The type `geoEntry` of `main.go`: a cached geo lookup result. -/
structure geoEntry where
  data : GeoResponse
  fetchedAt : Int
  deriving DecidableEq, Repr

/-- The map `geoCache` of `main.go`: `none` for a key that is absent. -/
abbrev GeoCache := Str → Option geoEntry

/-- The statement `geoCache[ip] = entry`. -/
def GeoCache.store (cache : GeoCache) (ip : Str) (entry : geoEntry) : GeoCache :=
  fun k => if k = ip then some entry else cache k

/-- The outcome of the outbound request of `lookupGeo`, up to the parsed
reply: `httpClient.Get` fails, `io.ReadAll` fails, `json.Unmarshal` fails, or
the body is parsed into `raw`. -/
inductive Fetch (F : Type) where
  | transportError
  | readError
  | parseError
  | parsed (raw : ipAPIResponse F)

/-- The world outside of `lookupGeo`: what a GET of a URL yields, and the text
of `fmt.Sprintf("%.4f,%.4f", lat, lon)`. -/
structure Provider (F : Type) where
  get : Str → Fetch F
  fmtLoc : F → F → Str

/-- The errors that `lookupGeo` returns. -/
inductive GeoError where
  | lookupFailed
  | readBody
  | parse
  | status (s : Str)
  deriving DecidableEq, Repr

/-- The outcome of one call of `lookupGeo`: the two results (`none` for `nil`),
the cache map after the call and the URLs requested during the call. -/
structure LookupResult where
  geo : Option GeoResponse
  err : Option GeoError
  cache : GeoCache
  calls : List Str

/-- The URL that `lookupGeo` requests for `ip`. -/
def geoURL (ip : Str) : Str :=
  "http://ip-api.com/json/".toList ++ ip ++
    "?fields=status,country,countryCode,regionName,city,lat,lon,timezone,isp,org,as,query".toList

/-- The part of `lookupGeo` after the cache check: fetch from ip-api.com, map
to the ipinfo.io-compatible format and store in the cache.  `nowStore` is the
reading of `time.Now()` when the entry is stored. -/
def fetchGeo {F : Type} (w : Provider F) (cache : GeoCache) (nowStore : Int) (ip : Str) :
    LookupResult :=
  let url := geoURL ip
  match w.get url with
  | Fetch.transportError => ⟨none, some GeoError.lookupFailed, cache, [url]⟩
  | Fetch.readError => ⟨none, some GeoError.readBody, cache, [url]⟩
  | Fetch.parseError => ⟨none, some GeoError.parse, cache, [url]⟩
  | Fetch.parsed raw =>
    if raw.Status ≠ "success".toList then
      ⟨none, some (GeoError.status raw.Status), cache, [url]⟩
    else
      -- map to ipinfo.io-compatible format
      let geo : GeoResponse :=
        { IP := ip
          City := raw.City
          Region := raw.RegionName
          Country := raw.CountryCode
          Loc := w.fmtLoc raw.Lat raw.Lon
          Org := raw.AS
          Timezone := raw.Timezone }
      -- store in cache
      ⟨some geo, none, cache.store ip ⟨geo, nowStore⟩, [url]⟩

/-- The function `lookupGeo` of `main.go`: geo data from ip-api.com with
in-memory caching.  `now` is the reading of the clock at the cache check. -/
def lookupGeo {F : Type} (w : Provider F) (cache : GeoCache) (now nowStore : Int)
    (ip : Str) : LookupResult :=
  -- check cache
  match cache ip with
  | some entry =>
    if Since now entry.fetchedAt < geoTTL then ⟨some entry.data, none, cache, []⟩
    else fetchGeo w cache nowStore ip
  | none => fetchGeo w cache nowStore ip

/-! ## The program: the HTTP handlers -/

/-- The JSON document that a handler encodes into the response. -/
inductive JSONBody where
  | null
  | error (msg : Str)
  | geo (g : GeoResponse)
  deriving DecidableEq, Repr

/-- The response of `geoHandler`: status code, content type and document. -/
structure JSONResponse where
  status : Nat
  contentType : Str
  body : JSONBody
  deriving DecidableEq, Repr

/-- The outcome of one call of `geoHandler`: the response, the cache map after
the call and the URLs requested during the call. -/
structure GeoHandlerResult where
  response : JSONResponse
  cache : GeoCache
  calls : List Str

/-- The function `geoHandler` of `main.go`: geo information in
ipinfo.io-compatible format.  A response without `WriteHeader` has status 200. -/
def geoHandler {F : Type} (w : Provider F) (cache : GeoCache) (now nowStore : Int)
    (r : Request) : GeoHandlerResult :=
  let ip := clientIP r
  if ip = [] then
    ⟨⟨400, "application/json".toList, JSONBody.error "could not determine client IP".toList⟩,
      cache, []⟩
  else
    let l := lookupGeo w cache now nowStore ip
    match l.err with
    | some _ =>
      -- return at least the IP even if geo fails
      ⟨⟨200, "application/json".toList, JSONBody.geo ⟨ip, [], [], [], [], [], []⟩⟩,
        l.cache, l.calls⟩
    | none =>
      match l.geo with
      | some geo => ⟨⟨200, "application/json".toList, JSONBody.geo geo⟩, l.cache, l.calls⟩
      | none => ⟨⟨200, "application/json".toList, JSONBody.null⟩, l.cache, l.calls⟩

/-- The response of `textHandler`: status code, content type and body. -/
structure TextResponse where
  status : Nat
  contentType : Str
  body : Str
  deriving DecidableEq, Repr

/-- The function `textHandler` of `main.go`: the client IP as plain text (IPv6
preferred).  A response whose body is written without `WriteHeader` has status
200. -/
def textHandler (r : Request) : TextResponse :=
  let e := extractIPs r
  if e.ipv6 ≠ [] then ⟨200, "text/plain; charset=utf-8".toList, e.ipv6 ++ "\n".toList⟩
  else if e.ipv4 ≠ [] then ⟨200, "text/plain; charset=utf-8".toList, e.ipv4 ++ "\n".toList⟩
  else ⟨204, "text/plain; charset=utf-8".toList, []⟩

/-! ## Vocabulary of the properties -/

/-- The characters of address literals: hexadecimal digits, `:` and `.`. -/
def isAddrChar (c : Char) : Bool :=
  (hexVal c).isSome || c == ':' || c == '.'

/-- A valid dotted-quad IPv4 literal: `netip.ParseAddr` accepts it as an IPv4
address. -/
def isIPv4Literal (a : Str) : Bool :=
  match ParseAddr a with
  | some (Addr.v4 _) => true
  | _ => false

/-- A valid IPv6 literal without zone id: `netip.ParseAddr` accepts it as an
IPv6 address with an empty zone. -/
def isIPv6Literal (a : Str) : Bool :=
  match ParseAddr a with
  | some (Addr.v6 _ zone) => decide (zone = [])
  | _ => false

/-- A canonical IPv4 literal: `ParseIP` accepts it, the address is an IPv4
address (`To4` is not nil) and `String` gives the same text back. -/
def isCanonicalIPv4 (a : Str) : Bool :=
  match ParseIP a with
  | some ip => (To4 ip).isSome && decide (IPString ip = a)
  | none => false

/-- A canonical IPv6 literal: `ParseIP` accepts it, the address is no IPv4
address (`To4` is nil) and `String` gives the same text back. -/
def isCanonicalIPv6 (a : Str) : Bool :=
  match ParseIP a with
  | some ip => (To4 ip).isNone && decide (IPString ip = a)
  | none => false

/-- A decimal port: a string of decimal digits. -/
def isDecimalPort (p : Str) : Bool :=
  p.all isDigit

/-- The enrichment fails: the outbound request fails on one of the three error
paths, or the parsed reply has a status field other than `success`. -/
def Fetch.failed {F : Type} : Fetch F → Bool
  | Fetch.parsed raw => decide (raw.Status ≠ "success".toList)
  | _ => true

/-- The canonical text of the token `p` of `X-Forwarded-For` when it normalizes
to a valid IPv4 address. -/
def tokenIPv4 (p : Str) : Option Str :=
  match ParseIP (normalize p) with
  | some ip => if (To4 ip).isSome then some (IPString ip) else none
  | none => none

/-- The canonical text of the token `p` of `X-Forwarded-For` when it normalizes
to a valid IPv6 address (one that is no IPv4 address). -/
def tokenIPv6 (p : Str) : Option Str :=
  match ParseIP (normalize p) with
  | some ip => if (To4 ip).isNone then some (IPString ip) else none
  | none => none

/-- The canonical text of the leftmost token that normalizes to a valid IPv4
address. -/
def firstIPv4 (tokens : List Str) : Option Str :=
  (tokens.filterMap tokenIPv4).head?

/-- The canonical text of the leftmost token that normalizes to a valid IPv6
address. -/
def firstIPv6 (tokens : List Str) : Option Str :=
  (tokens.filterMap tokenIPv6).head?

/-- The response of the route `/` as the specification words it: the preferred
address and a newline with status 200, or status 204 with an empty body when
no address is determinable. -/
def textHandlerSpec (r : Request) : TextResponse :=
  if clientIP r ≠ [] then
    ⟨200, "text/plain; charset=utf-8".toList, clientIP r ++ "\n".toList⟩
  else ⟨204, "text/plain; charset=utf-8".toList, []⟩

/-! ## Auxiliary definitions of the proofs

These four functions are not part of the program or of the Go library.  They
describe the text that `string6` writes, group by group, in the proof that
`ParseIP` reads the text of `String` back; no statement of a property of the
program mentions them. -/

/-- The text of the 16-bit groups `gs`, each preceded by a colon. -/
def tailJoin : List Nat → Str
  | [] => []
  | x :: r => ':' :: (appendHex x ++ tailJoin r)

/-- The text of the 16-bit groups `gs`, separated by colons. -/
def hexJoin : List Nat → Str
  | [] => []
  | x :: r => appendHex x ++ tailJoin r

/-- The bytes of the 16-bit groups `gs`, high byte first. -/
def bytesOf : List Nat → List Nat
  | [] => []
  | g :: r => g / 256 % 256 :: g % 256 :: bytesOf r

/-- The `n` 16-bit groups of the address `ip` from the group `i` on. -/
def groupsFrom (ip : List Nat) : Nat → Nat → List Nat
  | _, 0 => []
  | i, n + 1 => v6u16 ip i :: groupsFrom ip (i + 1) n

/-! ## String literals of the program -/

theorem lit_lbr : "[".toList = ['['] := rfl
theorem lit_rbr : "]".toList = [']'] := rfl
theorem lit_brs : "[]".toList = ['[', ']'] := rfl
theorem lit_pct : "%".toList = ['%'] := rfl
theorem lit_ffff : "::ffff:".toList = [':', ':', 'f', 'f', 'f', 'f', ':'] := rfl

/-! ## Lemmas on the string functions -/

theorem rdropWhile_eq_self {p : Char → Bool} {s : Str} (h : ∀ c, s.getLast? = some c → p c = false) :
    s.rdropWhile p = s := by
  induction s using List.reverseRecOn with
  | nil => rfl
  | append_singleton l a _ =>
    have := h a (by simp)
    rw [List.rdropWhile_concat_neg]
    simp [this]

theorem dropWhile_eq_self {p : Char → Bool} {s : Str} (h : ∀ c, s.head? = some c → p c = false) :
    s.dropWhile p = s := by
  cases s with
  | nil => rfl
  | cons a t => simp [List.dropWhile_cons, h a rfl]

theorem getLast?_mem {s : Str} {c : Char} (h : s.getLast? = some c) : c ∈ s :=
  List.mem_of_getLast?_eq_some h

theorem head?_mem {s : Str} {c : Char} (h : s.head? = some c) : c ∈ s :=
  List.mem_of_mem_head? (by simp [h])

theorem TrimSpace_eq_self {s : Str} (h1 : ∀ c, s.head? = some c → isSpace c = false)
    (h2 : ∀ c, s.getLast? = some c → isSpace c = false) : TrimSpace s = s := by
  unfold TrimSpace
  rw [dropWhile_eq_self h1, rdropWhile_eq_self h2]

theorem TrimSpace_of_forall {s : Str} (h : ∀ c ∈ s, isSpace c = false) : TrimSpace s = s :=
  TrimSpace_eq_self (fun c hc => h c (head?_mem hc)) (fun c hc => h c (getLast?_mem hc))

theorem Trim_of_forall {s cut : Str} (h : ∀ c ∈ s, c ∉ cut) : Trim s cut = s := by
  unfold Trim
  rw [dropWhile_eq_self, rdropWhile_eq_self]
  · intro c hc; simpa using h c (getLast?_mem hc)
  · intro c hc; simpa using h c (head?_mem hc)

theorem TrimSpace_sublist (s : Str) : (TrimSpace s).Sublist s :=
  ((List.rdropWhile_prefix _ _).sublist).trans (List.dropWhile_sublist _)

theorem TrimSpace_head (s : Str) (c : Char) (h : (TrimSpace s).head? = some c) :
    isSpace c = false := by
  unfold TrimSpace at h
  have hp := List.rdropWhile_prefix isSpace (s.dropWhile isSpace)
  obtain ⟨t, ht⟩ := hp
  have h0 := List.head?_dropWhile_not isSpace s
  rw [← ht] at h0
  cases hr : List.rdropWhile isSpace (List.dropWhile isSpace s) with
  | nil => rw [hr] at h; simp at h
  | cons a r =>
    rw [hr] at h h0
    simp at h h0
    rw [← h]; exact h0

theorem TrimSpace_getLast (s : Str) (c : Char) (h : (TrimSpace s).getLast? = some c) :
    isSpace c = false := by
  unfold TrimSpace at h
  rw [List.rdropWhile, List.getLast?_reverse] at h
  have h0 := List.head?_dropWhile_not isSpace (s.dropWhile isSpace).reverse
  rw [h] at h0
  simpa using h0

theorem TrimSpace_idem (s : Str) : TrimSpace (TrimSpace s) = TrimSpace s :=
  TrimSpace_eq_self (TrimSpace_head s) (TrimSpace_getLast s)

theorem IndexByte_eq_none {s : Str} {c : Char} : IndexByte s c = none ↔ c ∉ s := by
  induction s with
  | nil => simp [IndexByte]
  | cons x t ih =>
    by_cases hx : x = c
    · simp [IndexByte, hx]
    · simp [IndexByte, hx, ih, Ne.symm hx]

theorem IndexByte_isSome {s : Str} {c : Char} : (IndexByte s c).isSome = true ↔ c ∈ s := by
  rw [← not_iff_not, ← IndexByte_eq_none]
  cases IndexByte s c <;> simp

theorem IndexByte_append {a p : Str} {c : Char} (h : c ∉ a) :
    IndexByte (a ++ c :: p) c = some a.length := by
  induction a with
  | nil => simp [IndexByte]
  | cons x t ih =>
    have hx : x ≠ c := fun e => h (by simp [e])
    have ht : c ∉ t := fun e => h (by simp [e])
    simp [IndexByte, hx, ih ht]

theorem LastIndexByte_eq_none {s : Str} {c : Char} : LastIndexByte s c = none ↔ c ∉ s := by
  induction s with
  | nil => simp [LastIndexByte]
  | cons x t ih =>
    by_cases hc : c ∈ t
    · have : LastIndexByte t c ≠ none := fun e => (ih.1 e) hc
      cases h : LastIndexByte t c with
      | none => exact absurd h this
      | some i => simp [LastIndexByte, h, hc]
    · have h := ih.2 hc
      by_cases hx : x = c
      · simp [LastIndexByte, h, hx]
      · simp [LastIndexByte, h, hx, hc, Ne.symm hx]

theorem LastIndexByte_append {a p : Str} {c : Char} (h : c ∉ p) :
    LastIndexByte (a ++ c :: p) c = some a.length := by
  induction a with
  | nil => simp [LastIndexByte, LastIndexByte_eq_none.2 h]
  | cons x t ih => simp [LastIndexByte, ih]

/-- The last index splits the string around the last occurrence. -/
theorem LastIndexByte_some {s : Str} {c : Char} {i : Nat} (h : LastIndexByte s c = some i) :
    s = s.take i ++ c :: s.drop (i + 1) ∧ c ∉ s.drop (i + 1) := by
  induction s generalizing i with
  | nil => simp [LastIndexByte] at h
  | cons x t ih =>
    cases ht : LastIndexByte t c with
    | some j =>
      simp [LastIndexByte, ht] at h
      subst h
      have := ih ht
      constructor
      · simp only [List.take_succ_cons, List.drop_succ_cons, List.cons_append]
        rw [← this.1]
      · simpa using this.2
    | none =>
      by_cases hx : x = c
      · simp [LastIndexByte, ht, hx] at h
        subst h
        simp [hx, LastIndexByte_eq_none.1 ht]
      · simp [LastIndexByte, ht, hx] at h

/-- The truncation at the first occurrence of a character, as `normalize`
does it with `strings.Index`, keeps the characters before that occurrence. -/
theorem truncate_eq_takeWhile (s : Str) (c : Char) :
    (match Index s [c] with
      | some i => s.take i
      | none => s) = s.takeWhile (fun x => x != c) := by
  induction s with
  | nil => simp [Index]
  | cons x t ih =>
    by_cases hx : x = c
    · simp [Index, HasPrefix, hx]
    · simp only [Index, HasPrefix, List.isPrefixOf, hx, List.takeWhile_cons]
      have hx2 : ¬ c = x := fun e => hx e.symm
      cases hi : Index t [c] with
      | none => simp [hi] at ih ⊢; simp [hx, hx2, ← ih]
      | some i => simp [hi] at ih ⊢; simp [hx, hx2, ← ih]

theorem Index_single_eq_none {s : Str} {c : Char} (h : c ∉ s) : Index s [c] = none := by
  induction s with
  | nil => simp [Index]
  | cons x t ih =>
    have hx : x ≠ c := fun e => h (by simp [e])
    have ht : c ∉ t := fun e => h (by simp [e])
    simp [Index, HasPrefix, hx, Ne.symm hx, ih ht]

theorem Contains_single {s : Str} {c : Char} : Contains s [c] = true ↔ c ∈ s := by
  unfold Contains
  induction s with
  | nil => simp [Index]
  | cons x t ih =>
    by_cases hx : x = c
    · simp [Index, HasPrefix, hx]
    · simp only [Index, HasPrefix, List.isPrefixOf, hx]
      simp at ih ⊢
      simp [ih, hx, Ne.symm hx]

/-! ## Lemmas on `SplitHostPort` -/

theorem SplitHostPort_no_colon {s : Str} (h : ':' ∉ s) : SplitHostPort s = none := by
  simp [SplitHostPort, LastIndexByte_eq_none.2 h]

theorem SplitHostPort_host_port {a p : Str} (ha1 : ':' ∉ a) (ha2 : '[' ∉ a) (ha3 : ']' ∉ a)
    (hp1 : ':' ∉ p) (hp2 : '[' ∉ p) (hp3 : ']' ∉ p) :
    SplitHostPort (a ++ ':' :: p) = some (a, p) := by
  have hh : (a ++ ':' :: p).head? ≠ some '[' := by
    cases a with
    | nil => simp
    | cons x t => simp; intro e; exact ha2 (by simp [e])
  have h1 : IndexByte a ':' = none := IndexByte_eq_none.2 ha1
  have h2 : IndexByte (a ++ ':' :: p) '[' = none :=
    IndexByte_eq_none.2 (by simp [ha2, hp2])
  have h3 : IndexByte (a ++ ':' :: p) ']' = none :=
    IndexByte_eq_none.2 (by simp [ha3, hp3])
  simp only [SplitHostPort, LastIndexByte_append hp1, hh, if_false, List.take_left,
    h1, h2, h3, Option.isSome_none]
  simp

theorem SplitHostPort_bracket {a p : Str} (ha2 : '[' ∉ a) (ha3 : ']' ∉ a)
    (hp1 : ':' ∉ p) (hp2 : '[' ∉ p) (hp3 : ']' ∉ p) :
    SplitHostPort ('[' :: (a ++ ']' :: ':' :: p)) = some (a, p) := by
  have e1 : LastIndexByte ('[' :: (a ++ ']' :: ':' :: p)) ':' = some (a.length + 2) := by
    have := LastIndexByte_append (a := '[' :: (a ++ [']'])) (p := p) (c := ':') hp1
    simpa using this
  have e2 : IndexByte ('[' :: (a ++ ']' :: ':' :: p)) ']' = some (a.length + 1) := by
    have := IndexByte_append (a := '[' :: a) (p := ':' :: p) (c := ']') (by simp [ha3])
    simpa using this
  have e3 : IndexByte (a ++ ']' :: ':' :: p) '[' = none :=
    IndexByte_eq_none.2 (by simp [ha2, hp2])
  have e4 : IndexByte (':' :: p) ']' = none :=
    IndexByte_eq_none.2 (by simp [hp3])
  simp only [SplitHostPort, e1, e2]
  simp [e3, e4]

theorem SplitHostPort_bracket_only {a : Str} (ha3 : ']' ∉ a) :
    SplitHostPort ('[' :: (a ++ [']'])) = none := by
  have e2 : IndexByte ('[' :: (a ++ [']'])) ']' = some (a.length + 1) := by
    have := IndexByte_append (a := '[' :: a) (p := []) (c := ']') (by simp [ha3])
    simpa using this
  unfold SplitHostPort
  cases LastIndexByte ('[' :: (a ++ [']'])) ':' with
  | none => rfl
  | some i => simp [e2]

theorem SplitHostPort_two_colons {s : Str} (hh : s.head? ≠ some '[')
    (hc : 2 ≤ s.count ':') : SplitHostPort s = none := by
  unfold SplitHostPort
  cases hl : LastIndexByte s ':' with
  | none => rfl
  | some i =>
    have ⟨hs, hd⟩ := LastIndexByte_some hl
    have hcount : s.count ':' = (s.take i).count ':' + 1 := by
      conv_lhs => rw [hs]
      simp [List.count_append, List.count_cons, List.count_eq_zero.2 hd]
    have hm : ':' ∈ s.take i := by
      apply List.count_pos_iff.1
      omega
    simp [hh, IndexByte_isSome.2 hm]

/-! ## Characters of address literals -/

theorem hexVal_isSome_bounds {c : Char} (h : (hexVal c).isSome = true) :
    (48 ≤ c.toNat ∧ c.toNat ≤ 57) ∨ (97 ≤ c.toNat ∧ c.toNat ≤ 102) ∨
      (65 ≤ c.toNat ∧ c.toNat ≤ 70) := by
  unfold hexVal at h
  have e0 : '0'.toNat = 48 := rfl
  have e9 : '9'.toNat = 57 := rfl
  have ea : 'a'.toNat = 97 := rfl
  have ef : 'f'.toNat = 102 := rfl
  have eA : 'A'.toNat = 65 := rfl
  have eF : 'F'.toNat = 70 := rfl
  rw [e0, e9, ea, ef, eA, eF] at h
  split_ifs at h with h1 h2 h3
  · exact Or.inl h1
  · exact Or.inr (Or.inl h2)
  · exact Or.inr (Or.inr h3)
  · simp at h

theorem isDigit_hexVal {c : Char} (h : isDigit c = true) : (hexVal c).isSome = true := by
  unfold isDigit at h
  unfold hexVal
  simp only [Bool.and_eq_true, decide_eq_true_eq] at h
  rw [if_pos h]
  rfl

theorem isAddrChar_cases {c : Char} (h : isAddrChar c = true) :
    (48 ≤ c.toNat ∧ c.toNat ≤ 57) ∨ (97 ≤ c.toNat ∧ c.toNat ≤ 102) ∨
      (65 ≤ c.toNat ∧ c.toNat ≤ 70) ∨ c.toNat = 58 ∨ c.toNat = 46 := by
  unfold isAddrChar at h
  simp only [Bool.or_eq_true, beq_iff_eq] at h
  rcases h with (h | h) | h
  · rcases hexVal_isSome_bounds h with h | h | h
    · exact Or.inl h
    · exact Or.inr (Or.inl h)
    · exact Or.inr (Or.inr (Or.inl h))
  · subst h; exact Or.inr (Or.inr (Or.inr (Or.inl rfl)))
  · subst h; exact Or.inr (Or.inr (Or.inr (Or.inr rfl)))

theorem isAddrChar_not_space {c : Char} (h : isAddrChar c = true) : isSpace c = false := by
  have := isAddrChar_cases h
  unfold isSpace
  simp only [Bool.or_eq_false_iff, decide_eq_false_iff_not, Bool.and_eq_false_imp,
    decide_eq_true_eq]
  omega

theorem isAddrChar_ne {c d : Char} (h : isAddrChar c = true)
    (hd : d.toNat = 91 ∨ d.toNat = 93 ∨ d.toNat = 37 ∨ d.toNat = 44 ∨ d.toNat = 32) : c ≠ d := by
  have := isAddrChar_cases h
  intro e
  subst e
  omega

theorem not_mem_of_addrChars {s : Str} (h : ∀ c ∈ s, isAddrChar c = true) {d : Char}
    (hd : d.toNat = 91 ∨ d.toNat = 93 ∨ d.toNat = 37 ∨ d.toNat = 44 ∨ d.toNat = 32) : d ∉ s :=
  fun hm => isAddrChar_ne (h d hm) hd rfl

/-! ## What the address parser accepts -/

theorem parseIPv4FieldsLoop_chars (s : Str) : ∀ (prev : Option Char) (val dl : Nat)
    (f r : List Nat), parseIPv4FieldsLoop s prev val dl f = some r →
    ∀ c ∈ s, isDigit c = true ∨ c = '.' := by
  induction s with
  | nil => intro _ _ _ _ _ _ c hc; simp at hc
  | cons x t ih =>
    intro prev val dl f r h c hc
    rw [parseIPv4FieldsLoop] at h
    rcases List.mem_cons.1 hc with rfl | hc
    · by_cases hd : isDigit c = true
      · exact Or.inl hd
      · by_cases hdot : c = '.'
        · exact Or.inr hdot
        · simp [hd, hdot] at h
    · by_cases hd : isDigit x = true
      · simp only [hd, if_true] at h
        split_ifs at h
        exact ih _ _ _ _ _ h c hc
      · simp only [hd] at h
        split_ifs at h
        all_goals exact ih _ _ _ _ _ h c hc

theorem parseIPv4FieldsLoop_length (s : Str) : ∀ (prev : Option Char) (val dl : Nat)
    (f r : List Nat), parseIPv4FieldsLoop s prev val dl f = some r → f.length ≤ 3 →
    r.length = 4 := by
  induction s with
  | nil =>
    intro prev val dl f r h hf
    rw [parseIPv4FieldsLoop] at h
    split_ifs at h with h1
    simp at h
    subst h
    simp; omega
  | cons x t ih =>
    intro prev val dl f r h hf
    rw [parseIPv4FieldsLoop] at h
    dsimp only at h
    split_ifs at h with h1 h2 h3 h4 h5 h6
    · exact ih _ _ _ _ _ h hf
    · exact ih _ _ _ _ _ h (by simp; omega)

theorem parseIPv4Fields_chars {s : Str} {r : List Nat} (h : parseIPv4Fields s = some r) :
    ∀ c ∈ s, isDigit c = true ∨ c = '.' :=
  parseIPv4FieldsLoop_chars s _ _ _ _ _ h

theorem parseIPv4Fields_length {s : Str} {r : List Nat} (h : parseIPv4Fields s = some r) :
    r.length = 4 :=
  parseIPv4FieldsLoop_length s _ _ _ _ _ h (by simp)

theorem isDigit_or_dot_addrChar {c : Char} (h : isDigit c = true ∨ c = '.') :
    isAddrChar c = true := by
  unfold isAddrChar
  rcases h with h | h
  · simp [isDigit_hexVal h]
  · simp [h]

theorem isDigit_or_dot_ne_colon {c : Char} (h : isDigit c = true ∨ c = '.') : c ≠ ':' := by
  rintro rfl
  rcases h with h | h
  · revert h; decide
  · revert h; decide

theorem parseIPv4Fields_no_colon {s : Str} {r : List Nat} (h : parseIPv4Fields s = some r) :
    ':' ∉ s :=
  fun hm => isDigit_or_dot_ne_colon (parseIPv4Fields_chars h _ hm) rfl

theorem parseHex_spec (s : Str) : ∀ (off acc acc2 off2 : Nat) (rest : Str),
    parseHex s off acc = some (acc2, off2, rest) →
    ∃ pre, s = pre ++ rest ∧ (∀ c ∈ pre, (hexVal c).isSome = true) ∧ ':' ∉ pre := by
  induction s with
  | nil =>
    intro off acc acc2 off2 rest h
    simp [parseHex] at h
    exact ⟨[], by simp [h.2.2]⟩
  | cons x t ih =>
    intro off acc acc2 off2 rest h
    rw [parseHex] at h
    cases hx : hexVal x with
    | none =>
      simp [hx] at h
      exact ⟨[], by simp [h.2.2]⟩
    | some d =>
      simp only [hx] at h
      split_ifs at h
      obtain ⟨pre, h1, h2, h3⟩ := ih _ _ _ _ _ h
      refine ⟨x :: pre, by simp [h1], ?_, ?_⟩
      · intro c hc
        rcases List.mem_cons.1 hc with rfl | hc
        · simp [hx]
        · exact h2 c hc
      · intro hc
        rcases List.mem_cons.1 hc with e | hc
        · rw [← e] at hx
          have hn : hexVal ':' = none := by decide
          simp [hn] at hx
        · exact h3 hc

theorem hex_addrChar {c : Char} (h : (hexVal c).isSome = true) : isAddrChar c = true := by
  simp [isAddrChar, h]

/-- What an accepting run of the main loop of `parseIPv6` says about the text
it consumed: only address characters, and at least one colon for every two
bytes written but the last four; an ellipsis found in the run means two
colons. -/
theorem parseIPv6Loop_spec (k : Nat) : ∀ (s : Str) (ip : List Nat) (ell : Option Nat)
    (ip2 : List Nat) (ell2 : Option Nat),
    parseIPv6Loop k s ip ell = some ([], ip2, ell2) →
    (∀ c ∈ s, isAddrChar c = true) ∧ ip2.length ≤ ip.length + 2 * s.count ':' + 4 ∧
      (ell = none → ell2.isSome = true → 2 ≤ s.count ':') := by
  induction k with
  | zero =>
    intro s ip ell ip2 ell2 h
    simp [parseIPv6Loop] at h
    obtain ⟨rfl, rfl, rfl⟩ := h
    simp
  | succ k ih =>
    intro s ip ell ip2 ell2 h
    rw [parseIPv6Loop] at h
    by_cases h16 : 16 ≤ ip.length
    · rw [if_pos h16] at h
      simp at h
      obtain ⟨rfl, rfl, rfl⟩ := h
      simp
    · rw [if_neg h16] at h
      cases hph : parseHex s 0 0 with
      | none => rw [hph] at h; exact absurd h (by simp)
      | some r =>
        obtain ⟨acc, off, rest⟩ := r
        rw [hph] at h
        dsimp only at h
        obtain ⟨pre, hs, hpre, hcol⟩ := parseHex_spec s _ _ _ _ _ hph
        have hcnt : pre.count ':' = 0 := List.count_eq_zero.2 hcol
        have hprec : ∀ c ∈ pre, isAddrChar c = true := fun c hc => hex_addrChar (hpre c hc)
        by_cases h0 : off = 0
        · rw [if_pos h0] at h; exact absurd h (by simp)
        rw [if_neg h0] at h
        by_cases hdot : rest.head? = some '.'
        · -- trailing IPv4
          rw [if_pos hdot] at h
          by_cases hplace : ell = none ∧ ip.length ≠ 12
          · rw [if_pos hplace] at h; exact absurd h (by simp)
          rw [if_neg hplace] at h
          by_cases hroom : ip.length + 4 > 16
          · rw [if_pos hroom] at h; exact absurd h (by simp)
          rw [if_neg hroom] at h
          cases hf : parseIPv4Fields s with
          | none => rw [hf] at h; exact absurd h (by simp)
          | some fields =>
            rw [hf] at h
            simp at h
            obtain ⟨rfl, rfl⟩ := h
            have hch := parseIPv4Fields_chars hf
            have hlen := parseIPv4Fields_length hf
            refine ⟨fun c hc => isDigit_or_dot_addrChar (hch c hc), ?_, ?_⟩
            · simp [hlen]
            · intro e1 e2; simp [e1] at e2
        · -- a 16-bit chunk
          rw [if_neg hdot] at h
          cases rest with
          | nil =>
            simp at h
            obtain ⟨rfl, rfl⟩ := h
            simp at hs
            subst hs
            refine ⟨hprec, ?_, ?_⟩
            · simp; omega
            · intro e1 e2; simp [e1] at e2
          | cons c rest1 =>
            dsimp only at h
            by_cases hc : c = ':'
            swap
            · rw [if_pos hc] at h; exact absurd h (by simp)
            rw [if_neg (by simp [hc])] at h
            subst hc
            cases rest1 with
            | nil => exact absurd h (by simp)
            | cons d rest2 =>
              dsimp only at h
              by_cases hd : d = ':'
              · rw [if_pos hd] at h
                subst hd
                by_cases hell : ell.isSome = true
                · rw [if_pos hell] at h; exact absurd h (by simp)
                rw [if_neg hell] at h
                by_cases hr2 : rest2 = []
                · -- ellipsis at the end
                  rw [if_pos hr2] at h
                  subst hr2
                  simp at h
                  obtain ⟨rfl, rfl⟩ := h
                  subst hs
                  refine ⟨?_, ?_, ?_⟩
                  · intro c hc
                    simp at hc
                    rcases hc with hc | rfl
                    · exact hprec c hc
                    · decide
                  · simp [List.count_append, hcnt]
                  · intro _ _; simp [List.count_append, hcnt]
                · -- ellipsis, more to come
                  rw [if_neg hr2] at h
                  obtain ⟨i1, i2, _⟩ := ih _ _ _ _ _ h
                  subst hs
                  refine ⟨?_, ?_, ?_⟩
                  · intro c hc
                    simp at hc
                    rcases hc with hc | rfl | hc
                    · exact hprec c hc
                    · decide
                    · exact i1 c hc
                  · simp [List.count_append, hcnt] at i2 ⊢
                    omega
                  · intro _ _; simp [List.count_append, hcnt]
              · -- a single colon
                rw [if_neg hd] at h
                obtain ⟨i1, i2, i3⟩ := ih _ _ _ _ _ h
                subst hs
                refine ⟨?_, ?_, ?_⟩
                · intro c hc
                  simp only [List.mem_append, List.mem_cons] at hc
                  rcases hc with hc | rfl | hc
                  · exact hprec c hc
                  · decide
                  · exact i1 c (List.mem_cons.2 hc)
                · simp only [List.count_append, hcnt, List.count_cons_self, List.length_append] at i2 ⊢
                  simp at i2
                  omega
                · intro e1 e2
                  have := i3 e1 e2
                  simp only [List.count_append, hcnt, List.count_cons_self]
                  omega

theorem lit_cc : "::".toList = [':', ':'] := rfl

theorem HasPrefix_cc {s : Str} (h : HasPrefix s [':', ':'] = true) :
    ∃ t, s = ':' :: ':' :: t := by
  cases s with
  | nil => simp [HasPrefix, List.isPrefixOf] at h
  | cons x s1 =>
    cases s1 with
    | nil => simp [HasPrefix, List.isPrefixOf] at h
    | cons y t =>
      simp [HasPrefix, List.isPrefixOf] at h
      exact ⟨t, by rw [← h.1, ← h.2]⟩

theorem parseIPv6Body_spec {s : Str} {b : List Nat} (h : parseIPv6Body s = some b) :
    (∀ c ∈ s, isAddrChar c = true) ∧ 2 ≤ s.count ':' := by
  unfold parseIPv6Body at h
  by_cases hl : HasPrefix s "::".toList = true
  · -- leading ellipsis
    obtain ⟨t, rfl⟩ : ∃ t, s = ':' :: ':' :: t := HasPrefix_cc (by rw [← lit_cc]; exact hl)
    refine ⟨?_, by simp⟩
    simp only [hl, if_true, List.drop_succ_cons, List.drop_zero, true_and] at h
    by_cases ht : t = []
    · subst ht; intro c hc; simp at hc; subst hc; decide
    · rw [if_neg ht] at h
      cases hloop : parseIPv6Loop 8 t [] (some 0) with
      | none => rw [hloop] at h; exact absurd h (by simp)
      | some r =>
        obtain ⟨s2, ip2, ell2⟩ := r
        rw [hloop] at h
        dsimp only at h
        by_cases hs2 : s2 = []
        · subst hs2
          have := (parseIPv6Loop_spec 8 _ _ _ _ _ hloop).1
          intro c hc
          simp at hc
          rcases hc with rfl | hc
          · decide
          · exact this c hc
        · rw [if_pos hs2] at h; exact absurd h (by simp)
  · have hl2 : HasPrefix s "::".toList = false := by simpa using hl
    simp only [hl2, Bool.false_eq_true, if_false, false_and] at h
    cases hloop : parseIPv6Loop 8 s [] none with
    | none => rw [hloop] at h; exact absurd h (by simp)
    | some r =>
      obtain ⟨s2, ip2, ell2⟩ := r
      rw [hloop] at h
      dsimp only at h
      by_cases hs2 : s2 = []
      · subst hs2
        obtain ⟨i1, i2, i3⟩ := parseIPv6Loop_spec 8 _ _ _ _ _ hloop
        refine ⟨i1, ?_⟩
        simp only [ne_eq, not_true_eq_false, if_false] at h
        by_cases hlen : ip2.length < 16
        · rw [if_pos hlen] at h
          cases ell2 with
          | none => exact absurd h (by simp)
          | some e => exact i3 rfl rfl
        · simp at i2; omega
      · rw [if_pos hs2] at h; exact absurd h (by simp)

theorem parseIPv6_spec {s : Str} {b : List Nat} (h : parseIPv6 s = some (b, [])) :
    (∀ c ∈ s, isAddrChar c = true) ∧ 2 ≤ s.count ':' ∧ parseIPv6Body s = some b := by
  unfold parseIPv6 at h
  cases hi : IndexByte s '%' with
  | some i =>
    rw [hi] at h
    dsimp only at h
    by_cases hz : s.drop (i + 1) = []
    · rw [if_pos hz] at h; exact absurd h (by simp)
    · rw [if_neg hz] at h
      simp only [Option.map_eq_some', Prod.mk.injEq] at h
      obtain ⟨_, _, _, h2⟩ := h
      exact absurd h2 hz
  | none =>
    rw [hi] at h
    simp at h
    exact ⟨(parseIPv6Body_spec h).1, (parseIPv6Body_spec h).2, h⟩

theorem parseAddrScan_cases (s : Str) : ∀ (t : Str) (a : Addr), parseAddrScan s t = some a →
    (∃ b, parseIPv4Fields s = some b ∧ a = Addr.v4 b) ∨
      (∃ b z, parseIPv6 s = some (b, z) ∧ a = Addr.v6 b z) := by
  intro t
  induction t with
  | nil => intro a h; simp [parseAddrScan] at h
  | cons c t ih =>
    intro a h
    rw [parseAddrScan] at h
    split_ifs at h with h1 h2 h3
    · simp at h
      obtain ⟨b, hb, rfl⟩ := h
      exact Or.inl ⟨b, hb, rfl⟩
    · simp at h
      obtain ⟨b, z, hb, rfl⟩ := h
      exact Or.inr ⟨b, z, hb, rfl⟩
    · exact ih a h

/-- The two ways in which `ParseIP` accepts a string. -/
theorem ParseIP_cases {s : Str} {ip : IP} (h : ParseIP s = some ip) :
    (∃ b, parseIPv4Fields s = some b ∧ ip = v4InV6Prefix ++ b) ∨
      parseIPv6 s = some (ip, []) := by
  unfold ParseIP ParseAddr at h
  cases ha : parseAddrScan s s with
  | none => rw [ha] at h; exact absurd h (by simp)
  | some a =>
    rw [ha] at h
    rcases parseAddrScan_cases s s a ha with ⟨b, hb, rfl⟩ | ⟨b, z, hb, rfl⟩
    · simp at h
      exact Or.inl ⟨b, hb, h.symm⟩
    · dsimp only at h
      split_ifs at h with hz
      simp at h
      subst hz; subst h
      exact Or.inr hb

/-- Accepted addresses consist of address characters and have no colon or at
least two. -/
theorem ParseIP_chars {s : Str} {ip : IP} (h : ParseIP s = some ip) :
    (∀ c ∈ s, isAddrChar c = true) ∧ (':' ∉ s ∨ 2 ≤ s.count ':') := by
  rcases ParseIP_cases h with ⟨b, hb, _⟩ | h6
  · exact ⟨fun c hc => isDigit_or_dot_addrChar (parseIPv4Fields_chars hb c hc),
      Or.inl (parseIPv4Fields_no_colon hb)⟩
  · exact ⟨(parseIPv6_spec h6).1, Or.inr (parseIPv6_spec h6).2.1⟩

/-! ## `stripPort` and `normalize` on address literals -/

theorem HasPrefix_lbr_false {s : Str} (h : '[' ∉ s) : HasPrefix s "[".toList = false := by
  rw [lit_lbr]
  cases s with
  | nil => rfl
  | cons x t =>
    have : x ≠ '[' := fun e => h (by simp [e])
    simp [HasPrefix, List.isPrefixOf, Ne.symm this]

theorem HasPrefix_ffff_false {s : Str} (h : s.head? ≠ some ':') :
    HasPrefix s "::ffff:".toList = false := by
  rw [lit_ffff]
  cases s with
  | nil => rfl
  | cons x t =>
    have : x ≠ ':' := fun e => h (by simp [e])
    simp [HasPrefix, List.isPrefixOf, Ne.symm this]

/-- The steps of `normalize` after `stripPort`. -/
theorem normalize_eq (x : Str) :
    normalize x = TrimSpace (TrimPrefix ((stripPort x).takeWhile (fun c => c != '%'))
      "::ffff:".toList) := by
  unfold normalize
  dsimp only
  rw [lit_pct, truncate_eq_takeWhile]

theorem takeWhile_pct {s : Str} (h : '%' ∉ s) : s.takeWhile (fun c => c != '%') = s := by
  rw [List.takeWhile_eq_self_iff]
  intro c hc
  simp only [bne_iff_ne, ne_eq]
  rintro rfl
  exact h hc

theorem addrChars_space {s : Str} (h : ∀ c ∈ s, isAddrChar c = true) :
    ∀ c ∈ s, isSpace c = false :=
  fun c hc => isAddrChar_not_space (h c hc)

/-- The part of `normalize` after `stripPort` leaves a string of address
characters without the prefix `::ffff:` as it is. -/
theorem normalize_tail_fixed {s : Str} (hc : ∀ c ∈ s, isAddrChar c = true)
    (hp : HasPrefix s "::ffff:".toList = false) :
    TrimSpace (TrimPrefix (s.takeWhile (fun c => c != '%')) "::ffff:".toList) = s := by
  rw [takeWhile_pct (not_mem_of_addrChars hc (by decide)), TrimPrefix, hp]
  simp only [Bool.false_eq_true, if_false]
  exact TrimSpace_of_forall (addrChars_space hc)

theorem stripPortTail_fixed {s : Str} (hc : ∀ c ∈ s, isAddrChar c = true)
    (hcol : ':' ∉ s ∨ 2 ≤ s.count ':') : stripPortTail s = s := by
  have hh : s.head? ≠ some '[' := fun e =>
    not_mem_of_addrChars hc (d := '[') (by decide) (head?_mem e)
  unfold stripPortTail
  rcases hcol with h | h
  · rw [SplitHostPort_no_colon h]
  · rw [SplitHostPort_two_colons hh h]

theorem stripPort_fixed {s : Str} (hc : ∀ c ∈ s, isAddrChar c = true)
    (hcol : ':' ∉ s ∨ 2 ≤ s.count ':') : stripPort s = s := by
  unfold stripPort
  dsimp only
  rw [TrimSpace_of_forall (addrChars_space hc),
    HasPrefix_lbr_false (not_mem_of_addrChars hc (by decide))]
  simp only [Bool.false_and, Bool.false_eq_true, if_false]
  exact stripPortTail_fixed hc hcol

/-- A string of address characters with no colon or at least two, and without
the prefix `::ffff:`, is a fixed point of `normalize`. -/
theorem normalize_fixed {s : Str} (hc : ∀ c ∈ s, isAddrChar c = true)
    (hcol : ':' ∉ s ∨ 2 ≤ s.count ':') (hp : HasPrefix s "::ffff:".toList = false) :
    normalize s = s := by
  rw [normalize_eq, stripPort_fixed hc hcol, normalize_tail_fixed hc hp]

/-- Every accepted address text without the prefix `::ffff:` is a fixed point
of `normalize`. -/
theorem normalize_of_ParseIP {s : Str} {ip : IP} (h : ParseIP s = some ip)
    (hp : HasPrefix s "::ffff:".toList = false) : normalize s = s :=
  normalize_fixed (ParseIP_chars h).1 (ParseIP_chars h).2 hp

theorem TrimSpace_cons_space {c : Char} (s : Str) (h : isSpace c = true) :
    TrimSpace (c :: s) = TrimSpace s := by
  simp [TrimSpace, List.dropWhile_cons, h]

theorem normalize_cons_space {c : Char} (s : Str) (h : isSpace c = true) :
    normalize (c :: s) = normalize s := by
  simp only [normalize, stripPort, TrimSpace_cons_space s h]

/-! ## The text of an address -/

theorem digits_hex (n : Nat) : (hexVal (digits.getD n '0')).isSome = true := by
  by_cases h : n < 16
  · interval_cases n <;> decide
  · have : digits.length ≤ n := by
      have : digits.length = 16 := by decide
      omega
    rw [List.getD_eq_default _ _ this]
    decide

theorem appendDecimal_chars (x : Nat) : ∀ c ∈ appendDecimal x, (hexVal c).isSome = true := by
  intro c hc
  unfold appendDecimal at hc
  simp only [List.mem_append, List.mem_singleton] at hc
  rcases hc with (hc | hc) | hc
  · split_ifs at hc
    · rw [List.mem_singleton.1 hc]; exact digits_hex _
    · exact absurd hc (List.not_mem_nil _)
  · split_ifs at hc
    · rw [List.mem_singleton.1 hc]; exact digits_hex _
    · exact absurd hc (List.not_mem_nil _)
  · rw [hc]; exact digits_hex _

theorem appendDecimal_head (x : Nat) : ∃ c t, appendDecimal x = c :: t ∧
    (hexVal c).isSome = true := by
  cases h : appendDecimal x with
  | nil => simp [appendDecimal] at h
  | cons c t => exact ⟨c, t, rfl, appendDecimal_chars x c (by simp [h])⟩

theorem appendHex_head (x : Nat) : ∃ c t, appendHex x = c :: t := by
  cases h : appendHex x with
  | nil => simp [appendHex] at h
  | cons c t => exact ⟨c, t, rfl⟩

theorem string4_chars (b : List Nat) : ∀ c ∈ string4 b, isAddrChar c = true := by
  intro c hc
  unfold string4 at hc
  simp only [List.mem_append, List.mem_cons] at hc
  have hx := fun x (h : c ∈ appendDecimal x) => hex_addrChar (appendDecimal_chars x c h)
  rcases hc with ((hc | rfl | hc) | rfl | hc) | rfl | hc
  · exact hx _ hc
  · decide
  · exact hx _ hc
  · decide
  · exact hx _ hc
  · decide
  · exact hx _ hc

theorem string4_no_colon (b : List Nat) : ':' ∉ string4 b := by
  intro hc
  unfold string4 at hc
  simp only [List.mem_append, List.mem_cons] at hc
  have hx : ∀ x, ':' ∉ appendDecimal x := fun x h => by
    have := appendDecimal_chars x _ h
    revert this; decide
  have hd : (':' : Char) ≠ '.' := by decide
  rcases hc with ((hc | hc | hc) | hc | hc) | hc | hc
  · exact hx _ hc
  · exact hd hc
  · exact hx _ hc
  · exact hd hc
  · exact hx _ hc
  · exact hd hc
  · exact hx _ hc

theorem string4_ne_nil (b : List Nat) : string4 b ≠ [] := by
  obtain ⟨c, t, h, _⟩ := appendDecimal_head (b.getD 0 0)
  simp [string4, h]

theorem string6_ne_nil (ip : List Nat) : string6 ip ≠ [] := by
  unfold string6
  dsimp only
  rw [appendTo6Loop]
  rw [if_neg (by omega)]
  obtain ⟨c, t, h⟩ := appendHex_head (v6u16 ip 0)
  split_ifs <;> simp [h]

/-- The text that `IP.String` produces is never empty. -/
theorem IPString_ne_nil (ip : IP) : IPString ip ≠ [] := by
  unfold IPString
  cases To4 ip with
  | none => exact string6_ne_nil ip
  | some p => exact string4_ne_nil p

/-! ## The steps of `extractIPs` -/

theorem xffLoop_fst (ps : List Str) : ∀ (a b : Str), a ≠ [] → (xffLoop ps (a, b)).1 = a := by
  induction ps with
  | nil => intro a b _; rfl
  | cons p ps ih =>
    intro a b ha
    rw [xffLoop]
    cases ParseIP (normalize p) with
    | none => exact ih a b ha
    | some ip =>
      dsimp only
      have e : (if (To4 ip).isSome = true ∧ a = [] then IPString ip else a) = a :=
        if_neg (fun h => ha h.2)
      rw [e]
      split_ifs
      all_goals first | rfl | exact ih _ _ ha

theorem xffLoop_snd (ps : List Str) : ∀ (a b : Str), b ≠ [] → (xffLoop ps (a, b)).2 = b := by
  induction ps with
  | nil => intro a b _; rfl
  | cons p ps ih =>
    intro a b hb
    rw [xffLoop]
    cases ParseIP (normalize p) with
    | none => exact ih a b hb
    | some ip =>
      dsimp only
      have e : (if (To4 ip).isNone = true ∧ b = [] then IPString ip else b) = b :=
        if_neg (fun h => hb h.2)
      rw [e]
      split_ifs
      all_goals first | rfl | exact ih _ _ hb

theorem xffStep_fst (xff a b : Str) (ha : a ≠ []) : (xffStep xff (a, b)).1 = a := by
  unfold xffStep
  split_ifs
  · exact xffLoop_fst _ a b ha
  · rfl

theorem xffStep_snd (xff a b : Str) (hb : b ≠ []) : (xffStep xff (a, b)).2 = b := by
  unfold xffStep
  split_ifs
  · exact xffLoop_snd _ a b hb
  · rfl

/-- When the header steps leave a slot filled, the peer address changes neither
slot. -/
theorem extractIPs_of_headers (r : Request)
    (h : (xffStep r.xForwardedFor (cfStep r.cfConnectingIP)).1 ≠ [] ∨
      (xffStep r.xForwardedFor (cfStep r.cfConnectingIP)).2 ≠ []) :
    (extractIPs r).ipv4 = (xffStep r.xForwardedFor (cfStep r.cfConnectingIP)).1 ∧
      (extractIPs r).ipv6 = (xffStep r.xForwardedFor (cfStep r.cfConnectingIP)).2 := by
  have hn : ¬ ((xffStep r.xForwardedFor (cfStep r.cfConnectingIP)).1 = [] ∧
      (xffStep r.xForwardedFor (cfStep r.cfConnectingIP)).2 = []) := by
    rintro ⟨h1, h2⟩
    rcases h with h | h
    · exact h h1
    · exact h h2
  unfold extractIPs
  dsimp only
  cases SplitHostPort r.RemoteAddr with
  | none => exact ⟨rfl, rfl⟩
  | some hp =>
    dsimp only
    rw [if_neg hn]
    exact ⟨rfl, rfl⟩

theorem normalize_nil : normalize [] = [] := by decide

theorem ParseIP_nil : ParseIP [] = none := by decide

theorem cfStep_of_valid {cf : Str} {ip : IP} (h : ParseIP (normalize cf) = some ip) :
    cfStep cf = if (To4 ip).isSome then (IPString ip, []) else ([], IPString ip) := by
  have hcf : cf ≠ [] := by
    rintro rfl
    rw [normalize_nil, ParseIP_nil] at h
    exact absurd h (by simp)
  unfold cfStep
  rw [if_pos hcf, h]

theorem cfStep_nil : cfStep [] = ([], []) := rfl

/-! ## Literals with a port or in brackets -/

theorem isIPv4Literal_spec {a : Str} (h : isIPv4Literal a = true) :
    ∃ b, parseIPv4Fields a = some b := by
  unfold isIPv4Literal ParseAddr at h
  cases hs : parseAddrScan a a with
  | none => rw [hs] at h; simp at h
  | some r =>
    rw [hs] at h
    rcases parseAddrScan_cases a a r hs with ⟨b, hb, _⟩ | ⟨b, z, _, rfl⟩
    · exact ⟨b, hb⟩
    · simp at h

theorem isIPv6Literal_spec {a : Str} (h : isIPv6Literal a = true) :
    ∃ b, parseIPv6 a = some (b, []) := by
  unfold isIPv6Literal ParseAddr at h
  cases hs : parseAddrScan a a with
  | none => rw [hs] at h; simp at h
  | some r =>
    rw [hs] at h
    rcases parseAddrScan_cases a a r hs with ⟨b, _, rfl⟩ | ⟨b, z, hb, rfl⟩
    · simp at h
    · simp at h
      subst h
      exact ⟨b, hb⟩

theorem isDecimalPort_chars {p : Str} (h : isDecimalPort p = true) :
    ∀ c ∈ p, isAddrChar c = true ∧ c ≠ ':' := by
  intro c hc
  have hd : isDigit c = true := by
    unfold isDecimalPort at h
    exact List.all_eq_true.1 h c hc
  exact ⟨isDigit_or_dot_addrChar (Or.inl hd), isDigit_or_dot_ne_colon (Or.inl hd)⟩

theorem stripPort_host_port {a p : Str} (ha : ∀ c ∈ a, isAddrChar c = true) (hac : ':' ∉ a)
    (hp : isDecimalPort p = true) : stripPort (a ++ ':' :: p) = a := by
  have hpc := isDecimalPort_chars hp
  have hall : ∀ c ∈ a ++ ':' :: p, isAddrChar c = true := by
    intro c hc
    simp only [List.mem_append, List.mem_cons] at hc
    rcases hc with hc | rfl | hc
    · exact ha c hc
    · decide
    · exact (hpc c hc).1
  have hpa : ∀ c ∈ p, isAddrChar c = true := fun c hc => (hpc c hc).1
  unfold stripPort
  dsimp only
  rw [TrimSpace_of_forall (addrChars_space hall),
    HasPrefix_lbr_false (not_mem_of_addrChars hall (by decide))]
  simp only [Bool.false_and, Bool.false_eq_true, if_false]
  unfold stripPortTail
  rw [SplitHostPort_host_port hac (not_mem_of_addrChars ha (by decide))
    (not_mem_of_addrChars ha (by decide)) (fun hc => (hpc _ hc).2 rfl)
    (not_mem_of_addrChars hpa (by decide)) (not_mem_of_addrChars hpa (by decide))]

theorem head?_ne_of_not_mem {s : Str} {c : Char} (h : c ∉ s) : s.head? ≠ some c :=
  fun e => h (head?_mem e)

theorem getLast?_append_cons (l : Str) (x : Char) (p : Str) :
    (l ++ x :: p).getLast? = (x :: p).getLast? := by
  rw [List.getLast?_append]
  cases h : (x :: p).getLast? with
  | none => simp at h
  | some c => rfl

theorem Trim_brackets {a : Str} (h1 : '[' ∉ a) (h2 : ']' ∉ a) :
    Trim ('[' :: (a ++ [']'])) "[]".toList = a := by
  have hcut : ∀ c ∈ a, (decide (c ∈ "[]".toList)) = false := by
    intro c hc
    rw [lit_brs]
    simp only [List.mem_cons, List.mem_singleton, List.not_mem_nil, or_false,
      decide_eq_false_iff_not, not_or]
    exact ⟨fun e => h1 (e ▸ hc), fun e => h2 (e ▸ hc)⟩
  unfold Trim
  have e1 : List.dropWhile (fun c => decide (c ∈ "[]".toList)) ('[' :: (a ++ [']'])) =
      List.dropWhile (fun c => decide (c ∈ "[]".toList)) (a ++ [']']) := by
    rw [List.dropWhile_cons, if_pos (by decide)]
  rw [e1]
  cases a with
  | nil => decide
  | cons x t =>
    have e2 : List.dropWhile (fun c => decide (c ∈ "[]".toList)) (x :: t ++ [']']) =
        x :: t ++ [']'] := by
      rw [List.cons_append, List.dropWhile_cons, if_neg]
      rw [hcut x (by simp)]
      simp
    rw [e2, List.rdropWhile_concat_pos _ _ _ (by decide)]
    exact rdropWhile_eq_self (fun c hc => hcut c (getLast?_mem hc))

/-! ## Canonical literals and the `X-Forwarded-For` chain -/

theorem Split_no_sep {s : Str} {sep : Char} (h : sep ∉ s) : Split s sep = [s] := by
  induction s with
  | nil => rfl
  | cons x t ih =>
    have hx : x ≠ sep := fun e => h (by simp [e])
    have ht : sep ∉ t := fun e => h (by simp [e])
    rw [Split, if_neg hx, ih ht]

theorem Split_append {a : Str} {sep : Char} (t : Str) (h : sep ∉ a) :
    Split (a ++ sep :: t) sep = a :: Split t sep := by
  induction a with
  | nil => simp [Split]
  | cons x a ih =>
    have hx : x ≠ sep := fun e => h (by simp [e])
    have ha : sep ∉ a := fun e => h (by simp [e])
    rw [List.cons_append, Split, if_neg hx, ih ha]

theorem isCanonicalIPv4_spec {a : Str} (h : isCanonicalIPv4 a = true) :
    ∃ ip p4, ParseIP a = some ip ∧ To4 ip = some p4 ∧ IPString ip = a ∧ a = string4 p4 := by
  unfold isCanonicalIPv4 at h
  cases hp : ParseIP a with
  | none => rw [hp] at h; simp at h
  | some ip =>
    rw [hp] at h
    simp only [Bool.and_eq_true, decide_eq_true_eq] at h
    cases h4 : To4 ip with
    | none => rw [h4] at h; simp at h
    | some p4 =>
      refine ⟨ip, p4, rfl, h4, h.2, ?_⟩
      rw [← h.2, IPString, h4]

theorem isCanonicalIPv6_spec {b : Str} (h : isCanonicalIPv6 b = true) :
    ∃ ip, ParseIP b = some ip ∧ To4 ip = none ∧ IPString ip = b := by
  unfold isCanonicalIPv6 at h
  cases hp : ParseIP b with
  | none => rw [hp] at h; simp at h
  | some ip =>
    rw [hp] at h
    simp only [Bool.and_eq_true, decide_eq_true_eq] at h
    cases h4 : To4 ip with
    | none => exact ⟨ip, rfl, h4, h.2⟩
    | some p4 => rw [h4] at h; simp at h

/-- A canonical IPv4 literal consists of address characters, has no colon, is
not empty and is a fixed point of `normalize`. -/
theorem isCanonicalIPv4_props {a : Str} (h : isCanonicalIPv4 a = true) :
    (∀ c ∈ a, isAddrChar c = true) ∧ ':' ∉ a ∧ a ≠ [] ∧ normalize a = a := by
  obtain ⟨ip, p4, _, _, _, rfl⟩ := isCanonicalIPv4_spec h
  have hc := string4_chars p4
  have hcol := string4_no_colon p4
  exact ⟨hc, hcol, string4_ne_nil p4,
    normalize_fixed hc (Or.inl hcol) (HasPrefix_ffff_false (head?_ne_of_not_mem hcol))⟩

/-! ## When `normalize` is idempotent -/

theorem normalize_no_pct (x : Str) : '%' ∉ normalize x := by
  rw [normalize_eq]
  intro hm
  have h1 := (TrimSpace_sublist _).subset hm
  have h2 : '%' ∈ (stripPort x).takeWhile (fun c => c != '%') := by
    unfold TrimPrefix at h1
    split_ifs at h1
    · exact List.mem_of_mem_drop h1
    · exact h1
  have := List.mem_takeWhile_imp h2
  simp at this

theorem normalize_trimmed (x : Str) : TrimSpace (normalize x) = normalize x := by
  rw [normalize_eq]; exact TrimSpace_idem _

theorem TrimSpace_length_le (s : Str) : (TrimSpace s).length ≤ s.length :=
  (TrimSpace_sublist s).length_le

theorem Trim_sublist (s cut : Str) : (Trim s cut).Sublist s :=
  ((List.rdropWhile_prefix _ _).sublist).trans (List.dropWhile_sublist _)

theorem Trim_length_le (s cut : Str) : (Trim s cut).length ≤ s.length :=
  (Trim_sublist s cut).length_le

theorem Trim_length_lt {c : Char} {t k : Str} (h : c ∈ k) :
    (Trim (c :: t) k).length < (c :: t).length := by
  unfold Trim
  have e : List.dropWhile (fun c => decide (c ∈ k)) (c :: t) =
      List.dropWhile (fun c => decide (c ∈ k)) t := by
    rw [List.dropWhile_cons, if_pos (by simpa using h)]
  rw [e]
  have h1 := ((List.rdropWhile_prefix (fun c => decide (c ∈ k))
    (List.dropWhile (fun c => decide (c ∈ k)) t)).sublist).length_le
  have h2 := (List.dropWhile_sublist (fun c => decide (c ∈ k)) (l := t)).length_le
  simp only [List.length_cons]
  omega

theorem TrimPrefix_length_le (s pre : Str) : (TrimPrefix s pre).length ≤ s.length := by
  unfold TrimPrefix
  split_ifs
  · simp
  · exact le_refl _

theorem LastIndexByte_lt {s : Str} {c : Char} {i : Nat} (h : LastIndexByte s c = some i) :
    i < s.length := by
  have := (LastIndexByte_some h).1
  have hl := congrArg List.length this
  simp only [List.length_append, List.length_cons, List.length_take, List.length_drop] at hl
  omega

theorem SplitHostPort_host_length {s h p : Str} (hs : SplitHostPort s = some (h, p)) :
    h.length < s.length := by
  unfold SplitHostPort at hs
  cases hl : LastIndexByte s ':' with
  | none => rw [hl] at hs; simp at hs
  | some i =>
    have hi := LastIndexByte_lt hl
    rw [hl] at hs
    dsimp only at hs
    by_cases hb : s.head? = some '['
    · rw [if_pos hb] at hs
      cases he : IndexByte s ']' with
      | none => rw [he] at hs; simp at hs
      | some e =>
        rw [he] at hs
        dsimp only at hs
        split_ifs at hs
        simp only [Option.some.injEq, Prod.mk.injEq] at hs
        rw [← hs.1]
        simp only [List.length_drop, List.length_take]
        omega
    · rw [if_neg hb] at hs
      split_ifs at hs
      simp only [Option.some.injEq, Prod.mk.injEq] at hs
      rw [← hs.1]
      simp only [List.length_take]
      omega

theorem stripPortTail_length_le (s : Str) : (stripPortTail s).length ≤ s.length := by
  unfold stripPortTail
  cases h : SplitHostPort s with
  | none => exact le_refl _
  | some hp =>
    obtain ⟨a, b⟩ := hp
    exact le_of_lt (SplitHostPort_host_length h)

theorem normalize_length_le (x : Str) : (normalize x).length ≤ (stripPort x).length := by
  rw [normalize_eq]
  have h1 := TrimSpace_length_le
    (TrimPrefix ((stripPort x).takeWhile (fun c => c != '%')) "::ffff:".toList)
  have h2 := TrimPrefix_length_le ((stripPort x).takeWhile (fun c => c != '%')) "::ffff:".toList
  have h3 := (List.takeWhile_sublist (fun c => c != '%') (l := stripPort x)).length_le
  omega

theorem HasPrefix_lbr_cons {s : Str} (h : HasPrefix s "[".toList = true) :
    ∃ t, s = '[' :: t := by
  rw [lit_lbr] at h
  cases s with
  | nil => simp [HasPrefix, List.isPrefixOf] at h
  | cons x t =>
    simp [HasPrefix, List.isPrefixOf] at h
    exact ⟨t, by rw [h]⟩

/-- For a trimmed string without `%`, being a fixed point of `normalize` means:
no bracketed form, no port to split off and no prefix `::ffff:`. -/
theorem normalize_fixed_iff {y : Str} (ht : TrimSpace y = y) (hpct : '%' ∉ y) :
    normalize y = y ↔
      ((HasPrefix y "[".toList && Contains y "]".toList) = false ∧
        SplitHostPort y = none ∧ HasPrefix y "::ffff:".toList = false) := by
  constructor
  · intro h
    have hlen : y.length ≤ (stripPort y).length := by
      have := normalize_length_le y
      rw [h] at this
      exact this
    have hb : (HasPrefix y "[".toList && Contains y "]".toList) = false := by
      by_contra hb
      have hb' : (HasPrefix y "[".toList && Contains y "]".toList) = true := by
        simpa using hb
      have hsp : (stripPort y).length < y.length := by
        unfold stripPort
        dsimp only
        rw [ht, if_pos hb']
        obtain ⟨t, rfl⟩ := HasPrefix_lbr_cons (Bool.and_eq_true_iff.1 hb').1
        cases hs : SplitHostPort ('[' :: t) with
        | none =>
          dsimp only
          have h1 := stripPortTail_length_le (Trim ('[' :: t) "[]".toList)
          have h2 := Trim_length_lt (c := '[') (t := t) (k := "[]".toList) (by decide)
          omega
        | some hp =>
          obtain ⟨a, b⟩ := hp
          dsimp only
          have h1 := SplitHostPort_host_length hs
          have h2 := Trim_length_le a "[]".toList
          omega
      omega
    have hst : stripPort y = stripPortTail y := by
      unfold stripPort
      dsimp only
      rw [ht, if_neg (by rw [hb]; exact Bool.false_ne_true)]
    have hs : SplitHostPort y = none := by
      cases hs : SplitHostPort y with
      | none => rfl
      | some hp =>
        obtain ⟨a, b⟩ := hp
        have h1 := SplitHostPort_host_length hs
        rw [hst, stripPortTail, hs] at hlen
        dsimp only at hlen
        omega
    refine ⟨hb, hs, ?_⟩
    have hsy : stripPort y = y := by rw [hst, stripPortTail, hs]
    rw [normalize_eq, hsy, takeWhile_pct hpct] at h
    by_contra hp
    have hp' : HasPrefix y "::ffff:".toList = true := by simpa using hp
    have hge : 7 ≤ y.length := by
      have := List.IsPrefix.length_le (List.isPrefixOf_iff_prefix.1 hp')
      simpa [lit_ffff] using this
    rw [TrimPrefix, if_pos hp'] at h
    have h1 := TrimSpace_length_le (List.drop "::ffff:".toList.length y)
    rw [h] at h1
    simp [lit_ffff] at h1
    omega
  · rintro ⟨hb, hs, hp⟩
    have hst : stripPort y = y := by
      unfold stripPort
      dsimp only
      rw [ht, if_neg (by rw [hb]; exact Bool.false_ne_true), stripPortTail, hs]
    rw [normalize_eq, hst, takeWhile_pct hpct, TrimPrefix, if_neg (by rw [hp]; exact Bool.false_ne_true), ht]

/-! ## The iteration bounds are enough

The loops of `parseIPv6` and `AppendTo6` are modelled with a bound on the
number of iterations.  Each of them leaves through its loop guard before the
bound is reached: any larger bound gives the same result. -/

theorem parseIPv6Loop_bound (k1 : Nat) : ∀ (k2 : Nat) (s : Str) (ip : List Nat)
    (ell : Option Nat), 16 ≤ ip.length + 2 * k1 → 16 ≤ ip.length + 2 * k2 →
    parseIPv6Loop k1 s ip ell = parseIPv6Loop k2 s ip ell := by
  induction k1 with
  | zero =>
    intro k2 s ip ell h1 _
    have h16 : 16 ≤ ip.length := by omega
    cases k2 with
    | zero => rfl
    | succ k2 => rw [parseIPv6Loop, parseIPv6Loop, if_pos h16]
  | succ k1 ih =>
    intro k2 s ip ell h1 h2
    by_cases h16 : 16 ≤ ip.length
    · cases k2 with
      | zero => rw [parseIPv6Loop, parseIPv6Loop, if_pos h16]
      | succ k2 => rw [parseIPv6Loop, parseIPv6Loop, if_pos h16, if_pos h16]
    · cases k2 with
      | zero => omega
      | succ k2 =>
        have e : ∀ (t : Str) (a b : Nat) (l : Option Nat),
            parseIPv6Loop k1 t (ip ++ [a, b]) l = parseIPv6Loop k2 t (ip ++ [a, b]) l :=
          fun t a b l => ih k2 t _ l (by simp; omega) (by simp; omega)
        rw [parseIPv6Loop, parseIPv6Loop]
        simp only [e]

/-- Eight iterations are enough for the main loop of `parseIPv6`: a larger
bound gives the same result. -/
theorem parseIPv6Loop_eight (k : Nat) (hk : 8 ≤ k) (s : Str) (ell : Option Nat) :
    parseIPv6Loop k s [] ell = parseIPv6Loop 8 s [] ell :=
  parseIPv6Loop_bound k 8 s [] ell (by simp; omega) (by simp)

theorem zeroRunEnd_bound (ip : List Nat) (n1 : Nat) : ∀ (n2 j : Nat), 8 ≤ j + n1 → 8 ≤ j + n2 →
    zeroRunEnd ip n1 j = zeroRunEnd ip n2 j := by
  induction n1 with
  | zero =>
    intro n2 j h1 _
    cases n2 with
    | zero => rfl
    | succ n2 => rw [zeroRunEnd, zeroRunEnd, if_neg (by omega)]
  | succ n1 ih =>
    intro n2 j h1 h2
    cases n2 with
    | zero => rw [zeroRunEnd, zeroRunEnd, if_neg (by omega)]
    | succ n2 =>
      rw [zeroRunEnd, zeroRunEnd]
      split_ifs with h
      · exact ih n2 (j + 1) (by omega) (by omega)
      · rfl

theorem appendTo6Loop_bound (ip : List Nat) (zs ze : Nat) (hz : zs < ze ∨ 8 ≤ zs) (n1 : Nat) :
    ∀ (n2 i : Nat), 8 ≤ i + n1 → 8 ≤ i + n2 →
    appendTo6Loop ip zs ze n1 i = appendTo6Loop ip zs ze n2 i := by
  induction n1 with
  | zero =>
    intro n2 i h1 _
    cases n2 with
    | zero => rfl
    | succ n2 => rw [appendTo6Loop, appendTo6Loop, if_pos (by omega)]
  | succ n1 ih =>
    intro n2 i h1 h2
    cases n2 with
    | zero => rw [appendTo6Loop, appendTo6Loop, if_pos (by omega)]
    | succ n2 =>
      rw [appendTo6Loop, appendTo6Loop]
      by_cases h8 : 8 ≤ i
      · rw [if_pos h8, if_pos h8]
      · rw [if_neg h8, if_neg h8]
        by_cases hi : i = zs
        · rw [if_pos hi, if_pos hi, ih n2 (ze + 1) (by omega) (by omega)]
        · rw [if_neg hi, if_neg hi, ih n2 (i + 1) (by omega) (by omega)]

theorem zeroRun_inv (ip : List Nat) (is : List Nat) : ∀ (z : Nat × Nat), (z.1 < z.2 ∨ 8 ≤ z.1) →
    ((zeroRun ip is z).1 < (zeroRun ip is z).2 ∨ 8 ≤ (zeroRun ip is z).1) := by
  induction is with
  | nil => intro z hz; exact hz
  | cons i is ih =>
    intro z hz
    obtain ⟨zs, ze⟩ := z
    rw [zeroRun]
    split_ifs with h
    · exact ih _ (Or.inl (by show i < zeroRunEnd ip 8 i; omega))
    · exact ih _ hz

/-- Eight iterations are enough for the second loop of `AppendTo6`: a larger
bound gives the same text. -/
theorem string6_bound (ip : List Nat) (n : Nat) (hn : 8 ≤ n) :
    appendTo6Loop ip (zeroRun ip (List.range 8) (255, 255)).1
      (zeroRun ip (List.range 8) (255, 255)).2 n 0 = string6 ip :=
  appendTo6Loop_bound ip _ _ (zeroRun_inv ip _ (255, 255) (Or.inr (by decide))) n 8 0
    (by omega) (by omega)

/-! ## The cache check and the fetch of `lookupGeo` -/

/-- The saturation of `time.Since` does not change the comparison with the
TTL. -/
theorem Since_lt_geoTTL (now t : Int) : Since now t < geoTTL ↔ now - t < geoTTL := by
  unfold Since geoTTL maxDuration minDuration
  simp only [max_def, min_def]
  split_ifs <;> omega

theorem fetchGeo_calls {F : Type} (w : Provider F) (cache : GeoCache) (nowStore : Int)
    (ip : Str) : (fetchGeo w cache nowStore ip).calls = [geoURL ip] := by
  unfold fetchGeo
  dsimp only
  cases w.get (geoURL ip) with
  | transportError => rfl
  | readError => rfl
  | parseError => rfl
  | parsed raw =>
    dsimp only
    split_ifs <;> rfl

/-- The two results of a fetch do not depend on the cache map. -/
theorem fetchGeo_results {F : Type} (w : Provider F) (cache cache2 : GeoCache)
    (nowStore : Int) (ip : Str) :
    (fetchGeo w cache nowStore ip).geo = (fetchGeo w cache2 nowStore ip).geo ∧
      (fetchGeo w cache nowStore ip).err = (fetchGeo w cache2 nowStore ip).err := by
  unfold fetchGeo
  dsimp only
  cases w.get (geoURL ip) with
  | transportError => exact ⟨rfl, rfl⟩
  | readError => exact ⟨rfl, rfl⟩
  | parseError => exact ⟨rfl, rfl⟩
  | parsed raw =>
    dsimp only
    split_ifs <;> exact ⟨rfl, rfl⟩

theorem lookupGeo_fresh {F : Type} (w : Provider F) (cache : GeoCache) (now nowStore : Int)
    (ip : Str) (e : geoEntry) (h : cache ip = some e) (hf : now - e.fetchedAt < geoTTL) :
    lookupGeo w cache now nowStore ip = ⟨some e.data, none, cache, []⟩ := by
  unfold lookupGeo
  rw [h]
  dsimp only
  rw [if_pos ((Since_lt_geoTTL _ _).2 hf)]

theorem lookupGeo_miss {F : Type} (w : Provider F) (cache : GeoCache) (now nowStore : Int)
    (ip : Str) (h : ∀ e, cache ip = some e → geoTTL ≤ now - e.fetchedAt) :
    lookupGeo w cache now nowStore ip = fetchGeo w cache nowStore ip := by
  unfold lookupGeo
  cases hc : cache ip with
  | none => rfl
  | some e =>
    dsimp only
    rw [if_neg]
    rw [Since_lt_geoTTL]
    have := h e hc
    omega

theorem fetchGeo_failed {F : Type} (w : Provider F) (cache : GeoCache) (nowStore : Int)
    (ip : Str) (h : (w.get (geoURL ip)).failed = true) :
    (fetchGeo w cache nowStore ip).geo = none ∧
      (fetchGeo w cache nowStore ip).err ≠ none ∧
      (fetchGeo w cache nowStore ip).cache = cache := by
  unfold fetchGeo
  dsimp only
  cases hg : w.get (geoURL ip) with
  | transportError => exact ⟨rfl, by simp, rfl⟩
  | readError => exact ⟨rfl, by simp, rfl⟩
  | parseError => exact ⟨rfl, by simp, rfl⟩
  | parsed raw =>
    rw [hg] at h
    simp only [Fetch.failed, decide_eq_true_eq] at h
    dsimp only
    rw [if_pos h]
    exact ⟨rfl, by simp, rfl⟩

/-! ## IPv4-mapped literals -/

theorem isDigit_hexVal_eq {c : Char} (h : isDigit c = true) :
    hexVal c = some (c.toNat - '0'.toNat) ∧ c.toNat - '0'.toNat < 10 := by
  unfold isDigit at h
  simp only [Bool.and_eq_true, decide_eq_true_eq] at h
  unfold hexVal
  rw [if_pos h]
  have e0 : '0'.toNat = 48 := rfl
  have e9 : '9'.toNat = 57 := rfl
  rw [e0, e9] at h
  rw [e0]
  exact ⟨rfl, by omega⟩

/-- On a text that `parseIPv4Fields` accepts, with fewer than three octets
stored so far, the hexadecimal group reader stops at a dot after at least one
digit.  `dl` digits of the current octet have been read, which is also the
number of digits read by the group reader. -/
theorem parseHex_of_parseIPv4 (s : Str) : ∀ (prev : Option Char) (val dl : Nat)
    (f r : List Nat) (acc : Nat),
    parseIPv4FieldsLoop s prev val dl f = some r → f.length < 3 →
    dl ≤ 3 → (dl = 2 → 10 ≤ val) → (dl = 3 → 100 ≤ val) →
    (dl = 0 → prev = none ∨ prev = some '.') → acc < 16 ^ dl →
    ∃ acc2 off2 rest, parseHex s dl acc = some (acc2, off2, rest) ∧ off2 ≠ 0 ∧
      rest.head? = some '.' := by
  induction s with
  | nil =>
    intro prev val dl f r acc h hf
    rw [parseIPv4FieldsLoop, if_pos hf] at h
    exact absurd h (by simp)
  | cons c t ih =>
    intro prev val dl f r acc h hf h3 h10 h100 hprev hacc
    rw [parseIPv4FieldsLoop] at h
    by_cases hd : isDigit c = true
    · rw [if_pos hd] at h
      by_cases hz : dl = 1 ∧ val = 0
      · rw [if_pos hz] at h; exact absurd h (by simp)
      rw [if_neg hz] at h
      dsimp only at h
      by_cases hbig : val * 10 + (c.toNat - '0'.toNat) > 255
      · rw [if_pos hbig] at h; exact absurd h (by simp)
      rw [if_neg hbig] at h
      obtain ⟨hv, hlt⟩ := isDigit_hexVal_eq hd
      have hdl : dl ≤ 2 := by
        by_contra hc
        have : dl = 3 := by omega
        have := h100 this
        omega
      have hacc2 : acc * 16 + (c.toNat - '0'.toNat) < 16 ^ (dl + 1) := by
        rw [pow_succ]
        omega
      have hpow : 16 ^ (dl + 1) ≤ 4096 := by
        have : dl + 1 ≤ 3 := by omega
        calc 16 ^ (dl + 1) ≤ 16 ^ 3 := Nat.pow_le_pow_right (by norm_num) this
          _ = 4096 := by norm_num
      have hmod : (acc * 16 + (c.toNat - '0'.toNat)) % 2 ^ 32 =
          acc * 16 + (c.toNat - '0'.toNat) := Nat.mod_eq_of_lt (by norm_num; omega)
      rw [parseHex, hv]
      dsimp only
      rw [hmod, if_neg (by omega), if_neg (by omega)]
      exact ih (some c) _ (dl + 1) f r _ h hf (by omega) (by intro e; omega)
        (by intro e; have := h10 (by omega); omega) (by intro e; omega) hacc2
    · rw [if_neg hd] at h
      by_cases hdot : c = '.'
      · rw [if_pos hdot] at h
        by_cases hp : prev = none ∨ t = [] ∨ prev = some '.'
        · rw [if_pos hp] at h; exact absurd h (by simp)
        subst hdot
        have hdl : dl ≠ 0 := by
          intro e
          rcases hprev e with h1 | h1
          · exact hp (Or.inl h1)
          · exact hp (Or.inr (Or.inr h1))
        have hn : hexVal '.' = none := by decide
        rw [parseHex, hn]
        exact ⟨acc, dl, '.' :: t, rfl, hdl, rfl⟩
      · rw [if_neg hdot] at h; exact absurd h (by simp)

theorem parseIPv4Fields_ne_nil {a : Str} {f : List Nat} (h : parseIPv4Fields a = some f) :
    ∃ d t, a = d :: t ∧ d ≠ ':' := by
  cases a with
  | nil => simp [parseIPv4Fields, parseIPv4FieldsLoop] at h
  | cons d t =>
    exact ⟨d, t, rfl, fun e => parseIPv4Fields_no_colon h (by simp [e])⟩

/-- The text `::ffff:` followed by a dotted quad is accepted as the
IPv4-mapped address of the dotted quad. -/
theorem parseIPv6Body_mapped {a : Str} {f : List Nat} (h : parseIPv4Fields a = some f) :
    parseIPv6Body ("::ffff:".toList ++ a) = some (v4InV6Prefix ++ f) := by
  obtain ⟨acc, off, rest, hph, hoff, hrest⟩ :=
    parseHex_of_parseIPv4 a none 0 0 [] f 0 h (by simp) (by omega) (by omega) (by omega)
      (fun _ => Or.inl rfl) (by norm_num)
  obtain ⟨d, t, rfl, hd⟩ := parseIPv4Fields_ne_nil h
  have hlen := parseIPv4Fields_length h
  have hhex : parseHex ('f' :: 'f' :: 'f' :: 'f' :: ':' :: d :: t) 0 0 =
      some (65535, 4, ':' :: d :: t) := by
    have hf : hexVal 'f' = some 15 := by decide
    have hc : hexVal ':' = none := by decide
    simp [parseHex, hf, hc]
  have hloop : parseIPv6Loop 8 ('f' :: 'f' :: 'f' :: 'f' :: ':' :: d :: t) [] (some 0) =
      some ([], [255, 255] ++ f, some 0) := by
    rw [parseIPv6Loop, if_neg (by simp), hhex]
    dsimp only
    rw [if_neg (by omega), if_neg (by simp), if_neg (by simp), if_neg hd]
    rw [parseIPv6Loop, if_neg (by simp), hph]
    dsimp only
    rw [if_neg hoff, if_pos hrest, if_neg (by simp), if_neg (by simp), h]
    simp
  unfold parseIPv6Body
  have hpre : HasPrefix ("::ffff:".toList ++ d :: t) "::".toList = true := by
    simp [HasPrefix, lit_ffff, lit_cc, List.isPrefixOf]
  have hdrop : List.drop 2 ("::ffff:".toList ++ d :: t) =
      'f' :: 'f' :: 'f' :: 'f' :: ':' :: d :: t := by
    simp [lit_ffff]
  simp only [hpre, hdrop, if_true, true_and]
  rw [if_neg (by simp), hloop]
  dsimp only
  rw [if_neg (by simp), if_pos (by simp [hlen])]
  simp [hlen, v4InV6Prefix]

theorem parseAddrScan_colon (s t : Str) :
    parseAddrScan s (':' :: t) = (parseIPv6 s).map (fun r => Addr.v6 r.1 r.2) := by
  rw [parseAddrScan, if_neg (by decide), if_pos rfl]

/-- `ParseIP` reads `::ffff:` followed by a dotted quad as the address of the
dotted quad. -/
theorem ParseIP_mapped {a : Str} (h : isIPv4Literal a = true) :
    ∃ f, ParseIP a = some (v4InV6Prefix ++ f) ∧
      ParseIP ("::ffff:".toList ++ a) = some (v4InV6Prefix ++ f) ∧ f.length = 4 := by
  obtain ⟨f, hf⟩ := isIPv4Literal_spec h
  refine ⟨f, ?_, ?_, parseIPv4Fields_length hf⟩
  · unfold isIPv4Literal at h
    unfold ParseIP
    cases hp : ParseAddr a with
    | none => rw [hp] at h; simp at h
    | some r =>
      cases r with
      | v6 b z => rw [hp] at h; simp at h
      | v4 b =>
        dsimp only
        rcases parseAddrScan_cases a a _ hp with ⟨b2, hb2, e⟩ | ⟨b2, z, _, e⟩
        · rw [hf] at hb2
          have e1 := Option.some.inj hb2
          have e2 := Addr.v4.inj e
          rw [e2, ← e1]
        · exact absurd e (by simp)
  · have hch : ∀ c ∈ "::ffff:".toList ++ a, isAddrChar c = true := by
      intro c hc
      rcases List.mem_append.1 hc with hc | hc
      · have hlit : ∀ d ∈ "::ffff:".toList, isAddrChar d = true := by decide
        exact hlit c hc
      · exact isDigit_or_dot_addrChar (parseIPv4Fields_chars hf c hc)
    have hpct : IndexByte ("::ffff:".toList ++ a) '%' = none :=
      IndexByte_eq_none.2 (not_mem_of_addrChars hch (by decide))
    have h6 : parseIPv6 ("::ffff:".toList ++ a) = some (v4InV6Prefix ++ f, []) := by
      unfold parseIPv6
      rw [hpct, parseIPv6Body_mapped hf]
      rfl
    unfold ParseIP ParseAddr
    have hs : "::ffff:".toList ++ a = ':' :: (':' :: 'f' :: 'f' :: 'f' :: 'f' :: ':' :: a) := by
      simp [lit_ffff]
    have hscan : parseAddrScan ("::ffff:".toList ++ a) ("::ffff:".toList ++ a) =
        some (Addr.v6 (v4InV6Prefix ++ f) []) := by
      conv_lhs => arg 2; rw [hs]
      rw [parseAddrScan_colon, h6]
      rfl
    rw [hscan]
    rfl

theorem To4_mapped {f : List Nat} (h : f.length = 4) : To4 (v4InV6Prefix ++ f) = some f := by
  unfold To4
  have hl : (v4InV6Prefix ++ f).length = 16 := by simp [v4InV6Prefix, h]
  rw [if_neg (by omega), if_pos]
  · simp [v4InV6Prefix]
  · refine ⟨hl, ?_, ?_, ?_⟩ <;> simp [v4InV6Prefix]

/-- The text `::ffff:` followed by a dotted quad normalizes to the dotted
quad. -/
theorem normalize_mapped {a : Str} (ha : isIPv4Literal a = true) :
    normalize ("::ffff:".toList ++ a) = a := by
  obtain ⟨b, hb⟩ := isIPv4Literal_spec ha
  have hch : ∀ c ∈ a, isAddrChar c = true :=
    fun c hc => isDigit_or_dot_addrChar (parseIPv4Fields_chars hb c hc)
  have hall : ∀ c ∈ "::ffff:".toList ++ a, isAddrChar c = true := by
    intro c hc
    rcases List.mem_append.1 hc with hc | hc
    · have hlit : ∀ d ∈ "::ffff:".toList, isAddrChar d = true := by decide
      exact hlit c hc
    · exact hch c hc
  have hcnt : 2 ≤ ("::ffff:".toList ++ a).count ':' := by
    rw [List.count_append]
    have : ("::ffff:".toList).count ':' = 3 := by decide
    omega
  rw [normalize_eq, stripPort_fixed hall (Or.inr hcnt),
    takeWhile_pct (not_mem_of_addrChars hall (by decide))]
  have hpre : HasPrefix ("::ffff:".toList ++ a) "::ffff:".toList = true := by
    simp [HasPrefix]
  rw [TrimPrefix, if_pos hpre, List.drop_left]
  exact TrimSpace_of_forall (addrChars_space hch)

/-! ## The leftmost valid tokens of `X-Forwarded-For` -/

theorem firstIPv4_cons (p : Str) (ps : List Str) :
    firstIPv4 (p :: ps) = (tokenIPv4 p).orElse (fun _ => firstIPv4 ps) := by
  unfold firstIPv4
  rw [List.filterMap_cons]
  cases tokenIPv4 p <;> rfl

theorem firstIPv6_cons (p : Str) (ps : List Str) :
    firstIPv6 (p :: ps) = (tokenIPv6 p).orElse (fun _ => firstIPv6 ps) := by
  unfold firstIPv6
  rw [List.filterMap_cons]
  cases tokenIPv6 p <;> rfl

theorem firstIPv4_ne_nil (ps : List Str) (s : Str) (h : firstIPv4 ps = some s) : s ≠ [] := by
  induction ps with
  | nil => simp [firstIPv4] at h
  | cons p ps ih =>
    rw [firstIPv4_cons] at h
    cases ht : tokenIPv4 p with
    | none => rw [ht] at h; exact ih h
    | some u =>
      rw [ht] at h
      simp only [Option.orElse, Option.some.injEq] at h
      subst h
      unfold tokenIPv4 at ht
      cases hp : ParseIP (normalize p) with
      | none => rw [hp] at ht; simp at ht
      | some ip =>
        rw [hp] at ht
        dsimp only at ht
        split_ifs at ht
        rw [← Option.some.inj ht]
        exact IPString_ne_nil ip

theorem firstIPv6_ne_nil (ps : List Str) (s : Str) (h : firstIPv6 ps = some s) : s ≠ [] := by
  induction ps with
  | nil => simp [firstIPv6] at h
  | cons p ps ih =>
    rw [firstIPv6_cons] at h
    cases ht : tokenIPv6 p with
    | none => rw [ht] at h; exact ih h
    | some u =>
      rw [ht] at h
      simp only [Option.orElse, Option.some.injEq] at h
      subst h
      unfold tokenIPv6 at ht
      cases hp : ParseIP (normalize p) with
      | none => rw [hp] at ht; simp at ht
      | some ip =>
        rw [hp] at ht
        dsimp only at ht
        split_ifs at ht
        rw [← Option.some.inj ht]
        exact IPString_ne_nil ip

/-- The loop over the tokens keeps a filled slot and fills an empty one with
the canonical text of the leftmost valid token of the family. -/
theorem xffLoop_eq (ps : List Str) : ∀ (a b : Str),
    xffLoop ps (a, b) =
      (if a ≠ [] then a else (firstIPv4 ps).getD [],
        if b ≠ [] then b else (firstIPv6 ps).getD []) := by
  induction ps with
  | nil =>
    intro a b
    by_cases ha : a = [] <;> by_cases hb : b = [] <;> simp [xffLoop, firstIPv4, firstIPv6, ha, hb]
  | cons p ps ih =>
    intro a b
    rw [xffLoop, firstIPv4_cons, firstIPv6_cons]
    unfold tokenIPv4 tokenIPv6
    cases hp : ParseIP (normalize p) with
    | none => exact ih a b
    | some ip =>
      have hne := IPString_ne_nil ip
      dsimp only
      cases h4 : To4 ip with
      | none =>
        by_cases ha : a = [] <;> by_cases hb : b = [] <;>
          simp [ih, ha, hb, hne, Option.orElse]
      | some q =>
        by_cases ha : a = [] <;> by_cases hb : b = [] <;>
          simp [ih, ha, hb, hne, Option.orElse]

theorem firstIPv4_skip (pre : List Str) (p : Str) (post : List Str)
    (h : ParseIP (normalize p) = none) :
    firstIPv4 (pre ++ p :: post) = firstIPv4 (pre ++ post) ∧
      firstIPv6 (pre ++ p :: post) = firstIPv6 (pre ++ post) := by
  have h4 : tokenIPv4 p = none := by unfold tokenIPv4; rw [h]
  have h6 : tokenIPv6 p = none := by unfold tokenIPv6; rw [h]
  unfold firstIPv4 firstIPv6
  rw [List.filterMap_append, List.filterMap_append, List.filterMap_append,
    List.filterMap_append, List.filterMap_cons, List.filterMap_cons, h4, h6]
  exact ⟨rfl, rfl⟩

theorem firstIPv4_none_of_invalid (ps : List Str)
    (h : ∀ p ∈ ps, ParseIP (normalize p) = none) : firstIPv4 ps = none := by
  induction ps with
  | nil => rfl
  | cons p ps ih =>
    have hp : tokenIPv4 p = none := by unfold tokenIPv4; rw [h p (by simp)]
    rw [firstIPv4_cons, hp]
    exact ih (fun q hq => h q (by simp [hq]))

theorem firstIPv6_none_of_invalid (ps : List Str)
    (h : ∀ p ∈ ps, ParseIP (normalize p) = none) : firstIPv6 ps = none := by
  induction ps with
  | nil => rfl
  | cons p ps ih =>
    have hp : tokenIPv6 p = none := by unfold tokenIPv6; rw [h p (by simp)]
    rw [firstIPv6_cons, hp]
    exact ih (fun q hq => h q (by simp [hq]))

theorem xffStep_nil_slots (xff : Str) :
    xffStep xff ([], []) =
      ((firstIPv4 (Split xff ',')).getD [], (firstIPv6 (Split xff ',')).getD []) := by
  unfold xffStep
  by_cases hx : xff = []
  · subst hx
    have h4 : firstIPv4 (Split [] ',') = none := by decide
    have h6 : firstIPv6 (Split [] ',') = none := by decide
    rw [h4, h6]
    rfl
  · rw [if_pos ⟨hx, Or.inl rfl⟩, xffLoop_eq]
    simp

/-! ## The results of `extractIPs` as a function of the header slots -/

/-- The results `ipv4`, `ipv6` and `remote` depend on the headers only through
the slots that the header steps leave. -/
theorem extractIPs_slots_congr (r1 r2 : Request)
    (hs : xffStep r1.xForwardedFor (cfStep r1.cfConnectingIP) =
      xffStep r2.xForwardedFor (cfStep r2.cfConnectingIP))
    (hr : r1.RemoteAddr = r2.RemoteAddr) :
    (extractIPs r1).ipv4 = (extractIPs r2).ipv4 ∧ (extractIPs r1).ipv6 = (extractIPs r2).ipv6 ∧
      (extractIPs r1).remote = (extractIPs r2).remote := by
  unfold extractIPs
  dsimp only
  rw [hs, hr]
  cases SplitHostPort r2.RemoteAddr with
  | none => exact ⟨rfl, rfl, rfl⟩
  | some hp =>
    dsimp only
    split_ifs with h
    · cases ParseIP (normalize hp.1) with
      | none => exact ⟨rfl, rfl, rfl⟩
      | some ip =>
        dsimp only
        split_ifs <;> exact ⟨rfl, rfl, rfl⟩
    · exact ⟨rfl, rfl, rfl⟩

theorem extractIPs_rawXFF (r : Request) : (extractIPs r).rawXFF = r.xForwardedFor := by
  unfold extractIPs
  dsimp only
  cases SplitHostPort r.RemoteAddr with
  | none => rfl
  | some hp =>
    dsimp only
    split_ifs with h
    · cases ParseIP (normalize hp.1) with
      | none => rfl
      | some ip =>
        dsimp only
        split_ifs <;> rfl
    · rfl

/-- With no `CF-Connecting-IP` header, two values of `X-Forwarded-For` with
the same leftmost valid tokens give the same results. -/
theorem extractIPs_xff_congr (xff1 xff2 ra : Str)
    (h4 : firstIPv4 (Split xff1 ',') = firstIPv4 (Split xff2 ','))
    (h6 : firstIPv6 (Split xff1 ',') = firstIPv6 (Split xff2 ',')) :
    (extractIPs ⟨[], xff1, ra⟩).ipv4 = (extractIPs ⟨[], xff2, ra⟩).ipv4 ∧
      (extractIPs ⟨[], xff1, ra⟩).ipv6 = (extractIPs ⟨[], xff2, ra⟩).ipv6 ∧
      (extractIPs ⟨[], xff1, ra⟩).remote = (extractIPs ⟨[], xff2, ra⟩).remote :=
  extractIPs_slots_congr ⟨[], xff1, ra⟩ ⟨[], xff2, ra⟩
    (by
      show xffStep xff1 (cfStep []) = xffStep xff2 (cfStep [])
      rw [cfStep_nil, xffStep_nil_slots, xffStep_nil_slots, h4, h6]) rfl

/-! ## Reading back the text of an address: hexadecimal groups -/

theorem hexVal_digits (d : Nat) (h : d < 16) : hexVal (digits.getD d '0') = some d := by
  interval_cases d <;> decide

theorem parseHex_stop (rest : Str) (off acc : Nat)
    (h : ∀ c, rest.head? = some c → hexVal c = none) :
    parseHex rest off acc = some (acc, off, rest) := by
  cases rest with
  | nil => rfl
  | cons c t => rw [parseHex, h c rfl]

theorem parseHex_cons (c : Char) (s : Str) (off acc d : Nat) (hc : hexVal c = some d)
    (hoff : off ≤ 3) (hacc : acc * 16 + d ≤ 65535) :
    parseHex (c :: s) off acc = parseHex s (off + 1) (acc * 16 + d) := by
  rw [parseHex, hc]
  dsimp only
  have hm : (acc * 16 + d) % 2 ^ 32 = acc * 16 + d :=
    Nat.mod_eq_of_lt (by norm_num; omega)
  rw [hm, if_neg (by omega), if_neg (by omega)]

/-- The group reader reads back the text of a 16-bit group. -/
theorem parseHex_appendHex (x : Nat) (hx : x < 65536) (rest : Str)
    (h : ∀ c, rest.head? = some c → hexVal c = none) :
    ∃ n, n ≠ 0 ∧ parseHex (appendHex x ++ rest) 0 0 = some (x, n, rest) := by
  have d0 := hexVal_digits (x % 16) (by omega)
  have d1 := hexVal_digits (x / 0x10 % 16) (by omega)
  have d2 := hexVal_digits (x / 0x100 % 16) (by omega)
  have d3 := hexVal_digits (x / 0x1000) (by omega)
  unfold appendHex
  by_cases h3 : x ≥ 0x1000
  · refine ⟨4, by omega, ?_⟩
    rw [if_pos h3, if_pos (by omega), if_pos (by omega)]
    simp only [List.cons_append, List.nil_append, List.singleton_append]
    rw [parseHex_cons _ _ _ _ _ d3 (by omega) (by omega),
      parseHex_cons _ _ _ _ _ d2 (by omega) (by omega),
      parseHex_cons _ _ _ _ _ d1 (by omega) (by omega),
      parseHex_cons _ _ _ _ _ d0 (by omega) (by omega),
      parseHex_stop rest _ _ h]
    congr 2
    omega
  · rw [if_neg h3]
    by_cases h2 : x ≥ 0x100
    · refine ⟨3, by omega, ?_⟩
      rw [if_pos h2, if_pos (by omega)]
      simp only [List.cons_append, List.nil_append, List.singleton_append]
      rw [parseHex_cons _ _ _ _ _ d2 (by omega) (by omega),
        parseHex_cons _ _ _ _ _ d1 (by omega) (by omega),
        parseHex_cons _ _ _ _ _ d0 (by omega) (by omega),
        parseHex_stop rest _ _ h]
      congr 2
      omega
    · rw [if_neg h2]
      by_cases h1 : x ≥ 0x10
      · refine ⟨2, by omega, ?_⟩
        rw [if_pos h1]
        simp only [List.cons_append, List.nil_append, List.singleton_append]
        rw [parseHex_cons _ _ _ _ _ d1 (by omega) (by omega),
          parseHex_cons _ _ _ _ _ d0 (by omega) (by omega),
          parseHex_stop rest _ _ h]
        congr 2
        omega
      · refine ⟨1, by omega, ?_⟩
        rw [if_neg h1]
        simp only [List.cons_append, List.nil_append, List.singleton_append]
        rw [parseHex_cons _ _ _ _ _ d0 (by omega) (by omega),
          parseHex_stop rest _ _ h]
        congr 2
        omega

/-- The text of a group begins with a hexadecimal digit. -/
theorem appendHex_cons (x : Nat) : ∃ c t, appendHex x = c :: t ∧ (hexVal c).isSome = true := by
  have hd := digits_hex
  unfold appendHex
  split_ifs
  · exact ⟨_, _, rfl, hd _⟩
  · exact ⟨_, _, rfl, hd _⟩
  · exact ⟨_, _, rfl, hd _⟩
  · exact ⟨_, _, rfl, hd _⟩
  · exact ⟨_, _, rfl, hd _⟩
  · exact ⟨_, _, rfl, hd _⟩
  · exact ⟨_, _, rfl, hd _⟩
  · exact ⟨_, _, rfl, hd _⟩

/-! ## Reading back the text of an address: the loop over the groups -/

theorem hexVal_colon : hexVal ':' = none := by decide

theorem parseIPv6Loop_group_end (k x : Nat) (hx : x < 65536) (ip : List Nat)
    (hip : ip.length < 16) (ell : Option Nat) :
    parseIPv6Loop (k + 1) (appendHex x) ip ell =
      some ([], ip ++ [x / 256 % 256, x % 256], ell) := by
  obtain ⟨n, hn, hp⟩ := parseHex_appendHex x hx [] (by simp)
  rw [List.append_nil] at hp
  rw [parseIPv6Loop, if_neg (by omega), hp]
  dsimp only
  rw [if_neg hn, if_neg (by simp)]

theorem parseIPv6Loop_group_colon (k x : Nat) (hx : x < 65536) (ip : List Nat)
    (hip : ip.length < 16) (ell : Option Nat) (d : Char) (r : Str) (hd : d ≠ ':') :
    parseIPv6Loop (k + 1) (appendHex x ++ ':' :: d :: r) ip ell =
      parseIPv6Loop k (d :: r) (ip ++ [x / 256 % 256, x % 256]) ell := by
  obtain ⟨n, hn, hp⟩ := parseHex_appendHex x hx (':' :: d :: r)
    (by intro c hc; simp at hc; rw [← hc]; exact hexVal_colon)
  rw [parseIPv6Loop, if_neg (by omega), hp]
  dsimp only
  rw [if_neg hn, if_neg (by simp), if_neg (by simp), if_neg hd]

theorem parseIPv6Loop_group_ellipsis (k x : Nat) (hx : x < 65536) (ip : List Nat)
    (hip : ip.length < 16) (r : Str) :
    parseIPv6Loop (k + 1) (appendHex x ++ ':' :: ':' :: r) ip none =
      if r = [] then
        some ([], ip ++ [x / 256 % 256, x % 256], some (ip ++ [x / 256 % 256, x % 256]).length)
      else parseIPv6Loop k r (ip ++ [x / 256 % 256, x % 256])
        (some (ip ++ [x / 256 % 256, x % 256]).length) := by
  obtain ⟨n, hn, hp⟩ := parseHex_appendHex x hx (':' :: ':' :: r)
    (by intro c hc; simp at hc; rw [← hc]; exact hexVal_colon)
  rw [parseIPv6Loop, if_neg (by omega), hp]
  dsimp only
  rw [if_neg hn, if_neg (by simp), if_neg (by simp), if_pos rfl, if_neg (by simp)]

theorem bytesOf_length (gs : List Nat) : (bytesOf gs).length = 2 * gs.length := by
  induction gs with
  | nil => rfl
  | cons g r ih => simp [bytesOf, ih]; omega

/-- The loop reads back groups separated by colons up to the end of the
text. -/
theorem parseIPv6Loop_hexJoin (r : List Nat) : ∀ (x : Nat) (ip : List Nat) (k : Nat)
    (ell : Option Nat), (∀ g ∈ x :: r, g < 65536) → ip.length + 2 * (r.length + 1) ≤ 16 →
    r.length + 1 ≤ k →
    parseIPv6Loop k (appendHex x ++ tailJoin r) ip ell =
      some ([], ip ++ bytesOf (x :: r), ell) := by
  induction r with
  | nil =>
    intro x ip k ell hg hl hk
    obtain ⟨k, rfl⟩ : ∃ j, k = j + 1 := ⟨k - 1, by simp at hk; omega⟩
    rw [tailJoin, List.append_nil,
      parseIPv6Loop_group_end k x (hg x (by simp)) ip (by simp at hl; omega) ell]
    rfl
  | cons y r ih =>
    intro x ip k ell hg hl hk
    obtain ⟨k, rfl⟩ : ∃ j, k = j + 1 := ⟨k - 1, by simp at hk; omega⟩
    obtain ⟨c, t, hc, hh⟩ := appendHex_cons y
    have hcc : c ≠ ':' := by
      rintro rfl
      rw [hexVal_colon] at hh
      simp at hh
    rw [tailJoin, hc, List.cons_append,
      parseIPv6Loop_group_colon k x (hg x (by simp)) ip (by simp at hl; omega) ell c _ hcc,
      ← List.cons_append, ← hc,
      ih y _ k ell (fun g hm => hg g (by simp at hm ⊢; tauto)) (by simp at hl ⊢; omega)
        (by simp at hk ⊢; omega)]
    simp [bytesOf]

/-- The loop reads back groups separated by colons up to an ellipsis. -/
theorem parseIPv6Loop_hexJoin_ellipsis (r : List Nat) : ∀ (x : Nat) (ip : List Nat) (k : Nat)
    (t : Str), (∀ g ∈ x :: r, g < 65536) → ip.length + 2 * (r.length + 1) ≤ 16 →
    r.length + 1 ≤ k →
    parseIPv6Loop k (appendHex x ++ tailJoin r ++ ':' :: ':' :: t) ip none =
      if t = [] then
        some ([], ip ++ bytesOf (x :: r), some (ip ++ bytesOf (x :: r)).length)
      else parseIPv6Loop (k - (r.length + 1)) t (ip ++ bytesOf (x :: r))
        (some (ip ++ bytesOf (x :: r)).length) := by
  induction r with
  | nil =>
    intro x ip k t hg hl hk
    obtain ⟨k, rfl⟩ : ∃ j, k = j + 1 := ⟨k - 1, by simp at hk; omega⟩
    rw [tailJoin, List.append_nil,
      parseIPv6Loop_group_ellipsis k x (hg x (by simp)) ip (by simp at hl; omega) t]
    simp [bytesOf]
  | cons y r ih =>
    intro x ip k t hg hl hk
    obtain ⟨k, rfl⟩ : ∃ j, k = j + 1 := ⟨k - 1, by simp at hk; omega⟩
    obtain ⟨c, u, hc, hh⟩ := appendHex_cons y
    have hcc : c ≠ ':' := by
      rintro rfl
      rw [hexVal_colon] at hh
      simp at hh
    have e1 : appendHex x ++ tailJoin (y :: r) ++ ':' :: ':' :: t =
        appendHex x ++ ':' :: c :: (u ++ tailJoin r ++ ':' :: ':' :: t) := by
      rw [tailJoin, hc]; simp
    have e2 : c :: (u ++ tailJoin r ++ ':' :: ':' :: t) =
        appendHex y ++ tailJoin r ++ ':' :: ':' :: t := by
      rw [hc]; simp
    rw [e1, parseIPv6Loop_group_colon k x (hg x (by simp)) ip (by simp at hl; omega) none c _ hcc,
      e2, ih y _ k t (fun g hm => hg g (by simp at hm ⊢; tauto)) (by simp at hl ⊢; omega)
        (by simp at hk ⊢; omega)]
    have e3 : ip ++ [x / 256 % 256, x % 256] ++ bytesOf (y :: r) = ip ++ bytesOf (x :: y :: r) := by
      simp [bytesOf]
    have e4 : k + 1 - ((y :: r).length + 1) = k - (r.length + 1) := by simp
    rw [e3, e4]

/-! ## The shape of the text of an IPv6 address -/

theorem groupsFrom_succ (ip : List Nat) (i n : Nat) :
    groupsFrom ip i (n + 1) = v6u16 ip i :: groupsFrom ip (i + 1) n := rfl

theorem groupsFrom_length (ip : List Nat) (n : Nat) : ∀ i, (groupsFrom ip i n).length = n := by
  induction n with
  | zero => intro i; rfl
  | succ n ih => intro i; simp [groupsFrom, ih]

/-- After the run of zeros, or without one, the second loop of `AppendTo6`
writes the remaining groups, each preceded by a colon. -/
theorem appendTo6Loop_tail (ip : List Nat) (zs ze : Nat) (n : Nat) : ∀ (i : Nat),
    (zs < i ∨ 8 ≤ zs) → 0 < i → 8 ≤ i + n → i ≤ 8 →
    appendTo6Loop ip zs ze n i = tailJoin (groupsFrom ip i (8 - i)) := by
  induction n with
  | zero =>
    intro i _ _ h8 hi
    have : i = 8 := by omega
    subst this
    rfl
  | succ n ih =>
    intro i hz h0 h8 hi
    rw [appendTo6Loop]
    by_cases hge : 8 ≤ i
    · have : i = 8 := by omega
      subst this
      rw [if_pos (le_refl _)]
      rfl
    · rw [if_neg hge, if_neg (by omega), if_pos h0,
        ih (i + 1) (by omega) (by omega) (by omega) (by omega)]
      have e : 8 - i = (8 - (i + 1)) + 1 := by omega
      rw [e, groupsFrom_succ, tailJoin]
      simp

/-- Before the run of zeros, the second loop of `AppendTo6` writes the groups
up to the run, the ellipsis and the groups after the run. -/
theorem appendTo6Loop_run (ip : List Nat) (zs ze : Nat) (hz : zs < ze) (hzs : zs < 8)
    (hze : ze ≤ 8) (n : Nat) : ∀ (i : Nat), 0 < i → i ≤ zs → 8 ≤ i + n →
    appendTo6Loop ip zs ze n i =
      tailJoin (groupsFrom ip i (zs - i)) ++ ':' :: ':' :: hexJoin (groupsFrom ip ze (8 - ze)) := by
  induction n with
  | zero => intro i _ hi h8; omega
  | succ n ih =>
    intro i h0 hi h8
    rw [appendTo6Loop, if_neg (by omega)]
    by_cases he : i = zs
    · subst he
      rw [if_pos rfl, Nat.sub_self]
      by_cases h8e : ze ≥ 8
      · have : ze = 8 := by omega
        subst this
        rw [if_pos (le_refl _)]
        rfl
      · rw [if_neg h8e, appendTo6Loop_tail ip i ze n (ze + 1) (by omega) (by omega) (by omega)
          (by omega)]
        have e : 8 - ze = (8 - (ze + 1)) + 1 := by omega
        rw [e, groupsFrom_succ, hexJoin]
        rfl
    · rw [if_neg he, if_pos h0, ih (i + 1) (by omega) (by omega) (by omega)]
      have e : zs - i = (zs - (i + 1)) + 1 := by omega
      rw [e, groupsFrom_succ, tailJoin]
      simp

/-- The text that the second loop of `AppendTo6` writes for a run of zeros
from `zs` to `ze`, or for no run (`8 ≤ zs`). -/
theorem appendTo6Loop_shape (ip : List Nat) (zs ze : Nat) (h : (zs < ze ∧ ze ≤ 8) ∨ 8 ≤ zs) :
    appendTo6Loop ip zs ze 8 0 =
      if 8 ≤ zs then hexJoin (groupsFrom ip 0 8)
      else hexJoin (groupsFrom ip 0 zs) ++ ':' :: ':' :: hexJoin (groupsFrom ip ze (8 - ze)) := by
  rw [appendTo6Loop, if_neg (by omega)]
  by_cases h8 : 8 ≤ zs
  · rw [if_pos h8, if_neg (by omega), if_neg (by omega),
      appendTo6Loop_tail ip zs ze 7 1 (Or.inr h8) (by omega) (by omega) (by omega)]
    rfl
  · rw [if_neg h8]
    have hz : zs < ze ∧ ze ≤ 8 := by
      rcases h with h | h
      · exact h
      · omega
    by_cases h0 : 0 = zs
    · subst h0
      rw [if_pos rfl]
      by_cases h8e : ze ≥ 8
      · have : ze = 8 := by omega
        subst this
        rfl
      · rw [if_neg h8e, appendTo6Loop_tail ip 0 ze 7 (ze + 1) (by omega) (by omega) (by omega)
          (by omega)]
        have e : 8 - ze = (8 - (ze + 1)) + 1 := by omega
        rw [e, groupsFrom_succ, hexJoin]
        rfl
    · rw [if_neg h0, if_neg (by omega),
        appendTo6Loop_run ip zs ze hz.1 (by omega) hz.2 7 1 (by omega) (by omega) (by omega)]
      have e : zs = (zs - 1) + 1 := by omega
      conv_rhs => rw [e, groupsFrom_succ, hexJoin]
      simp

theorem zeroRunEnd_spec (ip : List Nat) (n : Nat) : ∀ (j : Nat),
    j ≤ zeroRunEnd ip n j ∧ (j ≤ 8 → zeroRunEnd ip n j ≤ 8) ∧
      ∀ m, j ≤ m → m < zeroRunEnd ip n j → v6u16 ip m = 0 := by
  induction n with
  | zero => intro j; exact ⟨le_refl _, fun h => h, fun m h1 h2 => by simp [zeroRunEnd] at h2; omega⟩
  | succ n ih =>
    intro j
    rw [zeroRunEnd]
    by_cases h : j < 8 ∧ v6u16 ip j = 0
    · rw [if_pos h]
      obtain ⟨i1, i2, i3⟩ := ih (j + 1)
      refine ⟨by omega, fun _ => i2 (by omega), ?_⟩
      intro m h1 h2
      by_cases hm : m = j
      · rw [hm]; exact h.2
      · exact i3 m (by omega) h2
    · rw [if_neg h]
      exact ⟨le_refl _, fun h => h, fun m h1 h2 => by omega⟩

/-- The first loop of `AppendTo6` finds no run (`zeroStart` stays 255) or a
run of at least two groups that are all zero. -/
theorem zeroRun_spec (ip : List Nat) (is : List Nat) (his : ∀ i ∈ is, i < 8) :
    ∀ (z : Nat × Nat),
    (8 ≤ z.1 ∨ (z.1 + 2 ≤ z.2 ∧ z.2 ≤ 8 ∧ ∀ m, z.1 ≤ m → m < z.2 → v6u16 ip m = 0)) →
    (8 ≤ (zeroRun ip is z).1 ∨ ((zeroRun ip is z).1 + 2 ≤ (zeroRun ip is z).2 ∧
      (zeroRun ip is z).2 ≤ 8 ∧
      ∀ m, (zeroRun ip is z).1 ≤ m → m < (zeroRun ip is z).2 → v6u16 ip m = 0)) := by
  induction is with
  | nil => intro z hz; exact hz
  | cons i is ih =>
    intro z hz
    obtain ⟨zs, ze⟩ := z
    rw [zeroRun]
    have hi : i < 8 := his i (by simp)
    obtain ⟨e1, e2, e3⟩ := zeroRunEnd_spec ip 8 i
    split_ifs with h
    · refine ih (fun j hj => his j (by simp [hj])) _ (Or.inr ⟨?_, e2 (by omega), e3⟩)
      show i + 2 ≤ zeroRunEnd ip 8 i
      omega
    · exact ih (fun j hj => his j (by simp [hj])) _ hz

/-! ## Reading back the text of an address: bytes and groups -/

theorem getD_lt (ip : List Nat) (hb : ∀ b ∈ ip, b < 256) (k : Nat) : ip.getD k 0 < 256 := by
  by_cases h : k < ip.length
  · rw [List.getD_eq_getElem _ _ h]
    exact hb _ (List.getElem_mem h)
  · rw [List.getD_eq_default _ _ (by omega)]
    omega

theorem v6u16_lt (ip : List Nat) (hb : ∀ b ∈ ip, b < 256) (i : Nat) : v6u16 ip i < 65536 := by
  unfold v6u16
  have h1 := getD_lt ip hb (2 * i)
  have h2 := getD_lt ip hb (2 * i + 1)
  omega

theorem groupsFrom_lt (ip : List Nat) (hb : ∀ b ∈ ip, b < 256) (n : Nat) :
    ∀ i, ∀ g ∈ groupsFrom ip i n, g < 65536 := by
  induction n with
  | zero => intro i g hg; simp [groupsFrom] at hg
  | succ n ih =>
    intro i g hg
    rw [groupsFrom_succ] at hg
    rcases List.mem_cons.1 hg with rfl | hg
    · exact v6u16_lt ip hb i
    · exact ih _ g hg

theorem drop_eq_getD_cons (l : List Nat) : ∀ k, k < l.length →
    l.drop k = l.getD k 0 :: l.drop (k + 1) := by
  induction l with
  | nil => intro k hk; simp at hk
  | cons a t ih =>
    intro k hk
    cases k with
    | zero => simp
    | succ k =>
      simp only [List.drop_succ_cons, List.getD_cons_succ]
      exact ih k (by simpa using hk)

theorem bytesOf_groupsFrom (ip : List Nat) (hb : ∀ b ∈ ip, b < 256) (n : Nat) :
    ∀ i, 2 * (i + n) ≤ ip.length →
    bytesOf (groupsFrom ip i n) = (ip.drop (2 * i)).take (2 * n) := by
  induction n with
  | zero => intro i _; simp [groupsFrom, bytesOf]
  | succ n ih =>
    intro i hi
    have h1 := getD_lt ip hb (2 * i)
    have h2 := getD_lt ip hb (2 * i + 1)
    rw [groupsFrom_succ, bytesOf, ih (i + 1) (by omega),
      drop_eq_getD_cons ip (2 * i) (by omega), drop_eq_getD_cons ip (2 * i + 1) (by omega)]
    have e : 2 * (n + 1) = 2 * n + 1 + 1 := by omega
    rw [e, List.take_succ_cons, List.take_succ_cons]
    have e2 : 2 * (i + 1) = 2 * i + 1 + 1 := by omega
    rw [e2]
    unfold v6u16
    congr 1
    · omega
    · congr 1
      omega

theorem bytesOf_zero_groups (ip : List Nat) (n : Nat) : ∀ i,
    (∀ m, i ≤ m → m < i + n → v6u16 ip m = 0) →
    bytesOf (groupsFrom ip i n) = List.replicate (2 * n) 0 := by
  induction n with
  | zero => intro i _; rfl
  | succ n ih =>
    intro i h
    rw [groupsFrom_succ, bytesOf, h i (le_refl _) (by omega),
      ih (i + 1) (fun m h1 h2 => h m (by omega) (by omega))]
    have e : 2 * (n + 1) = 2 * n + 1 + 1 := by omega
    rw [e, List.replicate_succ, List.replicate_succ]

/-- An address of sixteen bytes is made of the groups before a run of zero
groups, the zeros of the run and the groups after it. -/
theorem bytes_split (ip : List Nat) (hlen : ip.length = 16) (hb : ∀ b ∈ ip, b < 256)
    (zs ze : Nat) (hz : zs ≤ ze) (hze : ze ≤ 8)
    (h0 : ∀ m, zs ≤ m → m < ze → v6u16 ip m = 0) :
    bytesOf (groupsFrom ip 0 zs) ++ List.replicate (2 * (ze - zs)) 0 ++
      bytesOf (groupsFrom ip ze (8 - ze)) = ip := by
  have e1 := bytesOf_groupsFrom ip hb zs 0 (by omega)
  have e2 := bytesOf_groupsFrom ip hb (ze - zs) zs (by omega)
  have e3 := bytesOf_groupsFrom ip hb (8 - ze) ze (by omega)
  have e4 := bytesOf_zero_groups ip (ze - zs) zs (fun m h1 h2 => h0 m h1 (by omega))
  rw [← e4, e1, e2, e3]
  simp only [Nat.mul_zero, List.drop_zero]
  have e5 : List.take (2 * (8 - ze)) (List.drop (2 * ze) ip) = List.drop (2 * ze) ip :=
    List.take_of_length_le (by simp [hlen]; omega)
  rw [e5]
  have e6 : List.drop (2 * ze) ip = List.drop (2 * (ze - zs)) (List.drop (2 * zs) ip) := by
    rw [List.drop_drop]
    congr 1
    omega
  rw [e6, List.append_assoc, List.take_append_drop, List.take_append_drop]

theorem bytesOf_all (ip : List Nat) (hlen : ip.length = 16) (hb : ∀ b ∈ ip, b < 256) :
    bytesOf (groupsFrom ip 0 8) = ip := by
  rw [bytesOf_groupsFrom ip hb 8 0 (by omega)]
  simp only [Nat.mul_zero, List.drop_zero]
  exact List.take_of_length_le (by omega)

/-! ## Reading back the text of an IPv6 address -/

theorem hexJoin_cons (x : Nat) (r : List Nat) :
    ∃ c t, hexJoin (x :: r) = c :: t ∧ c ≠ ':' := by
  obtain ⟨c, t, hc, hh⟩ := appendHex_cons x
  refine ⟨c, t ++ tailJoin r, by rw [hexJoin, hc]; rfl, ?_⟩
  rintro rfl
  rw [hexVal_colon] at hh
  simp at hh

/-- The end of `parseIPv6` on a text without leading ellipsis, given the
state in which the main loop leaves. -/
theorem parseIPv6Body_of_loop (c : Char) (t : Str) (hc : c ≠ ':') (ip2 : List Nat)
    (ell2 : Option Nat) (h : parseIPv6Loop 8 (c :: t) [] none = some ([], ip2, ell2)) :
    parseIPv6Body (c :: t) =
      if ip2.length < 16 then
        ell2.map (fun e => ip2.take e ++ List.replicate (16 - ip2.length) 0 ++ ip2.drop e)
      else if ell2.isSome then none else some ip2 := by
  have hp : HasPrefix (c :: t) "::".toList = false := by
    rw [lit_cc]
    simp [HasPrefix, List.isPrefixOf, Ne.symm hc]
  unfold parseIPv6Body
  simp only [hp, Bool.false_eq_true, if_false, false_and]
  rw [h]
  cases ell2 <;> simp

/-- The end of `parseIPv6` on a text with a leading ellipsis, given the state
in which the main loop leaves. -/
theorem parseIPv6Body_of_loop_lead (t : Str) (ht : t ≠ []) (ip2 : List Nat)
    (ell2 : Option Nat) (h : parseIPv6Loop 8 t [] (some 0) = some ([], ip2, ell2)) :
    parseIPv6Body (':' :: ':' :: t) =
      if ip2.length < 16 then
        ell2.map (fun e => ip2.take e ++ List.replicate (16 - ip2.length) 0 ++ ip2.drop e)
      else if ell2.isSome then none else some ip2 := by
  have hp : HasPrefix (':' :: ':' :: t) "::".toList = true := by
    rw [lit_cc]
    simp [HasPrefix, List.isPrefixOf]
  unfold parseIPv6Body
  simp only [hp, if_true, true_and, List.drop_succ_cons, List.drop_zero]
  rw [if_neg ht, h]
  cases ell2 <;> simp

theorem parseIPv6Body_ellipsis_only :
    parseIPv6Body [':', ':'] = some (List.replicate 16 0) := by decide

/-- `parseIPv6` reads the text of a run-free address back. -/
theorem parseIPv6Body_no_run (ip : List Nat) (hlen : ip.length = 16)
    (hb : ∀ b ∈ ip, b < 256) :
    parseIPv6Body (hexJoin (groupsFrom ip 0 8)) = some ip := by
  have hg := groupsFrom_lt ip hb 8 0
  have e : groupsFrom ip 0 8 = v6u16 ip 0 :: groupsFrom ip (0 + 1) 7 := rfl
  rw [e] at hg ⊢
  obtain ⟨c, t, hct, hc⟩ := hexJoin_cons (v6u16 ip 0) (groupsFrom ip (0 + 1) 7)
  have hloop : parseIPv6Loop 8 (hexJoin (v6u16 ip 0 :: groupsFrom ip (0 + 1) 7)) [] none =
      some ([], [] ++ bytesOf (v6u16 ip 0 :: groupsFrom ip (0 + 1) 7), none) :=
    parseIPv6Loop_hexJoin (groupsFrom ip (0 + 1) 7) (v6u16 ip 0) [] 8 none hg
      (by simp [groupsFrom_length]) (by simp [groupsFrom_length])
  rw [hct] at hloop
  rw [hct, parseIPv6Body_of_loop c t hc _ _ hloop]
  have hl : ([] ++ bytesOf (v6u16 ip 0 :: groupsFrom ip (0 + 1) 7)).length = 16 := by
    simp [bytesOf_length, groupsFrom_length]
  rw [if_neg (by omega)]
  simp only [Option.isSome_none, Bool.false_eq_true, if_false, List.nil_append]
  rw [← e, bytesOf_all ip hlen hb]

/-- `parseIPv6` reads the text of an address with a run of zeros from the
group `zs` to the group `ze` back. -/
theorem parseIPv6Body_run (ip : List Nat) (hlen : ip.length = 16) (hb : ∀ b ∈ ip, b < 256)
    (zs ze : Nat) (hz : zs + 2 ≤ ze) (hze : ze ≤ 8)
    (h0 : ∀ m, zs ≤ m → m < ze → v6u16 ip m = 0) :
    parseIPv6Body (hexJoin (groupsFrom ip 0 zs) ++ ':' :: ':' ::
      hexJoin (groupsFrom ip ze (8 - ze))) = some ip := by
  have hsplit := bytes_split ip hlen hb zs ze (by omega) hze h0
  have hgpost := groupsFrom_lt ip hb (8 - ze) ze
  have hgpre := groupsFrom_lt ip hb zs 0
  -- the state after the groups that follow the ellipsis
  have hpost : ∀ (acc : List Nat) (k : Nat), acc.length = 2 * zs → 8 - ze ≤ k → ze < 8 →
      parseIPv6Loop k (hexJoin (groupsFrom ip ze (8 - ze))) acc (some (2 * zs)) =
        some ([], acc ++ bytesOf (groupsFrom ip ze (8 - ze)), some (2 * zs)) := by
    intro acc k hacc hk h8
    have e : 8 - ze = (8 - (ze + 1)) + 1 := by omega
    rw [e, groupsFrom_succ] at hgpost ⊢
    rw [hexJoin]
    exact parseIPv6Loop_hexJoin _ _ acc k _ hgpost
      (by simp [groupsFrom_length, hacc]; omega) (by simp [groupsFrom_length]; omega)
  have hfin : ∀ (pre post : List Nat), pre.length = 2 * zs → post.length = 2 * (8 - ze) →
      pre ++ List.replicate (2 * (ze - zs)) 0 ++ post = ip →
      (if (pre ++ post).length < 16 then
        (some (2 * zs)).map (fun e => (pre ++ post).take e ++
            List.replicate (16 - (pre ++ post).length) 0 ++ (pre ++ post).drop e)
      else if (some (2 * zs)).isSome then none else some (pre ++ post)) = some ip := by
    intro pre post h1 h2 h3
    rw [if_pos (by simp [h1, h2]; omega)]
    rw [Option.map_some']
    have e1 : (pre ++ post).take (2 * zs) = pre := by
      rw [← h1]; exact List.take_left pre post
    have e2 : (pre ++ post).drop (2 * zs) = post := by
      rw [← h1]; exact List.drop_left pre post
    have e3 : 16 - (pre ++ post).length = 2 * (ze - zs) := by
      simp [h1, h2]; omega
    rw [e1, e2, e3, h3]
  have hlpre : (bytesOf (groupsFrom ip 0 zs)).length = 2 * zs := by
    simp [bytesOf_length, groupsFrom_length]
  have hlpost : (bytesOf (groupsFrom ip ze (8 - ze))).length = 2 * (8 - ze) := by
    simp [bytesOf_length, groupsFrom_length]
  by_cases hzs : zs = 0
  · -- leading ellipsis
    subst hzs
    have hnil : hexJoin (groupsFrom ip 0 0) = [] := rfl
    rw [hnil, List.nil_append]
    by_cases h8 : ze = 8
    · subst h8
      have hnil2 : hexJoin (groupsFrom ip 8 (8 - 8)) = [] := rfl
      rw [hnil2, parseIPv6Body_ellipsis_only]
      have := hsplit
      simp only [groupsFrom, bytesOf, List.nil_append, List.append_nil, Nat.sub_self] at this
      rw [← this]
    · have hne : hexJoin (groupsFrom ip ze (8 - ze)) ≠ [] := by
        have e : 8 - ze = (8 - (ze + 1)) + 1 := by omega
        rw [e, groupsFrom_succ]
        obtain ⟨c, t, hct, _⟩ := hexJoin_cons (v6u16 ip ze) (groupsFrom ip (ze + 1) (8 - (ze + 1)))
        rw [hct]; simp
      have hl := hpost [] 8 rfl (by omega) (by omega)
      rw [parseIPv6Body_of_loop_lead _ hne _ _ hl]
      have := hfin [] (bytesOf (groupsFrom ip ze (8 - ze))) rfl hlpost
        (by simpa [groupsFrom, bytesOf] using hsplit)
      simpa using this
  · -- groups, ellipsis, groups
    have e : zs = (zs - 1) + 1 := by omega
    have epre : groupsFrom ip 0 zs = v6u16 ip 0 :: groupsFrom ip (0 + 1) (zs - 1) := by
      conv_lhs => rw [e, groupsFrom_succ]
    obtain ⟨c, t, hct, hc⟩ := hexJoin_cons (v6u16 ip 0) (groupsFrom ip (0 + 1) (zs - 1))
    have hloop0 := parseIPv6Loop_hexJoin_ellipsis (groupsFrom ip (0 + 1) (zs - 1)) (v6u16 ip 0)
      [] 8 (hexJoin (groupsFrom ip ze (8 - ze))) (by rw [← epre]; exact hgpre)
      (by simp [groupsFrom_length]; omega) (by simp [groupsFrom_length]; omega)
    have hk : 8 - ((groupsFrom ip (0 + 1) (zs - 1)).length + 1) = 8 - zs := by
      rw [groupsFrom_length]; omega
    rw [hk, ← epre, List.nil_append, hlpre] at hloop0
    have hloop : parseIPv6Loop 8 (hexJoin (groupsFrom ip 0 zs) ++ ':' :: ':' ::
          hexJoin (groupsFrom ip ze (8 - ze))) [] none =
        if hexJoin (groupsFrom ip ze (8 - ze)) = [] then
          some ([], bytesOf (groupsFrom ip 0 zs), some (2 * zs))
        else parseIPv6Loop (8 - zs) (hexJoin (groupsFrom ip ze (8 - ze)))
          (bytesOf (groupsFrom ip 0 zs)) (some (2 * zs)) := by
      rw [epre]; rw [epre] at hloop0; exact hloop0
    have hs : hexJoin (groupsFrom ip 0 zs) ++ ':' :: ':' :: hexJoin (groupsFrom ip ze (8 - ze)) =
        c :: (t ++ ':' :: ':' :: hexJoin (groupsFrom ip ze (8 - ze))) := by
      rw [epre, hct]; rfl
    by_cases h8 : ze = 8
    · subst h8
      have hnil2 : hexJoin (groupsFrom ip 8 (8 - 8)) = [] := rfl
      rw [hnil2] at hloop hs
      rw [if_pos rfl, hs] at hloop
      rw [hnil2, hs, parseIPv6Body_of_loop c _ hc _ _ hloop]
      have := hfin (bytesOf (groupsFrom ip 0 zs)) [] hlpre rfl
        (by simpa [groupsFrom, bytesOf] using hsplit)
      simpa using this
    · have hne : hexJoin (groupsFrom ip ze (8 - ze)) ≠ [] := by
        have e : 8 - ze = (8 - (ze + 1)) + 1 := by omega
        rw [e, groupsFrom_succ]
        obtain ⟨c, t, hct, _⟩ := hexJoin_cons (v6u16 ip ze) (groupsFrom ip (ze + 1) (8 - (ze + 1)))
        rw [hct]; simp
      rw [if_neg hne, hpost _ (8 - zs) hlpre (by omega) (by omega), hs] at hloop
      rw [hs, parseIPv6Body_of_loop c _ hc _ _ hloop]
      exact hfin _ _ hlpre hlpost hsplit

/-! ## `ParseIP` reads the text of an IPv6 address back -/

theorem appendHex_chars (x : Nat) : ∀ c ∈ appendHex x, (hexVal c).isSome = true := by
  intro c hc
  unfold appendHex at hc
  simp only [List.mem_append, List.mem_singleton] at hc
  rcases hc with ((hc | hc) | hc) | hc
  · split_ifs at hc
    · rw [List.mem_singleton.1 hc]; exact digits_hex _
    · exact absurd hc (List.not_mem_nil _)
  · split_ifs at hc
    · rw [List.mem_singleton.1 hc]; exact digits_hex _
    · exact absurd hc (List.not_mem_nil _)
  · split_ifs at hc
    · rw [List.mem_singleton.1 hc]; exact digits_hex _
    · exact absurd hc (List.not_mem_nil _)
  · rw [hc]; exact digits_hex _

theorem tailJoin_chars (gs : List Nat) : ∀ c ∈ tailJoin gs, (hexVal c).isSome = true ∨ c = ':' := by
  induction gs with
  | nil => intro c hc; simp [tailJoin] at hc
  | cons g r ih =>
    intro c hc
    rw [tailJoin] at hc
    rcases List.mem_cons.1 hc with rfl | hc
    · exact Or.inr rfl
    · rcases List.mem_append.1 hc with hc | hc
      · exact Or.inl (appendHex_chars g c hc)
      · exact ih c hc

theorem hexJoin_chars (gs : List Nat) : ∀ c ∈ hexJoin gs, (hexVal c).isSome = true ∨ c = ':' := by
  cases gs with
  | nil => intro c hc; simp [hexJoin] at hc
  | cons g r =>
    intro c hc
    rw [hexJoin] at hc
    rcases List.mem_append.1 hc with hc | hc
    · exact Or.inl (appendHex_chars g c hc)
    · exact tailJoin_chars r c hc

/-- The text of an IPv6 address, by the run of zeros that the first loop of
`AppendTo6` finds. -/
theorem string6_shape (ip : List Nat) :
    string6 ip = hexJoin (groupsFrom ip 0 8) ∨
      ∃ zs ze, zs + 2 ≤ ze ∧ ze ≤ 8 ∧ (∀ m, zs ≤ m → m < ze → v6u16 ip m = 0) ∧
        string6 ip = hexJoin (groupsFrom ip 0 zs) ++ ':' :: ':' ::
          hexJoin (groupsFrom ip ze (8 - ze)) := by
  have hz := zeroRun_spec ip (List.range 8) (fun i hi => List.mem_range.1 hi) (255, 255)
    (Or.inl (by decide))
  unfold string6
  dsimp only
  rcases hz with h8 | ⟨h1, h2, h3⟩
  · left
    rw [appendTo6Loop_shape ip _ _ (Or.inr h8), if_pos h8]
  · right
    refine ⟨_, _, h1, h2, h3, ?_⟩
    rw [appendTo6Loop_shape ip _ _ (Or.inl ⟨by omega, h2⟩), if_neg (by omega)]

theorem parseIPv6Body_string6 (ip : List Nat) (hlen : ip.length = 16)
    (hb : ∀ b ∈ ip, b < 256) : parseIPv6Body (string6 ip) = some ip := by
  rcases string6_shape ip with h | ⟨zs, ze, h1, h2, h3, h⟩
  · rw [h]; exact parseIPv6Body_no_run ip hlen hb
  · rw [h]; exact parseIPv6Body_run ip hlen hb zs ze h1 h2 h3

theorem string6_chars (ip : List Nat) :
    (∀ c ∈ string6 ip, (hexVal c).isSome = true ∨ c = ':') ∧ ':' ∈ string6 ip := by
  rcases string6_shape ip with h | ⟨zs, ze, _, _, _, h⟩
  · rw [h]
    refine ⟨hexJoin_chars _, ?_⟩
    have e : groupsFrom ip 0 8 = v6u16 ip 0 :: v6u16 ip 1 :: groupsFrom ip 2 6 := rfl
    rw [e, hexJoin, tailJoin]
    simp
  · rw [h]
    refine ⟨?_, by simp⟩
    intro c hc
    simp only [List.mem_append, List.mem_cons] at hc
    rcases hc with hc | rfl | rfl | hc
    · exact hexJoin_chars _ c hc
    · exact Or.inr rfl
    · exact Or.inr rfl
    · exact hexJoin_chars _ c hc

theorem parseAddrScan_first_colon (s : Str) : ∀ (t : Str),
    (∀ c ∈ t, c ≠ '.' ∧ c ≠ '%') → ':' ∈ t →
    parseAddrScan s t = (parseIPv6 s).map (fun r => Addr.v6 r.1 r.2) := by
  intro t
  induction t with
  | nil => intro _ h; simp at h
  | cons c t ih =>
    intro hc hm
    rw [parseAddrScan, if_neg (hc c (by simp)).1]
    by_cases h : c = ':'
    · rw [if_pos h]
    · rw [if_neg h, if_neg (hc c (by simp)).2]
      refine ih (fun d hd => hc d (by simp [hd])) ?_
      rcases List.mem_cons.1 hm with e | e
      · exact absurd e.symm h
      · exact e

/-- `ParseIP` reads the text of an address of sixteen bytes back, as `String`
writes it in IPv6 form. -/
theorem ParseIP_string6 (ip : List Nat) (hlen : ip.length = 16) (hb : ∀ b ∈ ip, b < 256) :
    ParseIP (string6 ip) = some ip := by
  obtain ⟨hch, hcol⟩ := string6_chars ip
  have hne : ∀ c ∈ string6 ip, c ≠ '.' ∧ c ≠ '%' := by
    intro c hc
    rcases hch c hc with h | rfl
    · constructor
      · rintro rfl; revert h; decide
      · rintro rfl; revert h; decide
    · exact ⟨by decide, by decide⟩
  have hpct : IndexByte (string6 ip) '%' = none :=
    IndexByte_eq_none.2 (fun hm => (hne _ hm).2 rfl)
  have h6 : parseIPv6 (string6 ip) = some (ip, []) := by
    unfold parseIPv6
    rw [hpct, parseIPv6Body_string6 ip hlen hb]
    rfl
  unfold ParseIP ParseAddr
  rw [parseAddrScan_first_colon _ _ hne hcol, h6]
  rfl

/-! ## `ParseIP` reads the text of an IPv4 address back -/

theorem digits_decimal (d : Nat) (h : d < 10) :
    isDigit (digits.getD d '0') = true ∧ (digits.getD d '0').toNat - '0'.toNat = d := by
  interval_cases d <;> exact ⟨by decide, by decide⟩

theorem isDigit_dot : isDigit '.' = false := by decide

theorem parseIPv4FieldsLoop_digit (c : Char) (rest : Str) (prev : Option Char)
    (val dl : Nat) (f : List Nat) (d : Nat) (hc : isDigit c = true)
    (hd : c.toNat - '0'.toNat = d) (hz : ¬ (dl = 1 ∧ val = 0)) (hv : val * 10 + d ≤ 255) :
    parseIPv4FieldsLoop (c :: rest) prev val dl f =
      parseIPv4FieldsLoop rest (some c) (val * 10 + d) (dl + 1) f := by
  rw [parseIPv4FieldsLoop, if_pos hc, if_neg hz]
  dsimp only
  rw [hd, if_neg (by omega)]

/-- The loop of `parseIPv4Fields` reads the decimal text of an octet back. -/
theorem parseIPv4FieldsLoop_appendDecimal (x : Nat) (hx : x < 256) (prev : Option Char) :
    ∃ c dl, isDigit c = true ∧ ∀ (rest : Str) (f : List Nat),
      parseIPv4FieldsLoop (appendDecimal x ++ rest) prev 0 0 f =
        parseIPv4FieldsLoop rest (some c) x dl f := by
  obtain ⟨a0, b0⟩ := digits_decimal (x % 10) (by omega)
  obtain ⟨a1, b1⟩ := digits_decimal (x / 10 % 10) (by omega)
  obtain ⟨a2, b2⟩ := digits_decimal (x / 100) (by omega)
  unfold appendDecimal
  by_cases h2 : x ≥ 100
  · refine ⟨_, 3, a0, ?_⟩
    intro rest f
    rw [if_pos h2, if_pos (by omega)]
    simp only [List.cons_append, List.nil_append, List.singleton_append]
    rw [parseIPv4FieldsLoop_digit _ _ _ _ _ _ _ a2 b2 (by omega) (by omega),
      parseIPv4FieldsLoop_digit _ _ _ _ _ _ _ a1 b1 (by omega) (by omega),
      parseIPv4FieldsLoop_digit _ _ _ _ _ _ _ a0 b0 (by omega) (by omega)]
    congr 1
    omega
  · rw [if_neg h2]
    by_cases h1 : x ≥ 10
    · refine ⟨_, 2, a0, ?_⟩
      intro rest f
      rw [if_pos h1]
      simp only [List.cons_append, List.nil_append, List.singleton_append]
      rw [parseIPv4FieldsLoop_digit _ _ _ _ _ _ _ a1 b1 (by omega) (by omega),
        parseIPv4FieldsLoop_digit _ _ _ _ _ _ _ a0 b0 (by omega) (by omega)]
      congr 1
      omega
    · refine ⟨_, 1, a0, ?_⟩
      intro rest f
      rw [if_neg h1]
      simp only [List.cons_append, List.nil_append, List.singleton_append]
      rw [parseIPv4FieldsLoop_digit _ _ _ _ _ _ _ a0 b0 (by omega) (by omega)]
      congr 1
      omega

theorem parseIPv4FieldsLoop_dot (rest : Str) (c : Char) (val dl : Nat) (f : List Nat)
    (hc : isDigit c = true) (hr : rest ≠ []) (hf : f.length ≠ 3) :
    parseIPv4FieldsLoop ('.' :: rest) (some c) val dl f =
      parseIPv4FieldsLoop rest (some '.') 0 0 (f ++ [val % 256]) := by
  have hcd : c ≠ '.' := by
    rintro rfl
    rw [isDigit_dot] at hc
    exact absurd hc (by simp)
  rw [parseIPv4FieldsLoop, isDigit_dot]
  simp only [Bool.false_eq_true, if_false, if_true]
  rw [if_neg (by simp [hr, hcd]), if_neg hf]

theorem appendDecimal_ne_nil (x : Nat) (rest : Str) : appendDecimal x ++ rest ≠ [] := by
  obtain ⟨c, t, h, _⟩ := appendDecimal_head x
  rw [h]; simp

/-- `parseIPv4Fields` reads the dotted-quad text of four octets back. -/
theorem parseIPv4Fields_string4 (a b c d : Nat) (ha : a < 256) (hb : b < 256) (hc : c < 256)
    (hd : d < 256) : parseIPv4Fields (string4 [a, b, c, d]) = some [a, b, c, d] := by
  have e : string4 [a, b, c, d] = appendDecimal a ++ '.' :: (appendDecimal b ++ '.' ::
      (appendDecimal c ++ '.' :: (appendDecimal d ++ []))) := by
    simp [string4]
  obtain ⟨c1, l1, k1, p1⟩ := parseIPv4FieldsLoop_appendDecimal a ha none
  obtain ⟨c2, l2, k2, p2⟩ := parseIPv4FieldsLoop_appendDecimal b hb (some '.')
  obtain ⟨c3, l3, k3, p3⟩ := parseIPv4FieldsLoop_appendDecimal c hc (some '.')
  obtain ⟨c4, l4, k4, p4⟩ := parseIPv4FieldsLoop_appendDecimal d hd (some '.')
  rw [e, parseIPv4Fields, p1, parseIPv4FieldsLoop_dot _ _ _ _ _ k1 (appendDecimal_ne_nil _ _)
      (by simp),
    p2, parseIPv4FieldsLoop_dot _ _ _ _ _ k2 (appendDecimal_ne_nil _ _) (by simp),
    p3, parseIPv4FieldsLoop_dot _ _ _ _ _ k3 (appendDecimal_ne_nil _ _) (by simp),
    p4, parseIPv4FieldsLoop, if_neg (by simp)]
  simp [Nat.mod_eq_of_lt ha, Nat.mod_eq_of_lt hb, Nat.mod_eq_of_lt hc, Nat.mod_eq_of_lt hd]

theorem parseAddrScan_first_dot (s : Str) : ∀ (t : Str),
    (∀ c ∈ t, c ≠ ':' ∧ c ≠ '%') → '.' ∈ t →
    parseAddrScan s t = (parseIPv4Fields s).map Addr.v4 := by
  intro t
  induction t with
  | nil => intro _ h; simp at h
  | cons c t ih =>
    intro hc hm
    rw [parseAddrScan]
    by_cases h : c = '.'
    · rw [if_pos h]
    · rw [if_neg h, if_neg (hc c (by simp)).1, if_neg (hc c (by simp)).2]
      refine ih (fun d hd => hc d (by simp [hd])) ?_
      rcases List.mem_cons.1 hm with e | e
      · exact absurd e.symm h
      · exact e

/-- `ParseIP` reads the dotted-quad text of four octets back, as the 16-byte
form of the IPv4 address. -/
theorem ParseIP_string4 (p : List Nat) (hlen : p.length = 4) (hb : ∀ b ∈ p, b < 256) :
    ParseIP (string4 p) = some (v4InV6Prefix ++ p) := by
  obtain ⟨a, b, c, d, rfl⟩ : ∃ a b c d, p = [a, b, c, d] := by
    match p, hlen with
    | [a, b, c, d], _ => exact ⟨a, b, c, d, rfl⟩
  have h4 := parseIPv4Fields_string4 a b c d (hb a (by simp)) (hb b (by simp))
    (hb c (by simp)) (hb d (by simp))
  have hne : ∀ x ∈ string4 [a, b, c, d], x ≠ ':' ∧ x ≠ '%' := by
    intro x hx
    have h1 := string4_chars _ x hx
    constructor
    · rintro rfl; exact string4_no_colon _ hx
    · rintro rfl; revert h1; decide
  have hdot : '.' ∈ string4 [a, b, c, d] := by simp [string4]
  unfold ParseIP ParseAddr
  rw [parseAddrScan_first_dot _ _ hne hdot, h4]
  rfl

/-! ## The addresses that `ParseIP` returns, and their canonical text -/

theorem parseIPv4FieldsLoop_lt (s : Str) : ∀ (prev : Option Char) (val dl : Nat)
    (f r : List Nat), parseIPv4FieldsLoop s prev val dl f = some r → (∀ b ∈ f, b < 256) →
    ∀ b ∈ r, b < 256 := by
  induction s with
  | nil =>
    intro prev val dl f r h hf
    rw [parseIPv4FieldsLoop] at h
    split_ifs at h
    rw [← Option.some.inj h]
    intro b hb
    rcases List.mem_append.1 hb with hb | hb
    · exact hf b hb
    · rw [List.mem_singleton.1 hb]; exact Nat.mod_lt _ (by norm_num)
  | cons x t ih =>
    intro prev val dl f r h hf
    rw [parseIPv4FieldsLoop] at h
    dsimp only at h
    split_ifs at h
    · exact ih _ _ _ _ _ h hf
    · refine ih _ _ _ _ _ h ?_
      intro b hb
      rcases List.mem_append.1 hb with hb | hb
      · exact hf b hb
      · rw [List.mem_singleton.1 hb]; exact Nat.mod_lt _ (by norm_num)

theorem parseIPv4Fields_lt {s : Str} {r : List Nat} (h : parseIPv4Fields s = some r) :
    ∀ b ∈ r, b < 256 :=
  parseIPv4FieldsLoop_lt s _ _ _ _ _ h (by simp)

/-- The main loop of `parseIPv6` writes bytes, two or four at a time, and at
most sixteen. -/
theorem parseIPv6Loop_bytes (k : Nat) : ∀ (s : Str) (ip : List Nat) (ell : Option Nat)
    (s2 : Str) (ip2 : List Nat) (ell2 : Option Nat),
    parseIPv6Loop k s ip ell = some (s2, ip2, ell2) →
    (∀ b ∈ ip, b < 256) → ip.length % 2 = 0 → ip.length ≤ 16 →
    (∀ b ∈ ip2, b < 256) ∧ ip2.length % 2 = 0 ∧ ip2.length ≤ 16 := by
  induction k with
  | zero =>
    intro s ip ell s2 ip2 ell2 h hb he hl
    simp [parseIPv6Loop] at h
    obtain ⟨_, rfl, _⟩ := h
    exact ⟨hb, he, hl⟩
  | succ k ih =>
    intro s ip ell s2 ip2 ell2 h hb he hl
    rw [parseIPv6Loop] at h
    by_cases h16 : 16 ≤ ip.length
    · rw [if_pos h16] at h
      simp at h
      obtain ⟨_, rfl, _⟩ := h
      exact ⟨hb, he, hl⟩
    · rw [if_neg h16] at h
      cases hph : parseHex s 0 0 with
      | none => rw [hph] at h; exact absurd h (by simp)
      | some r =>
        obtain ⟨acc, off, rest⟩ := r
        rw [hph] at h
        dsimp only at h
        have hb2 : ∀ b ∈ ip ++ [acc / 256 % 256, acc % 256], b < 256 := by
          intro b hm
          rcases List.mem_append.1 hm with hm | hm
          · exact hb b hm
          · simp only [List.mem_cons, List.mem_singleton, List.not_mem_nil, or_false] at hm
            rcases hm with rfl | rfl
            · exact Nat.mod_lt _ (by norm_num)
            · exact Nat.mod_lt _ (by norm_num)
        have he2 : (ip ++ [acc / 256 % 256, acc % 256]).length % 2 = 0 := by
          simp; omega
        have hl2 : (ip ++ [acc / 256 % 256, acc % 256]).length ≤ 16 := by
          simp; omega
        by_cases h0 : off = 0
        · rw [if_pos h0] at h; exact absurd h (by simp)
        rw [if_neg h0] at h
        by_cases hdot : rest.head? = some '.'
        · rw [if_pos hdot] at h
          by_cases hplace : ell = none ∧ ip.length ≠ 12
          · rw [if_pos hplace] at h; exact absurd h (by simp)
          rw [if_neg hplace] at h
          by_cases hroom : ip.length + 4 > 16
          · rw [if_pos hroom] at h; exact absurd h (by simp)
          rw [if_neg hroom] at h
          cases hf : parseIPv4Fields s with
          | none => rw [hf] at h; exact absurd h (by simp)
          | some fields =>
            rw [hf] at h
            simp at h
            obtain ⟨_, rfl, _⟩ := h
            have hlen := parseIPv4Fields_length hf
            have hlt := parseIPv4Fields_lt hf
            refine ⟨?_, by simp [hlen]; omega, by simp [hlen]; omega⟩
            intro b hm
            rcases List.mem_append.1 hm with hm | hm
            · exact hb b hm
            · exact hlt b hm
        · rw [if_neg hdot] at h
          cases rest with
          | nil =>
            simp at h
            obtain ⟨_, rfl, _⟩ := h
            exact ⟨hb2, he2, hl2⟩
          | cons c rest1 =>
            dsimp only at h
            by_cases hc : c = ':'
            swap
            · rw [if_pos hc] at h; exact absurd h (by simp)
            rw [if_neg (by simp [hc])] at h
            cases rest1 with
            | nil => exact absurd h (by simp)
            | cons d rest2 =>
              dsimp only at h
              by_cases hd : d = ':'
              · rw [if_pos hd] at h
                by_cases hell : ell.isSome = true
                · rw [if_pos hell] at h; exact absurd h (by simp)
                rw [if_neg hell] at h
                by_cases hr2 : rest2 = []
                · rw [if_pos hr2] at h
                  simp at h
                  obtain ⟨_, rfl, _⟩ := h
                  exact ⟨hb2, he2, hl2⟩
                · rw [if_neg hr2] at h
                  exact ih _ _ _ _ _ _ h hb2 he2 hl2
              · rw [if_neg hd] at h
                exact ih _ _ _ _ _ _ h hb2 he2 hl2

theorem parseIPv6_expand_bytes {s2 : Str} {ip2 ip : List Nat} {ell2 : Option Nat}
    (i1 : ∀ b ∈ ip2, b < 256) (i3 : ip2.length ≤ 16)
    (h : (if s2 ≠ [] then none
      else if ip2.length < 16 then
        match ell2 with
        | none => none
        | some e => some (ip2.take e ++ List.replicate (16 - ip2.length) 0 ++ ip2.drop e)
      else if ell2.isSome then none
      else some ip2) = some ip) :
    ip.length = 16 ∧ ∀ b ∈ ip, b < 256 := by
  by_cases hs2 : s2 ≠ []
  · rw [if_pos hs2] at h; exact absurd h (by simp)
  rw [if_neg hs2] at h
  by_cases hlen : ip2.length < 16
  · rw [if_pos hlen] at h
    cases ell2 with
    | none => exact absurd h (by simp)
    | some e =>
      simp only [Option.some.injEq] at h
      rw [← h]
      constructor
      · have : (List.take e ip2).length + (List.drop e ip2).length = ip2.length := by
          rw [← List.length_append, List.take_append_drop]
        simp only [List.length_append, List.length_replicate]
        omega
      · intro b hb
        simp only [List.mem_append] at hb
        rcases hb with (hb | hb) | hb
        · exact i1 b (List.mem_of_mem_take hb)
        · rw [List.eq_of_mem_replicate hb]; norm_num
        · exact i1 b (List.mem_of_mem_drop hb)
  · rw [if_neg hlen] at h
    by_cases he : ell2.isSome = true
    · rw [if_pos he] at h; exact absurd h (by simp)
    rw [if_neg he] at h
    rw [← Option.some.inj h]
    exact ⟨by omega, i1⟩

theorem parseIPv6Body_bytes {s : Str} {ip : List Nat} (h : parseIPv6Body s = some ip) :
    ip.length = 16 ∧ ∀ b ∈ ip, b < 256 := by
  unfold parseIPv6Body at h
  by_cases hl : HasPrefix s "::".toList = true
  · simp only [hl, if_true, true_and] at h
    by_cases ht : List.drop 2 s = []
    · rw [if_pos ht] at h
      rw [← Option.some.inj h]
      exact ⟨by simp, fun b hb => by rw [List.eq_of_mem_replicate hb]; norm_num⟩
    · rw [if_neg ht] at h
      cases hloop : parseIPv6Loop 8 (List.drop 2 s) [] (some 0) with
      | none => rw [hloop] at h; exact absurd h (by simp)
      | some r =>
        obtain ⟨s2, ip2, ell2⟩ := r
        rw [hloop] at h
        dsimp only at h
        obtain ⟨i1, _, i3⟩ :=
          parseIPv6Loop_bytes 8 _ _ _ _ _ _ hloop (by simp) (by simp) (by simp)
        exact parseIPv6_expand_bytes i1 i3 h
  · have hl2 : HasPrefix s "::".toList = false := by simpa using hl
    simp only [hl2, Bool.false_eq_true, if_false, false_and] at h
    cases hloop : parseIPv6Loop 8 s [] none with
    | none => rw [hloop] at h; exact absurd h (by simp)
    | some r =>
      obtain ⟨s2, ip2, ell2⟩ := r
      rw [hloop] at h
      dsimp only at h
      obtain ⟨i1, _, i3⟩ :=
        parseIPv6Loop_bytes 8 _ _ _ _ _ _ hloop (by simp) (by simp) (by simp)
      exact parseIPv6_expand_bytes i1 i3 h

/-- An address that `ParseIP` returns has sixteen bytes. -/
theorem ParseIP_bytes {s : Str} {ip : IP} (h : ParseIP s = some ip) :
    ip.length = 16 ∧ ∀ b ∈ ip, b < 256 := by
  rcases ParseIP_cases h with ⟨b, hb, rfl⟩ | h6
  · have hlen := parseIPv4Fields_length hb
    have hlt := parseIPv4Fields_lt hb
    refine ⟨by simp [v4InV6Prefix, hlen], ?_⟩
    intro x hx
    rcases List.mem_append.1 hx with hx | hx
    · have hp : ∀ y ∈ v4InV6Prefix, y < 256 := by decide
      exact hp x hx
    · exact hlt x hx
  · exact parseIPv6Body_bytes (parseIPv6_spec h6).2.2

theorem To4_of_sixteen {ip p : IP} (hlen : ip.length = 16) (h : To4 ip = some p) :
    ip = v4InV6Prefix ++ p ∧ p.length = 4 := by
  unfold To4 at h
  rw [if_neg (by omega)] at h
  split_ifs at h with hc
  obtain ⟨_, h10, ha, hb⟩ := hc
  have hp := Option.some.inj h
  have e1 := drop_eq_getD_cons ip 10 (by omega)
  have e2 := drop_eq_getD_cons ip 11 (by omega)
  rw [ha, e2, hb, hp] at e1
  constructor
  · have := List.take_append_drop 10 ip
    rw [h10, e1] at this
    rw [← this]
    rfl
  · rw [← hp]; simp [hlen]

/-- The text that `String` writes for an address returned by `ParseIP` is
read back by `ParseIP` as the same address. -/
theorem ParseIP_IPString {s : Str} {ip : IP} (h : ParseIP s = some ip) :
    ParseIP (IPString ip) = some ip := by
  obtain ⟨hlen, hb⟩ := ParseIP_bytes h
  unfold IPString
  cases h4 : To4 ip with
  | none => exact ParseIP_string6 ip hlen hb
  | some p =>
    obtain ⟨e, hp⟩ := To4_of_sixteen hlen h4
    dsimp only
    rw [ParseIP_string4 p hp (fun b hm => hb b (by rw [e]; simp [hm])), ← e]

/-- The text of an address returned by `ParseIP` is a canonical literal of
the family of the address. -/
theorem IPString_canonical {s : Str} {ip : IP} (h : ParseIP s = some ip) :
    ((To4 ip).isSome = true → isCanonicalIPv4 (IPString ip) = true) ∧
      ((To4 ip).isNone = true → isCanonicalIPv6 (IPString ip) = true) := by
  have hr := ParseIP_IPString h
  constructor
  · intro h4
    unfold isCanonicalIPv4
    rw [hr]
    simp [h4]
  · intro h6
    unfold isCanonicalIPv6
    rw [hr]
    simp [h6]

/-! ## The slots of `extractIPs` after the header steps, and the peer fallback -/

theorem cfStep_canonical (cf : Str) :
    ((cfStep cf).1 = [] ∨ isCanonicalIPv4 (cfStep cf).1 = true) ∧
      ((cfStep cf).2 = [] ∨ isCanonicalIPv6 (cfStep cf).2 = true) := by
  unfold cfStep
  by_cases hcf : cf ≠ []
  · rw [if_pos hcf]
    cases hp : ParseIP (normalize cf) with
    | none => exact ⟨Or.inl rfl, Or.inl rfl⟩
    | some ip =>
      dsimp only
      by_cases h4 : (To4 ip).isSome = true
      · rw [if_pos h4]
        exact ⟨Or.inr ((IPString_canonical hp).1 h4), Or.inl rfl⟩
      · rw [if_neg h4]
        exact ⟨Or.inl rfl, Or.inr ((IPString_canonical hp).2 (by simpa using h4))⟩
  · rw [if_neg hcf]
    exact ⟨Or.inl rfl, Or.inl rfl⟩

theorem xffLoop_canonical (ps : List Str) : ∀ (a b : Str),
    (a = [] ∨ isCanonicalIPv4 a = true) → (b = [] ∨ isCanonicalIPv6 b = true) →
    ((xffLoop ps (a, b)).1 = [] ∨ isCanonicalIPv4 (xffLoop ps (a, b)).1 = true) ∧
      ((xffLoop ps (a, b)).2 = [] ∨ isCanonicalIPv6 (xffLoop ps (a, b)).2 = true) := by
  induction ps with
  | nil => intro a b ha hb; exact ⟨ha, hb⟩
  | cons p ps ih =>
    intro a b ha hb
    rw [xffLoop]
    cases hp : ParseIP (normalize p) with
    | none => exact ih a b ha hb
    | some ip =>
      dsimp only
      have ha2 : (if (To4 ip).isSome = true ∧ a = [] then IPString ip else a) = [] ∨
          isCanonicalIPv4 (if (To4 ip).isSome = true ∧ a = [] then IPString ip else a) = true := by
        by_cases hc : (To4 ip).isSome = true ∧ a = []
        · rw [if_pos hc]; exact Or.inr ((IPString_canonical hp).1 hc.1)
        · rw [if_neg hc]; exact ha
      have hb2 : (if (To4 ip).isNone = true ∧ b = [] then IPString ip else b) = [] ∨
          isCanonicalIPv6 (if (To4 ip).isNone = true ∧ b = [] then IPString ip else b) = true := by
        by_cases hc : (To4 ip).isNone = true ∧ b = []
        · rw [if_pos hc]; exact Or.inr ((IPString_canonical hp).2 hc.1)
        · rw [if_neg hc]; exact hb
      by_cases hbr : (if (To4 ip).isSome = true ∧ a = [] then IPString ip else a) ≠ [] ∧
          (if (To4 ip).isNone = true ∧ b = [] then IPString ip else b) ≠ []
      · rw [if_pos hbr]; exact ⟨ha2, hb2⟩
      · rw [if_neg hbr]; exact ih _ _ ha2 hb2

/-- After the two header steps of `extractIPs` each slot is empty or holds a
canonical literal of its family. -/
theorem xffStep_canonical (xff cf : Str) :
    ((xffStep xff (cfStep cf)).1 = [] ∨ isCanonicalIPv4 (xffStep xff (cfStep cf)).1 = true) ∧
      ((xffStep xff (cfStep cf)).2 = [] ∨
        isCanonicalIPv6 (xffStep xff (cfStep cf)).2 = true) := by
  have hcf := cfStep_canonical cf
  unfold xffStep
  split_ifs
  · exact xffLoop_canonical _ _ _ hcf.1 hcf.2
  · exact hcf

/-- The peer fallback of `extractIPs`, when both slots are empty after the
header steps. -/
theorem extractIPs_of_peer (r : Request)
    (h1 : (xffStep r.xForwardedFor (cfStep r.cfConnectingIP)).1 = [])
    (h2 : (xffStep r.xForwardedFor (cfStep r.cfConnectingIP)).2 = []) :
    (SplitHostPort r.RemoteAddr = none → (extractIPs r).ipv4 = [] ∧ (extractIPs r).ipv6 = []) ∧
      ∀ host port, SplitHostPort r.RemoteAddr = some (host, port) →
        (ParseIP (normalize host) = none →
          (extractIPs r).ipv4 = [] ∧ (extractIPs r).ipv6 = []) ∧
        ∀ ip, ParseIP (normalize host) = some ip →
          ((To4 ip).isSome = true →
            (extractIPs r).ipv4 = normalize host ∧ (extractIPs r).ipv6 = []) ∧
          ((To4 ip).isNone = true →
            (extractIPs r).ipv4 = [] ∧ (extractIPs r).ipv6 = normalize host) := by
  refine ⟨?_, ?_⟩
  · intro hs
    unfold extractIPs
    dsimp only
    rw [hs]
    exact ⟨h1, h2⟩
  · intro host port hs
    refine ⟨?_, ?_⟩
    · intro hp
      unfold extractIPs
      dsimp only
      rw [hs]
      dsimp only
      rw [if_pos ⟨h1, h2⟩, hp]
      exact ⟨h1, h2⟩
    · intro ip hp
      refine ⟨?_, ?_⟩
      · intro h4
        unfold extractIPs
        dsimp only
        rw [hs]
        dsimp only
        rw [if_pos ⟨h1, h2⟩, hp]
        dsimp only
        rw [if_pos h4]
        exact ⟨rfl, h2⟩
      · intro h6
        have h4 : ¬ (To4 ip).isSome = true := by
          cases hh : To4 ip with
          | none => simp
          | some p => rw [hh] at h6; simp at h6
        unfold extractIPs
        dsimp only
        rw [hs]
        dsimp only
        rw [if_pos ⟨h1, h2⟩, hp]
        dsimp only
        rw [if_neg h4]
        exact ⟨h1, rfl⟩

/-- A valid address text is a canonical literal exactly when `String` writes
the address back as the same text. -/
theorem canonical_of_IPString {s : Str} {ip : IP} (hp : ParseIP s = some ip)
    (he : IPString ip = s) :
    ((To4 ip).isSome = true → isCanonicalIPv4 s = true) ∧
      ((To4 ip).isNone = true → isCanonicalIPv6 s = true) := by
  have := IPString_canonical hp
  rw [he] at this
  exact this

theorem IPString_of_canonical {s : Str} {ip : IP} (hp : ParseIP s = some ip)
    (h : isCanonicalIPv4 s = true ∨ isCanonicalIPv6 s = true) : IPString ip = s := by
  rcases h with h | h
  · obtain ⟨ip2, _, hp2, _, he, _⟩ := isCanonicalIPv4_spec h
    rw [hp] at hp2
    rw [Option.some.inj hp2]
    exact he
  · obtain ⟨ip2, hp2, _, he⟩ := isCanonicalIPv6_spec h
    rw [hp] at hp2
    rw [Option.some.inj hp2]
    exact he

/-- The slots of `extractIPs` are canonical exactly when the peer fallback
does not store a text other than the canonical one. -/
theorem extractIPs_canonical_iff (r : Request) :
    (((extractIPs r).ipv4 = [] ∨ isCanonicalIPv4 (extractIPs r).ipv4 = true) ∧
        ((extractIPs r).ipv6 = [] ∨ isCanonicalIPv6 (extractIPs r).ipv6 = true)) ↔
      ((xffStep r.xForwardedFor (cfStep r.cfConnectingIP)).1 = [] →
        (xffStep r.xForwardedFor (cfStep r.cfConnectingIP)).2 = [] →
        ∀ host port ip, SplitHostPort r.RemoteAddr = some (host, port) →
          ParseIP (normalize host) = some ip → IPString ip = normalize host) := by
  constructor
  · rintro ⟨c4, c6⟩ h1 h2 host port ip hs hp
    have hne : normalize host ≠ [] := by
      intro e
      rw [e, ParseIP_nil] at hp
      exact absurd hp (by simp)
    have hpeer := ((extractIPs_of_peer r h1 h2).2 host port hs).2 ip hp
    cases h4 : To4 ip with
    | some p =>
      have e := (hpeer.1 (by rw [h4]; rfl)).1
      rw [e] at c4
      rcases c4 with c4 | c4
      · exact absurd c4 hne
      · exact IPString_of_canonical hp (Or.inl c4)
    | none =>
      have e := (hpeer.2 (by rw [h4]; rfl)).2
      rw [e] at c6
      rcases c6 with c6 | c6
      · exact absurd c6 hne
      · exact IPString_of_canonical hp (Or.inr c6)
  · intro h
    by_cases hh : (xffStep r.xForwardedFor (cfStep r.cfConnectingIP)).1 ≠ [] ∨
        (xffStep r.xForwardedFor (cfStep r.cfConnectingIP)).2 ≠ []
    · obtain ⟨e4, e6⟩ := extractIPs_of_headers r hh
      rw [e4, e6]
      exact xffStep_canonical _ _
    · have h1 : (xffStep r.xForwardedFor (cfStep r.cfConnectingIP)).1 = [] := by
        by_contra hc; exact hh (Or.inl hc)
      have h2 : (xffStep r.xForwardedFor (cfStep r.cfConnectingIP)).2 = [] := by
        by_contra hc; exact hh (Or.inr hc)
      have hpeer := extractIPs_of_peer r h1 h2
      cases hs : SplitHostPort r.RemoteAddr with
      | none =>
        obtain ⟨e4, e6⟩ := hpeer.1 hs
        exact ⟨Or.inl e4, Or.inl e6⟩
      | some hp =>
        obtain ⟨host, port⟩ := hp
        cases hq : ParseIP (normalize host) with
        | none =>
          obtain ⟨e4, e6⟩ := ((hpeer.2 host port hs).1 hq)
          exact ⟨Or.inl e4, Or.inl e6⟩
        | some ip =>
          have he := h h1 h2 host port ip hs hq
          have hc := canonical_of_IPString hq he
          cases h4 : To4 ip with
          | some p =>
            obtain ⟨e4, e6⟩ := ((hpeer.2 host port hs).2 ip hq).1 (by rw [h4]; rfl)
            rw [e4, e6]
            exact ⟨Or.inr (hc.1 (by rw [h4]; rfl)), Or.inl rfl⟩
          | none =>
            obtain ⟨e4, e6⟩ := ((hpeer.2 host port hs).2 ip hq).2 (by rw [h4]; rfl)
            rw [e4, e6]
            exact ⟨Or.inl rfl, Or.inr (hc.2 (by rw [h4]; rfl))⟩

/-! ## `normalize` on the hosts that `net.TCPAddr.String` writes -/

theorem append_split_colon : ∀ (a b u t : Str), a ++ b = u ++ ':' :: t → ':' ∉ a → ':' ∉ u →
    (b = [] ∨ ∃ b1, b = ':' :: b1) → a = u ∧ b = ':' :: t := by
  intro a
  induction a with
  | nil =>
    intro b u t h _ hu hb
    cases u with
    | nil => exact ⟨rfl, by simpa using h⟩
    | cons y u1 =>
      rcases hb with rfl | ⟨b1, rfl⟩
      · simp at h
      · simp only [List.nil_append, List.cons_append, List.cons.injEq] at h
        exact absurd (by simp [← h.1]) hu
  | cons x a ih =>
    intro b u t h ha hu hb
    cases u with
    | nil =>
      simp only [List.cons_append, List.nil_append, List.cons.injEq] at h
      exact absurd (by simp [h.1]) ha
    | cons y u1 =>
      simp only [List.cons_append, List.cons.injEq] at h
      obtain ⟨e1, e2⟩ := ih b u1 t h.2 (fun hm => ha (by simp [hm])) (fun hm => hu (by simp [hm])) hb
      exact ⟨by rw [h.1, e1], e2⟩

theorem parseAddrScan_none (s : Str) : ∀ (t : Str),
    (∀ c ∈ t, c ≠ '.' ∧ c ≠ ':' ∧ c ≠ '%') → parseAddrScan s t = none := by
  intro t
  induction t with
  | nil => intro _; rfl
  | cons c t ih =>
    intro hc
    obtain ⟨h1, h2, h3⟩ := hc c (by simp)
    rw [parseAddrScan, if_neg h1, if_neg h2, if_neg h3]
    exact ih (fun d hd => hc d (by simp [hd]))

theorem hexVal_not_sep {c : Char} (h : (hexVal c).isSome = true) :
    c ≠ '.' ∧ c ≠ ':' ∧ c ≠ '%' := by
  refine ⟨?_, ?_, ?_⟩ <;> (rintro rfl; revert h; decide)

/-- Fewer than eight groups of hexadecimal digits joined by colons are not an
address. -/
theorem ParseIP_hexJoin_short (x : Nat) (r : List Nat) (hg : ∀ g ∈ x :: r, g < 65536)
    (hl : r.length + 1 < 8) : ParseIP (hexJoin (x :: r)) = none := by
  cases r with
  | nil =>
    have hs : ∀ c ∈ hexJoin [x], c ≠ '.' ∧ c ≠ ':' ∧ c ≠ '%' := by
      intro c hc
      simp only [hexJoin, tailJoin, List.append_nil] at hc
      exact hexVal_not_sep (appendHex_chars x c hc)
    unfold ParseIP ParseAddr
    rw [parseAddrScan_none _ _ hs]
  | cons y r1 =>
    have hne : ∀ c ∈ hexJoin (x :: y :: r1), c ≠ '.' ∧ c ≠ '%' := by
      intro c hc
      rcases hexJoin_chars _ c hc with h | rfl
      · exact ⟨(hexVal_not_sep h).1, (hexVal_not_sep h).2.2⟩
      · exact ⟨by decide, by decide⟩
    have hcol : ':' ∈ hexJoin (x :: y :: r1) := by
      rw [hexJoin, tailJoin]
      simp
    have hpct : IndexByte (hexJoin (x :: y :: r1)) '%' = none :=
      IndexByte_eq_none.2 (fun hm => (hne _ hm).2 rfl)
    obtain ⟨c, t, hct, hc⟩ := hexJoin_cons x (y :: r1)
    have hloop : parseIPv6Loop 8 (hexJoin (x :: y :: r1)) [] none =
        some ([], [] ++ bytesOf (x :: y :: r1), none) :=
      parseIPv6Loop_hexJoin (y :: r1) x [] 8 none hg
        (by simp only [List.length_nil, List.length_cons] at hl ⊢; omega)
        (by simp only [List.length_cons] at hl ⊢; omega)
    have hbody : parseIPv6Body (hexJoin (x :: y :: r1)) = none := by
      rw [hct] at hloop ⊢
      rw [parseIPv6Body_of_loop c t hc _ _ hloop]
      have hlen : ([] ++ bytesOf (x :: y :: r1)).length < 16 := by
        simp only [List.nil_append, bytesOf_length, List.length_cons] at hl ⊢
        omega
      rw [if_pos hlen]
      rfl
    have h6 : parseIPv6 (hexJoin (x :: y :: r1)) = none := by
      unfold parseIPv6
      rw [hpct, hbody]
      rfl
    unfold ParseIP ParseAddr
    rw [parseAddrScan_first_colon _ _ hne hcol, h6]
    rfl

/-- The text of an address in IPv6 form that begins with `::ffff:` goes on
with at most five groups. -/
theorem string6_ffff_tail (ip : List Nat) (hb : ∀ b ∈ ip, b < 256)
    (hp : HasPrefix (string6 ip) "::ffff:".toList = true) :
    ∃ x r, string6 ip = "::ffff:".toList ++ hexJoin (x :: r) ∧ r.length + 1 < 8 ∧
      ∀ g ∈ x :: r, g < 65536 := by
  obtain ⟨t, ht⟩ := List.isPrefixOf_iff_prefix.1 hp
  rcases string6_shape ip with h | ⟨zs, ze, hz, hze, _, h⟩
  · exfalso
    have e : groupsFrom ip 0 8 = v6u16 ip 0 :: groupsFrom ip (0 + 1) 7 := rfl
    obtain ⟨c, u, hcu, hc⟩ := hexJoin_cons (v6u16 ip 0) (groupsFrom ip (0 + 1) 7)
    rw [h, e, hcu] at hp
    rw [HasPrefix_ffff_false (by simpa using hc)] at hp
    exact absurd hp (by simp)
  · cases zs with
    | succ n =>
      exfalso
      obtain ⟨c, u, hcu, hc⟩ := hexJoin_cons (v6u16 ip 0) (groupsFrom ip (0 + 1) n)
      rw [h, groupsFrom_succ, hcu] at hp
      rw [HasPrefix_ffff_false (by simpa using hc)] at hp
      exact absurd hp (by simp)
    | zero =>
      have e0 : hexJoin (groupsFrom ip 0 0) = [] := rfl
      rw [h, e0, lit_ffff] at ht
      simp only [List.cons_append, List.nil_append, List.cons.injEq, true_and] at ht
      obtain ⟨m, hm⟩ : ∃ m, 8 - ze = m + 1 := by
        cases hk : 8 - ze with
        | zero =>
          rw [hk] at ht
          exact absurd ht (by simp [groupsFrom, hexJoin])
        | succ m => exact ⟨m, rfl⟩
      rw [hm, groupsFrom_succ, hexJoin] at ht
      have hgs := groupsFrom_lt ip hb (8 - ze) ze
      rw [hm, groupsFrom_succ] at hgs
      have hsplit := append_split_colon (appendHex (v6u16 ip ze))
        (tailJoin (groupsFrom ip (ze + 1) m)) ['f', 'f', 'f', 'f'] t ht.symm
        (fun hmem => absurd (appendHex_chars _ _ hmem) (by decide))
        (by decide)
        (by
          cases groupsFrom ip (ze + 1) m with
          | nil => exact Or.inl rfl
          | cons a b => exact Or.inr ⟨_, rfl⟩)
      have hlen := groupsFrom_length ip m (ze + 1)
      cases hr : groupsFrom ip (ze + 1) m with
      | nil =>
        rw [hr] at hsplit
        exact absurd hsplit.2 (by simp [tailJoin])
      | cons a b =>
        rw [hr] at hsplit hgs hlen
        have e2 := hsplit.2
        simp only [tailJoin, List.cons.injEq, true_and] at e2
        refine ⟨a, b, ?_, ?_, fun g hg => hgs g (by simp only [List.mem_cons] at hg ⊢; tauto)⟩
        · rw [h, e0, hm, groupsFrom_succ, hr, lit_ffff, hexJoin, hsplit.1, tailJoin, hexJoin]
          rfl
        · simp only [List.length_cons] at hlen
          omega

/-- A canonical IPv6 literal that begins with `::ffff:` is no address once
`normalize` has removed that prefix. -/
theorem normalize_canonical_ffff {host : Str} (h : isCanonicalIPv6 host = true)
    (hp : HasPrefix host "::ffff:".toList = true) : ParseIP (normalize host) = none := by
  obtain ⟨ip, hpi, h4, he⟩ := isCanonicalIPv6_spec h
  obtain ⟨_, hb⟩ := ParseIP_bytes hpi
  have hs : string6 ip = host := by
    rw [← he]
    unfold IPString
    rw [h4]
  obtain ⟨hch, hcol⟩ := ParseIP_chars hpi
  rw [← hs] at hp
  obtain ⟨x, r, hx, hl, hg⟩ := string6_ffff_tail ip hb hp
  rw [hs] at hx hp
  have hn : normalize host = hexJoin (x :: r) := by
    rw [normalize_eq, stripPort_fixed hch hcol,
      takeWhile_pct (not_mem_of_addrChars hch (by decide)), TrimPrefix, hp, if_pos rfl]
    have hd : List.drop "::ffff:".toList.length host = hexJoin (x :: r) := by
      rw [hx]
      exact List.drop_left _ _
    rw [hd]
    refine TrimSpace_of_forall (fun c hc => ?_)
    exact addrChars_space hch c (by rw [hx]; exact List.mem_append_right _ hc)
  rw [hn]
  exact ParseIP_hexJoin_short x r hg hl

theorem rdropWhile_append_stop (q : Char → Bool) (p : Str) (d : Char) (hd : q d = false) :
    ∀ z : Str, (p ++ d :: z).rdropWhile q = p ++ d :: z.rdropWhile q := by
  intro z
  induction z using List.reverseRecOn with
  | nil =>
    have e : p ++ [d] = p ++ [d] := rfl
    rw [List.rdropWhile_concat, hd]
    simp
  | append_singleton l c ih =>
    have e : p ++ d :: (l ++ [c]) = (p ++ d :: l) ++ [c] := by simp
    rw [e, List.rdropWhile_concat, List.rdropWhile_concat]
    by_cases hc : q c = true
    · rw [if_pos hc, if_pos hc, ih]
    · rw [if_neg hc, if_neg hc]
      simp

/-- A zone after an IPv6 literal is cut by `normalize`. -/
theorem normalize_zone {a : Str} (hc : ∀ c ∈ a, isAddrChar c = true) (hcol : 2 ≤ a.count ':')
    (zone : Str) : normalize (a ++ '%' :: zone) = normalize a := by
  have hne : a ≠ [] := by rintro rfl; simp at hcol
  obtain ⟨x, a1, rfl⟩ := List.exists_cons_of_ne_nil hne
  have hx : isSpace x = false := addrChars_space hc x (by simp)
  have hxb : x ≠ '[' := fun e => not_mem_of_addrChars hc (d := '[') (by decide) (by simp [e])
  have hts : TrimSpace (x :: a1 ++ '%' :: zone) =
      x :: a1 ++ '%' :: List.rdropWhile isSpace zone := by
    unfold TrimSpace
    rw [dropWhile_eq_self (by intro c hh; simp at hh; rw [← hh]; exact hx)]
    exact rdropWhile_append_stop isSpace (x :: a1) '%' (by decide) zone
  have hpre : HasPrefix (x :: a1 ++ '%' :: List.rdropWhile isSpace zone) "[".toList = false := by
    rw [lit_lbr]
    simp [HasPrefix, List.isPrefixOf, Ne.symm hxb]
  have hsp : SplitHostPort (x :: a1 ++ '%' :: List.rdropWhile isSpace zone) = none := by
    refine SplitHostPort_two_colons (by simpa using hxb) ?_
    rw [List.count_append]
    omega
  have hstrip : stripPort (x :: a1 ++ '%' :: zone) =
      x :: a1 ++ '%' :: List.rdropWhile isSpace zone := by
    unfold stripPort
    dsimp only
    rw [hts, hpre]
    simp only [Bool.false_and, Bool.false_eq_true, if_false]
    unfold stripPortTail
    rw [hsp]
  have htw : List.takeWhile (fun c => c != '%') (x :: a1 ++ '%' :: List.rdropWhile isSpace zone) =
      x :: a1 := by
    rw [List.takeWhile_append_of_pos]
    · simp
    · intro c hm
      simp only [bne_iff_ne, ne_eq]
      rintro rfl
      exact not_mem_of_addrChars hc (d := '%') (by decide) hm
  rw [normalize_eq, hstrip, htw, normalize_eq, stripPort_fixed hc (Or.inr hcol),
    takeWhile_pct (not_mem_of_addrChars hc (by decide))]

/-- On a canonical literal, `normalize` yields the literal itself or no
address at all. -/
theorem normalize_canonical {a : Str}
    (h : isCanonicalIPv4 a = true ∨ isCanonicalIPv6 a = true) :
    ∀ ip, ParseIP (normalize a) = some ip → IPString ip = normalize a := by
  intro ip hp
  rcases h with h | h
  · have hn := (isCanonicalIPv4_props h).2.2.2
    rw [hn] at hp ⊢
    exact IPString_of_canonical hp (Or.inl h)
  · by_cases hf : HasPrefix a "::ffff:".toList = true
    · rw [normalize_canonical_ffff h hf] at hp
      exact absurd hp (by simp)
    · obtain ⟨ip2, hp2, _, _⟩ := isCanonicalIPv6_spec h
      have hn := normalize_of_ParseIP hp2 (by simpa using hf)
      rw [hn] at hp ⊢
      exact IPString_of_canonical hp (Or.inr h)

/-- The same for a canonical IPv6 literal followed by a zone. -/
theorem normalize_canonical_zone {a : Str} (h : isCanonicalIPv6 a = true) (zone : Str) :
    ∀ ip, ParseIP (normalize (a ++ '%' :: zone)) = some ip →
      IPString ip = normalize (a ++ '%' :: zone) := by
  obtain ⟨ip2, hp2, _, _⟩ := isCanonicalIPv6_spec h
  obtain ⟨hch, hcol⟩ := ParseIP_chars hp2
  have h2 : 2 ≤ a.count ':' := by
    rcases hcol with hcol | hcol
    · exfalso
      obtain ⟨ip3, hp3, h4, he⟩ := isCanonicalIPv6_spec h
      have hs : string6 ip3 = a := by
        rw [← he]
        unfold IPString
        rw [h4]
      rw [← hs] at hcol
      exact hcol (string6_chars ip3).2
    · exact hcol
  rw [normalize_zone hch h2 zone]
  exact normalize_canonical (Or.inr h)

/-! ## The theorems on `normalize`, `extractIPs` and `clientIP` -/

/-- C1: when the `CF-Connecting-IP` value normalizes to a valid address `ip`,
`extractIPs` puts the canonical text of `ip` in the slot of its family (`ipv4`
when `To4` is not nil, `ipv6` otherwise), whatever `X-Forwarded-For` and
`RemoteAddr` are; in particular with `CF-Connecting-IP: 2001:db8::1` the `ipv6`
result is `2001:db8::1` and `clientIP` returns it. -/
theorem extractIPs_cf_connecting_ip (cf xff ra : Str) (ip : IP)
    (h : ParseIP (normalize cf) = some ip) :
    ((To4 ip).isSome = true → (extractIPs ⟨cf, xff, ra⟩).ipv4 = IPString ip) ∧
    ((To4 ip).isNone = true → (extractIPs ⟨cf, xff, ra⟩).ipv6 = IPString ip) ∧
    (cf = "2001:db8::1".toList →
      (extractIPs ⟨cf, xff, ra⟩).ipv6 = "2001:db8::1".toList ∧
      clientIP ⟨cf, xff, ra⟩ = "2001:db8::1".toList) := by
  have hne := IPString_ne_nil ip
  have hcf := cfStep_of_valid h
  have key : ((To4 ip).isSome = true → (extractIPs ⟨cf, xff, ra⟩).ipv4 = IPString ip) ∧
      ((To4 ip).isNone = true → (extractIPs ⟨cf, xff, ra⟩).ipv6 = IPString ip) := by
    cases h4 : (To4 ip).isSome with
    | true =>
      rw [h4] at hcf
      simp only [if_true] at hcf
      have h1 : (xffStep xff (cfStep cf)).1 = IPString ip := by
        rw [hcf]; exact xffStep_fst _ _ _ hne
      have := extractIPs_of_headers ⟨cf, xff, ra⟩ (Or.inl (by rw [h1]; exact hne))
      refine ⟨fun _ => by rw [this.1, h1], fun h6 => ?_⟩
      cases hto : To4 ip with
      | none => rw [hto] at h4; simp at h4
      | some p => rw [hto] at h6; simp at h6
    | false =>
      rw [h4] at hcf
      simp only [Bool.false_eq_true, if_false] at hcf
      have h2 : (xffStep xff (cfStep cf)).2 = IPString ip := by
        rw [hcf]; exact xffStep_snd _ _ _ hne
      have := extractIPs_of_headers ⟨cf, xff, ra⟩ (Or.inr (by rw [h2]; exact hne))
      exact ⟨fun h' => by simp at h', fun _ => by rw [this.2, h2]⟩
  refine ⟨key.1, key.2, ?_⟩
  intro hlit
  subst hlit
  have hp : ParseIP (normalize "2001:db8::1".toList) =
      some [0x20, 0x01, 0x0d, 0xb8, 0, 0, 0, 0, 0, 0, 0, 0, 0, 0, 0, 1] := by decide
  rw [hp] at h
  have hip : ip = [0x20, 0x01, 0x0d, 0xb8, 0, 0, 0, 0, 0, 0, 0, 0, 0, 0, 0, 1] :=
    (Option.some.inj h).symm
  subst hip
  have h6 := key.2 (by decide)
  have hs : IPString [0x20, 0x01, 0x0d, 0xb8, 0, 0, 0, 0, 0, 0, 0, 0, 0, 0, 0, 1] =
      "2001:db8::1".toList := by decide
  rw [hs] at h6
  refine ⟨h6, ?_⟩
  unfold clientIP
  dsimp only
  rw [h6]
  exact if_pos (by decide)

/-- Witness for C1: the header `CF-Connecting-IP: 2001:db8::1` with an
`X-Forwarded-For` chain and a peer address of other addresses. -/
theorem extractIPs_cf_connecting_ip_witness :
    ParseIP (normalize "2001:db8::1".toList) =
        some [0x20, 0x01, 0x0d, 0xb8, 0, 0, 0, 0, 0, 0, 0, 0, 0, 0, 0, 1] ∧
      (extractIPs ⟨"2001:db8::1".toList, "198.51.100.9, 2001:db8::2".toList,
        "192.0.2.10:443".toList⟩).ipv6 = "2001:db8::1".toList ∧
      clientIP ⟨"2001:db8::1".toList, "198.51.100.9, 2001:db8::2".toList,
        "192.0.2.10:443".toList⟩ = "2001:db8::1".toList :=
  ⟨by decide,
    (extractIPs_cf_connecting_ip "2001:db8::1".toList "198.51.100.9, 2001:db8::2".toList
      "192.0.2.10:443".toList [0x20, 0x01, 0x0d, 0xb8, 0, 0, 0, 0, 0, 0, 0, 0, 0, 0, 0, 1]
      (by decide)).2.2 rfl⟩

/-- C2, as amended: with no `CF-Connecting-IP` header and
`X-Forwarded-For = a ++ ", " ++ b`, where `a` is a canonical IPv4 literal and
`b` a canonical IPv6 literal that does not begin with `::ffff:`, `extractIPs`
returns `ipv4 = a` and `ipv6 = b` for every peer address. -/
theorem extractIPs_xff_pair (a b ra : Str) (ha : isCanonicalIPv4 a = true)
    (hb : isCanonicalIPv6 b = true) (hpre : HasPrefix b "::ffff:".toList = false) :
    (extractIPs ⟨[], a ++ ", ".toList ++ b, ra⟩).ipv4 = a ∧
      (extractIPs ⟨[], a ++ ", ".toList ++ b, ra⟩).ipv6 = b := by
  obtain ⟨ipa, p4, hpa, h4a, hsa, _⟩ := isCanonicalIPv4_spec ha
  obtain ⟨hca, _, hna, hnorma⟩ := isCanonicalIPv4_props ha
  obtain ⟨ipb, hpb, h4b, hsb⟩ := isCanonicalIPv6_spec hb
  have hcb := (ParseIP_chars hpb).1
  have hnb : b ≠ [] := by rw [← hsb]; exact IPString_ne_nil ipb
  have hnormb : normalize (' ' :: b) = b := by
    rw [normalize_cons_space b (by decide)]
    exact normalize_of_ParseIP hpb hpre
  have e : a ++ ", ".toList ++ b = a ++ ',' :: (' ' :: b) := by
    simp [show ", ".toList = [',', ' '] from rfl]
  have hsplit : Split (a ++ ',' :: (' ' :: b)) ',' = [a, ' ' :: b] := by
    rw [Split_append _ (not_mem_of_addrChars hca (by decide)), Split_no_sep]
    intro hm
    rcases List.mem_cons.1 hm with h | h
    · exact absurd h (by decide)
    · exact not_mem_of_addrChars hcb (d := ',') (by decide) h
  have hstep : xffStep (a ++ ',' :: (' ' :: b)) (cfStep []) = (a, b) := by
    rw [cfStep_nil, xffStep, if_pos ⟨by simp, Or.inl rfl⟩, hsplit]
    simp only [xffLoop, hnorma, hpa, h4a, hnormb, hpb, h4b, hsa, hsb]
    simp [hna, hnb]
  have := extractIPs_of_headers ⟨[], a ++ ',' :: (' ' :: b), ra⟩
    (Or.inl (by rw [hstep]; exact hna))
  rw [e, this.1, this.2, hstep]
  exact ⟨rfl, rfl⟩

/-- Witness for the amended C2: the chain `198.51.100.9, 2001:db8::2`. -/
theorem extractIPs_xff_pair_witness :
    isCanonicalIPv4 "198.51.100.9".toList = true ∧
      isCanonicalIPv6 "2001:db8::2".toList = true ∧
      HasPrefix "2001:db8::2".toList "::ffff:".toList = false ∧
      (extractIPs ⟨[], "198.51.100.9".toList ++ ", ".toList ++ "2001:db8::2".toList,
        "192.0.2.10:443".toList⟩).ipv4 = "198.51.100.9".toList ∧
      (extractIPs ⟨[], "198.51.100.9".toList ++ ", ".toList ++ "2001:db8::2".toList,
        "192.0.2.10:443".toList⟩).ipv6 = "2001:db8::2".toList :=
  ⟨by decide, by decide, by decide,
    extractIPs_xff_pair "198.51.100.9".toList "2001:db8::2".toList "192.0.2.10:443".toList
      (by decide) (by decide) (by decide)⟩

/-- Counterexample to C2 as stated: `::ffff:1:2:3` is a canonical IPv6 literal
(the address `0:0:0:0:ffff:1:2:3`, no IPv4 address) and `198.51.100.9` a
canonical IPv4 literal, but for `X-Forwarded-For: 198.51.100.9, ::ffff:1:2:3`
the `ipv6` result is empty: `normalize` turns the second token into `1:2:3`,
which is no address. -/
theorem extractIPs_xff_pair_counterexample :
    isCanonicalIPv4 "198.51.100.9".toList = true ∧
      isCanonicalIPv6 "::ffff:1:2:3".toList = true ∧
      normalize " ::ffff:1:2:3".toList = "1:2:3".toList ∧
      (extractIPs ⟨[], "198.51.100.9".toList ++ ", ".toList ++ "::ffff:1:2:3".toList,
        "192.0.2.10:443".toList⟩).ipv4 = "198.51.100.9".toList ∧
      (extractIPs ⟨[], "198.51.100.9".toList ++ ", ".toList ++ "::ffff:1:2:3".toList,
        "192.0.2.10:443".toList⟩).ipv6 = [] ∧
      (extractIPs ⟨[], "198.51.100.9".toList ++ ", ".toList ++ "::ffff:1:2:3".toList,
        "192.0.2.10:443".toList⟩).ipv6 ≠ "::ffff:1:2:3".toList := by
  decide

/-- C3: with neither a `CF-Connecting-IP` nor an `X-Forwarded-For` header and
`RemoteAddr = a ++ ":" ++ p`, where `a` is a canonical IPv4 literal and `p` a
decimal port, `extractIPs` returns `ipv4 = a`, `ipv6 = ""`, `rawXFF = ""` and
`remote = a`; in particular `192.0.2.10:443` gives `ipv4 = remote = 192.0.2.10`. -/
theorem extractIPs_peer_ipv4 (a p : Str) (ha : isCanonicalIPv4 a = true)
    (hp : isDecimalPort p = true) :
    extractIPs ⟨[], [], a ++ ":".toList ++ p⟩ = ⟨a, [], [], a⟩ ∧
      extractIPs ⟨[], [], "192.0.2.10:443".toList⟩ =
        ⟨"192.0.2.10".toList, [], [], "192.0.2.10".toList⟩ := by
  refine ⟨?_, by decide⟩
  obtain ⟨ipa, p4, hpa, h4a, _, _⟩ := isCanonicalIPv4_spec ha
  obtain ⟨hca, hcol, _, hnorma⟩ := isCanonicalIPv4_props ha
  have hpc := isDecimalPort_chars hp
  have hpch : ∀ c ∈ p, isAddrChar c = true := fun c hc => (hpc c hc).1
  have e : a ++ ":".toList ++ p = a ++ ':' :: p := by
    simp [show ":".toList = [':'] from rfl]
  have hsplit : SplitHostPort (a ++ ':' :: p) = some (a, p) :=
    SplitHostPort_host_port hcol (not_mem_of_addrChars hca (by decide))
      (not_mem_of_addrChars hca (by decide)) (fun hc => (hpc _ hc).2 rfl)
      (not_mem_of_addrChars hpch (by decide)) (not_mem_of_addrChars hpch (by decide))
  rw [e]
  unfold extractIPs
  dsimp only
  rw [hsplit]
  dsimp only
  rw [hnorma, hpa]
  simp [cfStep_nil, xffStep, h4a]

/-- Witness for C3: the peer address `192.0.2.10:443`. -/
theorem extractIPs_peer_ipv4_witness :
    isCanonicalIPv4 "192.0.2.10".toList = true ∧ isDecimalPort "443".toList = true ∧
      extractIPs ⟨[], [], "192.0.2.10".toList ++ ":".toList ++ "443".toList⟩ =
        ⟨"192.0.2.10".toList, [], [], "192.0.2.10".toList⟩ :=
  ⟨by decide, by decide,
    (extractIPs_peer_ipv4 "192.0.2.10".toList "443".toList (by decide) (by decide)).1⟩

/-- C4: `clientIP` returns the `ipv6` result of `extractIPs` when that is
non-empty, otherwise the `ipv4` result when that is non-empty, otherwise the
empty string. -/
theorem clientIP_policy (r : Request) :
    clientIP r =
      if (extractIPs r).ipv6 ≠ [] then (extractIPs r).ipv6
      else if (extractIPs r).ipv4 ≠ [] then (extractIPs r).ipv4
      else [] := by
  unfold clientIP
  dsimp only
  by_cases h6 : (extractIPs r).ipv6 = []
  · by_cases h4 : (extractIPs r).ipv4 = []
    · simp [h6, h4]
    · simp [h6, h4]
  · simp [h6]

/-- C5, as amended: for every request whose `RemoteAddr` does not split as
`host:port`, or splits with a host that is a canonical IPv4 literal, a
canonical IPv6 literal, or a canonical IPv6 literal followed by `%` and a zone
(the forms in which `net/http` writes the peer address), and for every
`CF-Connecting-IP` and `X-Forwarded-For`, the `ipv4` result of `extractIPs` is
empty or a canonical IPv4 literal and the `ipv6` result is empty or a canonical
IPv6 literal; the same holds for every request in which a header fills a slot.
For an arbitrary request the two results are of this form exactly when the
peer fallback, where it applies (both slots empty after the header steps,
`RemoteAddr` splits, the normalized host is a valid address), finds that the
normalized host is the canonical text of its address. -/
theorem extractIPs_slots_canonical (r : Request) :
    (∀ host port, SplitHostPort r.RemoteAddr = some (host, port) →
      (isCanonicalIPv4 host = true ∨ isCanonicalIPv6 host = true ∨
        ∃ a zone, host = a ++ '%' :: zone ∧ isCanonicalIPv6 a = true) →
      ((extractIPs r).ipv4 = [] ∨ isCanonicalIPv4 (extractIPs r).ipv4 = true) ∧
        ((extractIPs r).ipv6 = [] ∨ isCanonicalIPv6 (extractIPs r).ipv6 = true)) ∧
      (SplitHostPort r.RemoteAddr = none →
        ((extractIPs r).ipv4 = [] ∨ isCanonicalIPv4 (extractIPs r).ipv4 = true) ∧
          ((extractIPs r).ipv6 = [] ∨ isCanonicalIPv6 (extractIPs r).ipv6 = true)) ∧
      (((xffStep r.xForwardedFor (cfStep r.cfConnectingIP)).1 ≠ [] ∨
          (xffStep r.xForwardedFor (cfStep r.cfConnectingIP)).2 ≠ []) →
        ((extractIPs r).ipv4 = [] ∨ isCanonicalIPv4 (extractIPs r).ipv4 = true) ∧
          ((extractIPs r).ipv6 = [] ∨ isCanonicalIPv6 (extractIPs r).ipv6 = true)) ∧
      ((((extractIPs r).ipv4 = [] ∨ isCanonicalIPv4 (extractIPs r).ipv4 = true) ∧
          ((extractIPs r).ipv6 = [] ∨ isCanonicalIPv6 (extractIPs r).ipv6 = true)) ↔
        ((xffStep r.xForwardedFor (cfStep r.cfConnectingIP)).1 = [] →
          (xffStep r.xForwardedFor (cfStep r.cfConnectingIP)).2 = [] →
          ∀ host port ip, SplitHostPort r.RemoteAddr = some (host, port) →
            ParseIP (normalize host) = some ip → IPString ip = normalize host)) := by
  refine ⟨?_, ?_, ?_, extractIPs_canonical_iff r⟩
  · intro host port hs hc
    refine (extractIPs_canonical_iff r).2 ?_
    intro _ _ host2 port2 ip hs2 hp
    rw [hs] at hs2
    obtain ⟨rfl, _⟩ := Prod.mk.inj (Option.some.inj hs2)
    rcases hc with hc | hc | ⟨a, zone, rfl, hc⟩
    · exact normalize_canonical (Or.inl hc) ip hp
    · exact normalize_canonical (Or.inr hc) ip hp
    · exact normalize_canonical_zone hc zone ip hp
  · intro hs
    refine (extractIPs_canonical_iff r).2 ?_
    intro _ _ host port ip hs2
    rw [hs] at hs2
    exact absurd hs2 (by simp)
  · intro hh
    refine (extractIPs_canonical_iff r).2 ?_
    intro h1 h2
    rcases hh with hh | hh
    · exact absurd h1 hh
    · exact absurd h2 hh

/-- C5, as amended, at concrete requests: a link-local peer with a zone and
no valid header token fills the `ipv6` slot with the canonical literal
`fe80::1`, and the canonical peer `::ffff:1:2:3` leaves both slots empty. -/
theorem extractIPs_slots_canonical_witness :
    SplitHostPort "[fe80::1%eth0]:443".toList = some ("fe80::1%eth0".toList, "443".toList) ∧
      isCanonicalIPv6 "fe80::1".toList = true ∧
      (((extractIPs ⟨[], "junk".toList, "[fe80::1%eth0]:443".toList⟩).ipv4 = [] ∨
          isCanonicalIPv4
            (extractIPs ⟨[], "junk".toList, "[fe80::1%eth0]:443".toList⟩).ipv4 = true) ∧
        ((extractIPs ⟨[], "junk".toList, "[fe80::1%eth0]:443".toList⟩).ipv6 = [] ∨
          isCanonicalIPv6
            (extractIPs ⟨[], "junk".toList, "[fe80::1%eth0]:443".toList⟩).ipv6 = true)) ∧
      (extractIPs ⟨[], "junk".toList, "[fe80::1%eth0]:443".toList⟩).ipv6 = "fe80::1".toList ∧
      isCanonicalIPv6 "::ffff:1:2:3".toList = true ∧
      (extractIPs ⟨[], [], "[::ffff:1:2:3]:443".toList⟩).ipv4 = [] ∧
      (extractIPs ⟨[], [], "[::ffff:1:2:3]:443".toList⟩).ipv6 = [] :=
  ⟨by decide, by decide,
    (extractIPs_slots_canonical ⟨[], "junk".toList, "[fe80::1%eth0]:443".toList⟩).1
      "fe80::1%eth0".toList "443".toList (by decide)
      (Or.inr (Or.inr ⟨"fe80::1".toList, "eth0".toList, by decide, by decide⟩)),
    by decide, by decide, by decide, by decide⟩

/-- Counterexample to C5 as stated: with no forwarding header and the peer
address `[0:0:0:0:0:0:0:1]:80`, `extractIPs` stores the normalized host as it
is in the `ipv6` slot, which is not the canonical text `::1` of that address;
with the peer `[0:0:0:0:0:ffff:c000:20a]:80` the `ipv4` slot holds a text that
is no dotted quad.  The same address in `CF-Connecting-IP` is stored as `::1`. -/
theorem extractIPs_peer_not_canonical :
    (extractIPs ⟨[], [], "[0:0:0:0:0:0:0:1]:80".toList⟩).ipv6 = "0:0:0:0:0:0:0:1".toList ∧
      (ParseIP "0:0:0:0:0:0:0:1".toList).map IPString = some "::1".toList ∧
      isCanonicalIPv6 (extractIPs ⟨[], [], "[0:0:0:0:0:0:0:1]:80".toList⟩).ipv6 = false ∧
      (extractIPs ⟨[], [], "[0:0:0:0:0:ffff:c000:20a]:80".toList⟩).ipv4 =
        "0:0:0:0:0:ffff:c000:20a".toList ∧
      isCanonicalIPv4 (extractIPs ⟨[], [], "[0:0:0:0:0:ffff:c000:20a]:80".toList⟩).ipv4 = false ∧
      (extractIPs ⟨"0:0:0:0:0:0:0:1".toList, [], "192.0.2.10:443".toList⟩).ipv6 = "::1".toList := by
  decide

/-- C6, as amended: `normalize (normalize x) = normalize x` holds exactly for
the inputs `x` whose `normalize x` (a) does not both begin with `[` and contain
`]`, (b) is not split by `SplitHostPort` and (c) does not begin with `::ffff:`;
in particular it holds whenever `normalize x` is a valid address text that does
not begin with `::ffff:`. -/
theorem normalize_idempotent_iff (x : Str) :
    (normalize (normalize x) = normalize x ↔
      ((HasPrefix (normalize x) "[".toList && Contains (normalize x) "]".toList) = false ∧
        SplitHostPort (normalize x) = none ∧
        HasPrefix (normalize x) "::ffff:".toList = false)) ∧
      (∀ ip, ParseIP (normalize x) = some ip →
        HasPrefix (normalize x) "::ffff:".toList = false →
        normalize (normalize x) = normalize x) :=
  ⟨normalize_fixed_iff (normalize_trimmed x) (normalize_no_pct x),
    fun _ h hp => normalize_of_ParseIP h hp⟩

/-- Counterexample to C6 as stated: `normalize "::ffff:1.2.3.4:80"` is
`1.2.3.4:80` (the port is not split off, the prefix is removed), and
normalizing that again gives `1.2.3.4`. -/
theorem normalize_idempotent_counterexample :
    normalize "::ffff:1.2.3.4:80".toList = "1.2.3.4:80".toList ∧
      normalize (normalize "::ffff:1.2.3.4:80".toList) = "1.2.3.4".toList ∧
      normalize (normalize "::ffff:1.2.3.4:80".toList) ≠ normalize "::ffff:1.2.3.4:80".toList := by
  decide

/-- C7: for every valid dotted-quad IPv4 literal `a` and every decimal port
`p`, `normalize (a ++ ":" ++ p) = a`; in particular
`normalize "203.0.113.5:54321" = "203.0.113.5"`. -/
theorem normalize_ipv4_port (a p : Str) (ha : isIPv4Literal a = true)
    (hp : isDecimalPort p = true) :
    normalize (a ++ ":".toList ++ p) = a ∧
      normalize "203.0.113.5:54321".toList = "203.0.113.5".toList := by
  refine ⟨?_, by decide⟩
  obtain ⟨b, hb⟩ := isIPv4Literal_spec ha
  have hch : ∀ c ∈ a, isAddrChar c = true :=
    fun c hc => isDigit_or_dot_addrChar (parseIPv4Fields_chars hb c hc)
  have hcol := parseIPv4Fields_no_colon hb
  have e : a ++ ":".toList ++ p = a ++ ':' :: p := by
    simp [show ":".toList = [':'] from rfl]
  rw [e, normalize_eq, stripPort_host_port hch hcol hp]
  exact normalize_tail_fixed hch (HasPrefix_ffff_false (head?_ne_of_not_mem hcol))

/-- Witness for C7: the literal `203.0.113.5` with the port `54321`. -/
theorem normalize_ipv4_port_witness :
    isIPv4Literal "203.0.113.5".toList = true ∧ isDecimalPort "54321".toList = true ∧
      normalize ("203.0.113.5".toList ++ ":".toList ++ "54321".toList) = "203.0.113.5".toList :=
  ⟨by decide, by decide,
    (normalize_ipv4_port "203.0.113.5".toList "54321".toList (by decide) (by decide)).1⟩

/-- C8: for every valid dotted-quad IPv4 literal `a`,
`normalize ("::ffff:" ++ a) = a`; in particular
`normalize "::ffff:203.0.113.5" = "203.0.113.5"`. -/
theorem normalize_ipv4_mapped (a : Str) (ha : isIPv4Literal a = true) :
    normalize ("::ffff:".toList ++ a) = a ∧
      normalize "::ffff:203.0.113.5".toList = "203.0.113.5".toList := by
  refine ⟨?_, by decide⟩
  obtain ⟨b, hb⟩ := isIPv4Literal_spec ha
  have hch : ∀ c ∈ a, isAddrChar c = true :=
    fun c hc => isDigit_or_dot_addrChar (parseIPv4Fields_chars hb c hc)
  have hcol := parseIPv4Fields_no_colon hb
  have hall : ∀ c ∈ "::ffff:".toList ++ a, isAddrChar c = true := by
    intro c hc
    rcases List.mem_append.1 hc with hc | hc
    · have hlit : ∀ d ∈ "::ffff:".toList, isAddrChar d = true := by decide
      exact hlit c hc
    · exact hch c hc
  have hcnt : 2 ≤ ("::ffff:".toList ++ a).count ':' := by
    rw [List.count_append]
    have : ("::ffff:".toList).count ':' = 3 := by decide
    omega
  rw [normalize_eq, stripPort_fixed hall (Or.inr hcnt),
    takeWhile_pct (not_mem_of_addrChars hall (by decide))]
  have hpre : HasPrefix ("::ffff:".toList ++ a) "::ffff:".toList = true := by
    simp [HasPrefix]
  rw [TrimPrefix, if_pos hpre, List.drop_left]
  exact TrimSpace_of_forall (addrChars_space hch)

/-- Witness for C8: the literal `203.0.113.5`. -/
theorem normalize_ipv4_mapped_witness :
    isIPv4Literal "203.0.113.5".toList = true ∧
      normalize ("::ffff:".toList ++ "203.0.113.5".toList) = "203.0.113.5".toList :=
  ⟨by decide, (normalize_ipv4_mapped "203.0.113.5".toList (by decide)).1⟩

/-- C9: for every valid IPv6 literal `a` (without zone id and not beginning
with `::ffff:`) and every decimal port `p`, `normalize ("[" ++ a ++ "]:" ++ p) = a`
and `normalize ("[" ++ a ++ "]") = a`: brackets and port are stripped together. -/
theorem normalize_bracketed_ipv6 (a p : Str) (ha : isIPv6Literal a = true)
    (hpre : HasPrefix a "::ffff:".toList = false) (hp : isDecimalPort p = true) :
    normalize ("[".toList ++ a ++ "]:".toList ++ p) = a ∧
      normalize ("[".toList ++ a ++ "]".toList) = a := by
  obtain ⟨b, hb⟩ := isIPv6Literal_spec ha
  obtain ⟨hch, hcnt, _⟩ := parseIPv6_spec hb
  have hpc := isDecimalPort_chars hp
  have hpa : ∀ c ∈ p, isAddrChar c = true := fun c hc => (hpc c hc).1
  have hl : '[' ∉ a := not_mem_of_addrChars hch (by decide)
  have hr : ']' ∉ a := not_mem_of_addrChars hch (by decide)
  have htail := normalize_tail_fixed hch hpre
  constructor
  · have e : "[".toList ++ a ++ "]:".toList ++ p = '[' :: (a ++ ']' :: ':' :: p) := by
      simp [lit_lbr, show "]:".toList = [']', ':'] from rfl]
    have hts : TrimSpace ('[' :: (a ++ ']' :: ':' :: p)) = '[' :: (a ++ ']' :: ':' :: p) := by
      apply TrimSpace_eq_self
      · intro c hc; simp at hc; subst hc; decide
      · intro c hc
        have e2 : ('[' :: (a ++ ']' :: ':' :: p)) = ('[' :: (a ++ [']'])) ++ ':' :: p := by simp
        rw [e2, getLast?_append_cons] at hc
        have := getLast?_mem hc
        rcases List.mem_cons.1 this with rfl | hm
        · decide
        · exact isAddrChar_not_space (hpa c hm)
    have hcon : Contains ('[' :: (a ++ ']' :: ':' :: p)) "]".toList = true := by
      rw [lit_rbr, Contains_single]; simp
    rw [e, normalize_eq]
    unfold stripPort
    dsimp only
    rw [hts, hcon]
    simp only [HasPrefix, lit_lbr, List.isPrefixOf, beq_self_eq_true, Bool.and_self, if_true]
    rw [SplitHostPort_bracket hl hr (fun hc => (hpc _ hc).2 rfl)
      (not_mem_of_addrChars hpa (by decide)) (not_mem_of_addrChars hpa (by decide))]
    dsimp only
    rw [Trim_of_forall, htail]
    intro c hc
    rw [lit_brs]
    intro hm
    simp only [List.mem_cons, List.mem_singleton, List.not_mem_nil, or_false] at hm
    rcases hm with rfl | rfl
    · exact hl hc
    · exact hr hc
  · have e : "[".toList ++ a ++ "]".toList = '[' :: (a ++ [']']) := by
      simp [lit_lbr, lit_rbr]
    have hts : TrimSpace ('[' :: (a ++ [']'])) = '[' :: (a ++ [']']) := by
      apply TrimSpace_eq_self
      · intro c hc; simp at hc; subst hc; decide
      · intro c hc
        have e2 : ('[' :: (a ++ [']'])) = ('[' :: a) ++ [']'] := by simp
        rw [e2, List.getLast?_concat] at hc
        simp at hc; subst hc; decide
    have hcon : Contains ('[' :: (a ++ [']'])) "]".toList = true := by
      rw [lit_rbr, Contains_single]; simp
    rw [e, normalize_eq]
    unfold stripPort
    dsimp only
    rw [hts, hcon]
    simp only [HasPrefix, lit_lbr, List.isPrefixOf, beq_self_eq_true, Bool.and_self, if_true]
    rw [SplitHostPort_bracket_only hr]
    dsimp only
    rw [Trim_brackets hl hr, stripPortTail_fixed hch (Or.inr hcnt), htail]

/-- Witness for C9: the literal `2001:db8::1` with the port `443`. -/
theorem normalize_bracketed_ipv6_witness :
    isIPv6Literal "2001:db8::1".toList = true ∧
      HasPrefix "2001:db8::1".toList "::ffff:".toList = false ∧
      isDecimalPort "443".toList = true ∧
      normalize ("[".toList ++ "2001:db8::1".toList ++ "]:".toList ++ "443".toList) =
        "2001:db8::1".toList ∧
      normalize ("[".toList ++ "2001:db8::1".toList ++ "]".toList) = "2001:db8::1".toList :=
  ⟨by decide, by decide, by decide,
    normalize_bracketed_ipv6 "2001:db8::1".toList "443".toList (by decide) (by decide)
      (by decide)⟩

/-- C10: for every input `x`, `normalize x` contains no `%` and has no leading
or trailing white space; the zone suffix is removed by truncating the result of
`stripPort` at the first `%`; in particular `normalize "fe80::1%eth0" = "fe80::1"`. -/
theorem normalize_no_zone_trimmed (x : Str) :
    '%' ∉ normalize x ∧
      (∀ c, (normalize x).head? = some c → isSpace c = false) ∧
      (∀ c, (normalize x).getLast? = some c → isSpace c = false) ∧
      normalize x = TrimSpace (TrimPrefix ((stripPort x).takeWhile (fun c => c != '%'))
        "::ffff:".toList) ∧
      normalize "fe80::1%eth0".toList = "fe80::1".toList := by
  refine ⟨normalize_no_pct x, ?_, ?_, normalize_eq x, by decide⟩
  · rw [normalize_eq]; exact TrimSpace_head _
  · rw [normalize_eq]; exact TrimSpace_getLast _

/-! ## The theorems on `lookupGeo` and the handlers -/

/-- C11: for an `ip` whose cache entry `e` was stamped at `e.fetchedAt`, a
`lookupGeo` at time `now` returns exactly the stored record without error,
makes no outbound call and leaves the cache unchanged if and only if
`now - e.fetchedAt` is less than 5 minutes; when it is 5 minutes or more, or
the key is absent, the outbound call is made and the two results are those of
a fetch that sees no cache entry at all. -/
theorem lookupGeo_cache_check {F : Type} (w : Provider F) (cache : GeoCache)
    (now nowStore : Int) (ip : Str) :
    geoTTL = 300000000000 ∧
    (∀ e, cache ip = some e →
      (((lookupGeo w cache now nowStore ip).geo = some e.data ∧
          (lookupGeo w cache now nowStore ip).err = none ∧
          (lookupGeo w cache now nowStore ip).calls = [] ∧
          (lookupGeo w cache now nowStore ip).cache = cache) ↔
        now - e.fetchedAt < geoTTL) ∧
      (geoTTL ≤ now - e.fetchedAt →
        (lookupGeo w cache now nowStore ip).calls = [geoURL ip] ∧
        (lookupGeo w cache now nowStore ip).geo =
          (fetchGeo w (fun _ => none) nowStore ip).geo ∧
        (lookupGeo w cache now nowStore ip).err =
          (fetchGeo w (fun _ => none) nowStore ip).err)) ∧
    (cache ip = none →
      (lookupGeo w cache now nowStore ip).calls = [geoURL ip] ∧
      (lookupGeo w cache now nowStore ip).geo = (fetchGeo w (fun _ => none) nowStore ip).geo ∧
      (lookupGeo w cache now nowStore ip).err =
        (fetchGeo w (fun _ => none) nowStore ip).err) := by
  have hmiss : (∀ e, cache ip = some e → geoTTL ≤ now - e.fetchedAt) →
      (lookupGeo w cache now nowStore ip).calls = [geoURL ip] ∧
      (lookupGeo w cache now nowStore ip).geo = (fetchGeo w (fun _ => none) nowStore ip).geo ∧
      (lookupGeo w cache now nowStore ip).err =
        (fetchGeo w (fun _ => none) nowStore ip).err := by
    intro h
    rw [lookupGeo_miss w cache now nowStore ip h]
    exact ⟨fetchGeo_calls _ _ _ _, (fetchGeo_results _ _ _ _ _).1, (fetchGeo_results _ _ _ _ _).2⟩
  refine ⟨by decide, ?_, ?_⟩
  · intro e he
    have hstale : geoTTL ≤ now - e.fetchedAt →
        ∀ e2, cache ip = some e2 → geoTTL ≤ now - e2.fetchedAt := by
      intro h e2 he2
      rw [he] at he2
      rw [← Option.some.inj he2]
      exact h
    refine ⟨⟨?_, ?_⟩, fun h => hmiss (hstale h)⟩
    · intro h
      by_contra hn
      have hc := (hmiss (hstale (by omega))).1
      rw [h.2.2.1] at hc
      exact absurd hc (by simp)
    · intro h
      rw [lookupGeo_fresh w cache now nowStore ip e he h]
      exact ⟨rfl, rfl, rfl, rfl⟩
  · intro hnone
    exact hmiss (fun e he => by rw [hnone] at he; exact absurd he (by simp))

/-- Witness for C11: an entry for `192.0.2.10` stamped at time 0 and a lookup
at exactly 5 minutes: the outbound call is made. -/
theorem lookupGeo_cache_check_witness :
    geoTTL ≤ 300000000000 - (0 : Int) ∧
      (lookupGeo (F := Unit) ⟨fun _ => Fetch.transportError, fun _ _ => []⟩
        (fun k => if k = "192.0.2.10".toList
          then some ⟨⟨"192.0.2.10".toList, [], [], [], [], [], []⟩, 0⟩ else none)
        300000000000 300000000001 "192.0.2.10".toList).calls = [geoURL "192.0.2.10".toList] :=
  ⟨by decide,
    (((lookupGeo_cache_check (F := Unit) ⟨fun _ => Fetch.transportError, fun _ _ => []⟩
      (fun k => if k = "192.0.2.10".toList
        then some ⟨⟨"192.0.2.10".toList, [], [], [], [], [], []⟩, 0⟩ else none)
      300000000000 300000000001 "192.0.2.10".toList).2.1
      ⟨⟨"192.0.2.10".toList, [], [], [], [], [], []⟩, 0⟩ (by decide)).2 (by decide)).1⟩

/-- C12: for an `ip` with no fresh cache entry, if the enrichment fails on any
path (transport error, body read error, JSON parse error, or a parsed reply
whose status is not `success`), `lookupGeo` returns an error and no record,
and the cache map is exactly what it was before the call. -/
theorem lookupGeo_failure {F : Type} (w : Provider F) (cache : GeoCache)
    (now nowStore : Int) (ip : Str)
    (hmiss : ∀ e, cache ip = some e → geoTTL ≤ now - e.fetchedAt)
    (hfail : (w.get (geoURL ip)).failed = true) :
    (lookupGeo w cache now nowStore ip).geo = none ∧
      (lookupGeo w cache now nowStore ip).err ≠ none ∧
      (lookupGeo w cache now nowStore ip).cache = cache := by
  rw [lookupGeo_miss w cache now nowStore ip hmiss]
  exact fetchGeo_failed w cache nowStore ip hfail

/-- Witness for C12: a stale entry for `192.0.2.10` and a reply with the
status `fail`. -/
theorem lookupGeo_failure_witness :
    (Fetch.parsed (F := Unit)
        ⟨"fail".toList, [], [], [], [], [], (), (), [], [], [], [], []⟩).failed = true ∧
      (lookupGeo (F := Unit)
        ⟨fun _ => Fetch.parsed ⟨"fail".toList, [], [], [], [], [], (), (), [], [], [], [], []⟩,
          fun _ _ => []⟩
        (fun k => if k = "192.0.2.10".toList
          then some ⟨⟨"192.0.2.10".toList, [], [], [], [], [], []⟩, 0⟩ else none)
        300000000000 300000000001 "192.0.2.10".toList).err ≠ none :=
  ⟨by decide,
    (lookupGeo_failure (F := Unit)
      ⟨fun _ => Fetch.parsed ⟨"fail".toList, [], [], [], [], [], (), (), [], [], [], [], []⟩,
        fun _ _ => []⟩
      (fun k => if k = "192.0.2.10".toList
        then some ⟨⟨"192.0.2.10".toList, [], [], [], [], [], []⟩, 0⟩ else none)
      300000000000 300000000001 "192.0.2.10".toList
      (by
        intro e he
        dsimp only at he
        rw [if_pos rfl] at he
        rw [← Option.some.inj he]
        decide)
      (by decide)).2.1⟩

/-- C13: for an `ip` with no fresh cache entry and a provider reply `raw` with
status `success`, `lookupGeo` returns without error the record with `IP` the
input `ip` (not the field `Query` of the reply), `City`, `Region = RegionName`,
`Country = CountryCode`, `Org = AS` and `Timezone` of the reply; afterwards the
cache maps `ip` to that record stamped with the reading of the clock at the
store, and the entry of every other key is unchanged. -/
theorem lookupGeo_success {F : Type} (w : Provider F) (cache : GeoCache)
    (now nowStore : Int) (ip : Str) (raw : ipAPIResponse F)
    (hmiss : ∀ e, cache ip = some e → geoTTL ≤ now - e.fetchedAt)
    (hget : w.get (geoURL ip) = Fetch.parsed raw) (hs : raw.Status = "success".toList) :
    (lookupGeo w cache now nowStore ip).geo =
        some ⟨ip, raw.City, raw.RegionName, raw.CountryCode, w.fmtLoc raw.Lat raw.Lon, raw.AS,
          raw.Timezone⟩ ∧
      (lookupGeo w cache now nowStore ip).err = none ∧
      (lookupGeo w cache now nowStore ip).cache ip =
        some ⟨⟨ip, raw.City, raw.RegionName, raw.CountryCode, w.fmtLoc raw.Lat raw.Lon, raw.AS,
          raw.Timezone⟩, nowStore⟩ ∧
      (∀ k, k ≠ ip → (lookupGeo w cache now nowStore ip).cache k = cache k) := by
  rw [lookupGeo_miss w cache now nowStore ip hmiss]
  unfold fetchGeo
  dsimp only
  rw [hget]
  dsimp only
  rw [if_neg (by rw [hs]; exact fun h => h rfl)]
  refine ⟨rfl, rfl, ?_, ?_⟩
  · simp [GeoCache.store]
  · intro k hk
    simp [GeoCache.store, hk]

/-- Witness for C13: an empty cache and a successful reply for `192.0.2.10`
whose field `Query` is another address. -/
theorem lookupGeo_success_witness :
    (lookupGeo (F := Unit)
        ⟨fun _ => Fetch.parsed ⟨"success".toList, "Wonderland".toList, "WL".toList,
            "R1".toList, "Region One".toList, "Town".toList, (), (), "Etc/UTC".toList,
            "ISP".toList, "Org".toList, "AS64500 Example".toList, "198.51.100.9".toList⟩,
          fun _ _ => "0.0000,0.0000".toList⟩
        (fun _ => none) 0 1 "192.0.2.10".toList).geo =
      some ⟨"192.0.2.10".toList, "Town".toList, "Region One".toList, "WL".toList,
        "0.0000,0.0000".toList, "AS64500 Example".toList, "Etc/UTC".toList⟩ :=
  (lookupGeo_success (F := Unit)
    ⟨fun _ => Fetch.parsed ⟨"success".toList, "Wonderland".toList, "WL".toList,
        "R1".toList, "Region One".toList, "Town".toList, (), (), "Etc/UTC".toList,
        "ISP".toList, "Org".toList, "AS64500 Example".toList, "198.51.100.9".toList⟩,
      fun _ _ => "0.0000,0.0000".toList⟩
    (fun _ => none) 0 1 "192.0.2.10".toList _
    (fun e he => absurd he (by simp)) rfl rfl).1

/-- C14: when `clientIP` is empty, `geoHandler` answers with status 400 and an
error document, makes no lookup (no outbound call, cache unchanged); when
`clientIP` is a non-empty `a` and `lookupGeo` fails, it answers with status 200
and the record `{ip: a}` whose other six fields are empty strings. -/
theorem geoHandler_degraded {F : Type} (w : Provider F) (cache : GeoCache)
    (now nowStore : Int) (r : Request) :
    (clientIP r = [] →
      (geoHandler w cache now nowStore r).response =
        ⟨400, "application/json".toList,
          JSONBody.error "could not determine client IP".toList⟩ ∧
      (geoHandler w cache now nowStore r).calls = [] ∧
      (geoHandler w cache now nowStore r).cache = cache) ∧
    (clientIP r ≠ [] → (lookupGeo w cache now nowStore (clientIP r)).err ≠ none →
      (geoHandler w cache now nowStore r).response =
        ⟨200, "application/json".toList,
          JSONBody.geo ⟨clientIP r, [], [], [], [], [], []⟩⟩) := by
  constructor
  · intro h
    unfold geoHandler
    dsimp only
    rw [if_pos h]
    exact ⟨rfl, rfl, rfl⟩
  · intro h herr
    unfold geoHandler
    dsimp only
    rw [if_neg h]
    cases he : (lookupGeo w cache now nowStore (clientIP r)).err with
    | none => exact absurd he herr
    | some e => rfl

/-- Witness for C14: a request without any address answers 400; a request from
the peer `192.0.2.10:443` with a failing provider answers 200 with the record
`{ip: 192.0.2.10}`. -/
theorem geoHandler_degraded_witness :
    clientIP ⟨[], [], []⟩ = [] ∧
      (geoHandler (F := Unit) ⟨fun _ => Fetch.transportError, fun _ _ => []⟩ (fun _ => none)
        0 1 ⟨[], [], []⟩).response.status = 400 ∧
      clientIP ⟨[], [], "192.0.2.10:443".toList⟩ = "192.0.2.10".toList ∧
      (geoHandler (F := Unit) ⟨fun _ => Fetch.transportError, fun _ _ => []⟩ (fun _ => none)
        0 1 ⟨[], [], "192.0.2.10:443".toList⟩).response =
        ⟨200, "application/json".toList,
          JSONBody.geo ⟨clientIP ⟨[], [], "192.0.2.10:443".toList⟩, [], [], [], [], [], []⟩⟩ :=
  ⟨by decide,
    congrArg JSONResponse.status
      ((geoHandler_degraded (F := Unit) ⟨fun _ => Fetch.transportError, fun _ _ => []⟩
        (fun _ => none) 0 1 ⟨[], [], []⟩).1 (by decide)).1,
    by decide,
    (geoHandler_degraded (F := Unit) ⟨fun _ => Fetch.transportError, fun _ _ => []⟩
      (fun _ => none) 0 1 ⟨[], [], "192.0.2.10:443".toList⟩).2 (by decide) (by decide)⟩

/-- C15: `textHandler` gives the response that the specification words with
`clientIP`: status 200 and the body `clientIP r` followed by a newline when
`clientIP r` is non-empty, status 204 and an empty body when it is empty. -/
theorem textHandler_refines (r : Request) :
    textHandler r = textHandlerSpec r ∧
      (clientIP r ≠ [] → (textHandler r).status = 200 ∧
        (textHandler r).body = clientIP r ++ "\n".toList) ∧
      (clientIP r = [] → (textHandler r).status = 204 ∧ (textHandler r).body = []) := by
  have key : textHandler r = textHandlerSpec r := by
    unfold textHandler textHandlerSpec clientIP
    dsimp only
    by_cases h6 : (extractIPs r).ipv6 = []
    · by_cases h4 : (extractIPs r).ipv4 = []
      · simp [h6, h4]
      · simp [h6, h4]
    · simp [h6]
  refine ⟨key, ?_, ?_⟩
  · intro h
    rw [key, textHandlerSpec, if_pos h]
    exact ⟨rfl, rfl⟩
  · intro h
    rw [key, textHandlerSpec, if_neg (by rw [h]; exact fun hn => hn rfl)]
    exact ⟨rfl, rfl⟩

/-- Witness for C15: the peer `192.0.2.10:443` without forwarding headers,
and a request without any address. -/
theorem textHandler_refines_witness :
    clientIP ⟨[], [], "192.0.2.10:443".toList⟩ ≠ [] ∧
      (textHandler ⟨[], [], "192.0.2.10:443".toList⟩).body = "192.0.2.10\n".toList ∧
      clientIP ⟨[], [], []⟩ = [] ∧ (textHandler ⟨[], [], []⟩).status = 204 :=
  ⟨by decide,
    ((textHandler_refines ⟨[], [], "192.0.2.10:443".toList⟩).2.1 (by decide)).2.trans
      (by decide),
    by decide, ((textHandler_refines ⟨[], [], []⟩).2.2 (by decide)).1⟩

/-! ## The theorems on mapped addresses, the forwarding chain and the peer -/

/-- C16, as amended: with no `CF-Connecting-IP` and no `X-Forwarded-For`
header and the peer address `"[::ffff:" ++ a ++ "]:" ++ p`, where `a` is a
valid dotted-quad IPv4 literal and `p` a decimal port, `extractIPs` returns
`a` in the `ipv4` slot (and as `remote`) and leaves the `ipv6` slot empty. -/
theorem extractIPs_peer_mapped (a p : Str) (ha : isIPv4Literal a = true)
    (hp : isDecimalPort p = true) :
    extractIPs ⟨[], [], "[::ffff:".toList ++ a ++ "]:".toList ++ p⟩ = ⟨a, [], [], a⟩ := by
  obtain ⟨f, hpa, _, hlen⟩ := ParseIP_mapped ha
  obtain ⟨b, hb⟩ := isIPv4Literal_spec ha
  have hch : ∀ c ∈ a, isAddrChar c = true :=
    fun c hc => isDigit_or_dot_addrChar (parseIPv4Fields_chars hb c hc)
  have hall : ∀ c ∈ "::ffff:".toList ++ a, isAddrChar c = true := by
    intro c hc
    rcases List.mem_append.1 hc with hc | hc
    · have hlit : ∀ d ∈ "::ffff:".toList, isAddrChar d = true := by decide
      exact hlit c hc
    · exact hch c hc
  have hpc := isDecimalPort_chars hp
  have hpch : ∀ c ∈ p, isAddrChar c = true := fun c hc => (hpc c hc).1
  have e : "[::ffff:".toList ++ a ++ "]:".toList ++ p =
      '[' :: (("::ffff:".toList ++ a) ++ ']' :: ':' :: p) := by
    simp [lit_ffff, show "[::ffff:".toList = ['[', ':', ':', 'f', 'f', 'f', 'f', ':'] from rfl,
      show "]:".toList = [']', ':'] from rfl]
  have hsplit : SplitHostPort ('[' :: (("::ffff:".toList ++ a) ++ ']' :: ':' :: p)) =
      some ("::ffff:".toList ++ a, p) :=
    SplitHostPort_bracket (not_mem_of_addrChars hall (by decide))
      (not_mem_of_addrChars hall (by decide)) (fun hc => (hpc _ hc).2 rfl)
      (not_mem_of_addrChars hpch (by decide)) (not_mem_of_addrChars hpch (by decide))
  rw [e]
  unfold extractIPs
  dsimp only
  rw [hsplit]
  dsimp only
  rw [normalize_mapped ha, hpa]
  simp [cfStep_nil, xffStep, To4_mapped hlen]

/-- Witness for the amended C16: the peer address `[::ffff:203.0.113.5]:443`. -/
theorem extractIPs_peer_mapped_witness :
    isIPv4Literal "203.0.113.5".toList = true ∧ isDecimalPort "443".toList = true ∧
      extractIPs ⟨[], [], "[::ffff:203.0.113.5]:443".toList⟩ =
        ⟨"203.0.113.5".toList, [], [], "203.0.113.5".toList⟩ :=
  ⟨by decide, by decide,
    extractIPs_peer_mapped "203.0.113.5".toList "443".toList (by decide) (by decide)⟩

/-- Counterexample to C16 as stated: `::ffff:cb00:7105` is a textual form of
the IPv4-mapped address `::ffff:203.0.113.5` that `ParseIP` accepts, but for
the peer address `[::ffff:cb00:7105]:443` `normalize` turns the host into
`cb00:7105`, which is no address, and both slots stay empty. -/
theorem extractIPs_peer_mapped_counterexample :
    (ParseIP "::ffff:cb00:7105".toList).map IPString = some "203.0.113.5".toList ∧
      ParseIP "::ffff:cb00:7105".toList = ParseIP "::ffff:203.0.113.5".toList ∧
      SplitHostPort "[::ffff:cb00:7105]:443".toList =
        some ("::ffff:cb00:7105".toList, "443".toList) ∧
      normalize "::ffff:cb00:7105".toList = "cb00:7105".toList ∧
      (extractIPs ⟨[], [], "[::ffff:cb00:7105]:443".toList⟩).ipv4 = [] ∧
      (extractIPs ⟨[], [], "[::ffff:cb00:7105]:443".toList⟩).ipv4 ≠ "203.0.113.5".toList := by
  decide

/-- C17: with no `CF-Connecting-IP` header, the header steps of `extractIPs`
leave in the `ipv4` slot the canonical text of the leftmost comma-separated
token of `X-Forwarded-For` that normalizes to a valid IPv4 address, and in the
`ipv6` slot that of the leftmost token that normalizes to a valid IPv6 address
(empty when there is none); these are the results of `extractIPs` for every
peer address as soon as one of them exists.  When no token normalizes to a
valid address the results `ipv4`, `ipv6` and `remote` are those of the request
without the header.  A header that differs only by a token that does not
normalize to a valid address, and more generally any header with the same
leftmost valid tokens, gives the same results; `rawXFF` is the header itself. -/
theorem extractIPs_xff_leftmost (xff ra : Str) :
    xffStep xff (cfStep []) =
        ((firstIPv4 (Split xff ',')).getD [], (firstIPv6 (Split xff ',')).getD []) ∧
      (∀ s, firstIPv4 (Split xff ',') = some s →
        (extractIPs ⟨[], xff, ra⟩).ipv4 = s ∧
        (extractIPs ⟨[], xff, ra⟩).ipv6 = (firstIPv6 (Split xff ',')).getD []) ∧
      (∀ s, firstIPv6 (Split xff ',') = some s →
        (extractIPs ⟨[], xff, ra⟩).ipv6 = s ∧
        (extractIPs ⟨[], xff, ra⟩).ipv4 = (firstIPv4 (Split xff ',')).getD []) ∧
      (∀ pre p post, ParseIP (normalize p) = none →
        firstIPv4 (pre ++ p :: post) = firstIPv4 (pre ++ post) ∧
        firstIPv6 (pre ++ p :: post) = firstIPv6 (pre ++ post)) ∧
      (firstIPv4 (Split xff ',') = none → firstIPv6 (Split xff ',') = none →
        (extractIPs ⟨[], xff, ra⟩).ipv4 = (extractIPs ⟨[], [], ra⟩).ipv4 ∧
        (extractIPs ⟨[], xff, ra⟩).ipv6 = (extractIPs ⟨[], [], ra⟩).ipv6 ∧
        (extractIPs ⟨[], xff, ra⟩).remote = (extractIPs ⟨[], [], ra⟩).remote) ∧
      ((∀ p ∈ Split xff ',', ParseIP (normalize p) = none) →
        (extractIPs ⟨[], xff, ra⟩).ipv4 = (extractIPs ⟨[], [], ra⟩).ipv4 ∧
        (extractIPs ⟨[], xff, ra⟩).ipv6 = (extractIPs ⟨[], [], ra⟩).ipv6) ∧
      (∀ xff2 pre p post, Split xff ',' = pre ++ p :: post → Split xff2 ',' = pre ++ post →
        ParseIP (normalize p) = none →
        (extractIPs ⟨[], xff, ra⟩).ipv4 = (extractIPs ⟨[], xff2, ra⟩).ipv4 ∧
        (extractIPs ⟨[], xff, ra⟩).ipv6 = (extractIPs ⟨[], xff2, ra⟩).ipv6) ∧
      (∀ xff2, firstIPv4 (Split xff2 ',') = firstIPv4 (Split xff ',') →
        firstIPv6 (Split xff2 ',') = firstIPv6 (Split xff ',') →
        (extractIPs ⟨[], xff2, ra⟩).ipv4 = (extractIPs ⟨[], xff, ra⟩).ipv4 ∧
        (extractIPs ⟨[], xff2, ra⟩).ipv6 = (extractIPs ⟨[], xff, ra⟩).ipv6) ∧
      (extractIPs ⟨[], xff, ra⟩).rawXFF = xff := by
  have hstep : xffStep xff (cfStep []) =
      ((firstIPv4 (Split xff ',')).getD [], (firstIPv6 (Split xff ',')).getD []) := by
    rw [cfStep_nil]; exact xffStep_nil_slots xff
  have hnone4 : firstIPv4 (Split [] ',') = none := by decide
  have hnone6 : firstIPv6 (Split [] ',') = none := by decide
  have hboth : firstIPv4 (Split xff ',') = none → firstIPv6 (Split xff ',') = none →
      (extractIPs ⟨[], xff, ra⟩).ipv4 = (extractIPs ⟨[], [], ra⟩).ipv4 ∧
      (extractIPs ⟨[], xff, ra⟩).ipv6 = (extractIPs ⟨[], [], ra⟩).ipv6 ∧
      (extractIPs ⟨[], xff, ra⟩).remote = (extractIPs ⟨[], [], ra⟩).remote := by
    intro h4 h6
    exact extractIPs_xff_congr xff [] ra (by rw [h4, hnone4]) (by rw [h6, hnone6])
  refine ⟨hstep, ?_, ?_, firstIPv4_skip, hboth, ?_, ?_, ?_, extractIPs_rawXFF _⟩
  · intro s hs
    have hne := firstIPv4_ne_nil _ s hs
    have := extractIPs_of_headers ⟨[], xff, ra⟩ (Or.inl (by rw [hstep, hs]; exact hne))
    rw [this.1, this.2, hstep, hs]
    exact ⟨rfl, rfl⟩
  · intro s hs
    have hne := firstIPv6_ne_nil _ s hs
    have := extractIPs_of_headers ⟨[], xff, ra⟩ (Or.inr (by rw [hstep, hs]; exact hne))
    rw [this.1, this.2, hstep, hs]
    exact ⟨rfl, rfl⟩
  · intro hall
    have h4 : firstIPv4 (Split xff ',') = none := firstIPv4_none_of_invalid _ hall
    have h6 : firstIPv6 (Split xff ',') = none := firstIPv6_none_of_invalid _ hall
    exact ⟨(hboth h4 h6).1, (hboth h4 h6).2.1⟩
  · intro xff2 pre p post h1 h2 hp
    have hs := firstIPv4_skip pre p post hp
    have := extractIPs_xff_congr xff xff2 ra (by rw [h1, h2]; exact hs.1)
      (by rw [h1, h2]; exact hs.2)
    exact ⟨this.1, this.2.1⟩
  · intro xff2 h4 h6
    have := extractIPs_xff_congr xff2 xff ra h4 h6
    exact ⟨this.1, this.2.1⟩

/-- Witness for C17: in the chain `junk, 198.51.100.9, 2001:db8::2, 203.0.113.7,
2001:db8::3` the first token is skipped and the later tokens of a filled
family do not overwrite the slots; the header `junk` alone leaves the result
to the peer address. -/
theorem extractIPs_xff_leftmost_witness :
    firstIPv4 (Split "junk, 198.51.100.9, 2001:db8::2, 203.0.113.7, 2001:db8::3".toList ',') =
        some "198.51.100.9".toList ∧
      (extractIPs ⟨[], "junk, 198.51.100.9, 2001:db8::2, 203.0.113.7, 2001:db8::3".toList,
        "192.0.2.10:443".toList⟩).ipv4 = "198.51.100.9".toList ∧
      (extractIPs ⟨[], "junk, 198.51.100.9, 2001:db8::2, 203.0.113.7, 2001:db8::3".toList,
        "192.0.2.10:443".toList⟩).ipv6 = "2001:db8::2".toList ∧
      (extractIPs ⟨[], "junk".toList, "192.0.2.10:443".toList⟩).ipv4 = "192.0.2.10".toList :=
  ⟨by decide,
    ((extractIPs_xff_leftmost
      "junk, 198.51.100.9, 2001:db8::2, 203.0.113.7, 2001:db8::3".toList
      "192.0.2.10:443".toList).2.1 "198.51.100.9".toList (by decide)).1,
    ((extractIPs_xff_leftmost
      "junk, 198.51.100.9, 2001:db8::2, 203.0.113.7, 2001:db8::3".toList
      "192.0.2.10:443".toList).2.2.1 "2001:db8::2".toList (by decide)).1,
    ((extractIPs_xff_leftmost "junk".toList "192.0.2.10:443".toList).2.2.2.2.1
      (by decide) (by decide)).1.trans (by decide)⟩

/-- C19, as amended: for every string `x` that `ParseIP` accepts, if `x` does
not begin with `::ffff:` then `normalize x = x`, and if `x` is `::ffff:`
followed by a valid dotted-quad IPv4 literal `a` then `normalize x = a`; in
both cases `normalize x` is accepted and parses to the same address as `x`. -/
theorem normalize_preserves (x : Str) (ip : IP) (h : ParseIP x = some ip) :
    (HasPrefix x "::ffff:".toList = false →
      normalize x = x ∧ ParseIP (normalize x) = some ip) ∧
    (∀ a, isIPv4Literal a = true → x = "::ffff:".toList ++ a →
      normalize x = a ∧ ParseIP (normalize x) = some ip) := by
  constructor
  · intro hp
    have := normalize_of_ParseIP h hp
    rw [this]
    exact ⟨rfl, h⟩
  · intro a ha hx
    subst hx
    obtain ⟨f, h1, h2, _⟩ := ParseIP_mapped ha
    rw [normalize_mapped ha, h1, ← h2, h]
    exact ⟨rfl, rfl⟩

/-- Witness for the amended C19: the texts `2001:db8::1` and
`::ffff:203.0.113.5`. -/
theorem normalize_preserves_witness :
    ParseIP "2001:db8::1".toList =
        some [0x20, 0x01, 0x0d, 0xb8, 0, 0, 0, 0, 0, 0, 0, 0, 0, 0, 0, 1] ∧
      normalize "2001:db8::1".toList = "2001:db8::1".toList ∧
      ParseIP "::ffff:203.0.113.5".toList =
        some [0, 0, 0, 0, 0, 0, 0, 0, 0, 0, 0xff, 0xff, 203, 0, 113, 5] ∧
      ParseIP (normalize "::ffff:203.0.113.5".toList) =
        some [0, 0, 0, 0, 0, 0, 0, 0, 0, 0, 0xff, 0xff, 203, 0, 113, 5] :=
  ⟨by decide,
    ((normalize_preserves "2001:db8::1".toList
      [0x20, 0x01, 0x0d, 0xb8, 0, 0, 0, 0, 0, 0, 0, 0, 0, 0, 0, 1] (by decide)).1
      (by decide)).1,
    by decide,
    ((normalize_preserves "::ffff:203.0.113.5".toList
      [0, 0, 0, 0, 0, 0, 0, 0, 0, 0, 0xff, 0xff, 203, 0, 113, 5] (by decide)).2
      "203.0.113.5".toList (by decide) (by decide)).2⟩

/-- Counterexample to C19 as stated: `ParseIP` accepts `::ffff:c000:20a` (the
IPv4-mapped address of `192.0.2.10`), but `normalize` turns it into
`c000:20a`, which `ParseIP` rejects; sent in `CF-Connecting-IP`, the address
is discarded. -/
theorem normalize_preserves_counterexample :
    (ParseIP "::ffff:c000:20a".toList).map IPString = some "192.0.2.10".toList ∧
      normalize "::ffff:c000:20a".toList = "c000:20a".toList ∧
      ParseIP (normalize "::ffff:c000:20a".toList) = none ∧
      (extractIPs ⟨"::ffff:c000:20a".toList, [], []⟩).ipv4 = [] ∧
      (extractIPs ⟨"::ffff:c000:20a".toList, [], []⟩).ipv6 = [] := by
  decide

end Ipv6test
